import Mathlib

/-!
# A verification model of the `btree` Go package

This file is a shallow embedding in Lean 4 of the persistent B+tree package
`jsouthworth.net/go/btree` (sources: `leafnode.go`, `internalnode.go`,
`stitch.go`, and the package file defining `BTree`, `TBTree` and `Iterator`).

Modelling conventions, used throughout:

* Go slices of keys/children become Lean `List`s.  A Go slice expression
  `xs[a:b]` becomes `seg xs a b`.  Go's `copy` is a `memmove`; the stitcher
  idiom in the source assembles a destination array from contiguous source
  ranges, and we model each such assembly by the list concatenation it
  produces (for the few in-place stitches that overlap, the memmove
  semantics makes the outcome the same concatenation; this is noted at each
  site).
* A node's `len` field always equals the number of live keys, so the model
  stores exactly the live keys in the `keys` list.  A *leaf* additionally
  carries `cap`, the allocated size of its Go key array (`len(n.keys)` in
  Go): transient leaves are over-allocated (`newLeaf`), and `leafNode.add`
  branches on `n.len < len(n.keys)`, so capacity is observable and must be
  modelled.  No operation inspects the capacity of an internal node's
  arrays, so internal nodes are modelled without one.
* The shared mutable *edit token* cell of each node is modelled by a boolean
  field `ed` holding the value the node's token currently reads
  (`n.edit.Load()`, i.e. `isEditable`).  Freezing a transient
  (`AsPersistent`) writes `false` into the single shared cell; the model
  realises the effect of that single write by mapping all node flags to
  `false` (`freeze`).
* In-place mutation (`modifyInPlace`, `removeInPlace`, the in-place sides of
  the borrows) updates a node that the parent already points to; the parent
  observes the update through aliasing while the operation reports
  `returnEarly`.  In the pure model the updated node is passed back
  explicitly in the `early` return and re-installed by the caller.
* `sort.Search n f` on a monotone predicate (monotone here because node keys
  are sorted) returns the least index at which `f` holds, or `n`; we embed
  it as `List.findIdx`.
* Go `panic` on programmer misuse (`ensureEditable`) becomes `Except.error`.
-/

set_option linter.unusedSectionVars false

namespace BtreeSpec

/-- `maxLen = 64` in the source. -/
def maxLen : Nat := 64
/-- `minLen = maxLen >> 1 = 32` in the source. -/
def minLen : Nat := maxLen >>> 1
/-- `expandLen = 8` in the source. -/
def expandLen : Nat := 8
/-- `maxIterDepth = (64+1)/5 = 13` in the source. -/
def maxIterDepth : Nat := (64 + 1) / 5

/-- Go slice `xs[a:b]`. -/
def seg {α : Type _} (xs : List α) (a b : Nat) : List α :=
  (xs.take b).drop a

/-- A B+tree node.  `leaf ed cap keys` models `leafNode` (file `leafnode.go`):
`ed` is the current reading of the node's edit token, `cap` the allocated key
array size, `keys` the `len` live keys.  `internal ed keys children` models
`internalNode` (file `internalnode.go`) with its parallel `keys`/`children`
arrays. -/
inductive BNode (T : Type) where
  | leaf (ed : Bool) (cap : Nat) (keys : List T)
  | internal (ed : Bool) (keys : List T) (children : List (BNode T))

namespace BNode

variable {T : Type}

instance : Inhabited (BNode T) := ⟨leaf false 0 []⟩

/-- `isEditable`: the node's token currently reads true. -/
def isEditable : BNode T → Bool
  | leaf ed _ _ => ed
  | internal ed _ _ => ed

/-- The keys stored in a node (the live part of the `keys` array). -/
def nkeys : BNode T → List T
  | leaf _ _ keys => keys
  | internal _ keys _ => keys

/-- A node's `len` field (number of live keys / children). -/
def nlen : BNode T → Nat
  | leaf _ _ keys => keys.length
  | internal _ keys _ => keys.length

/-- `maxKey`: `n.keys[n.len-1]`. -/
def maxKey [Inhabited T] : BNode T → T
  | leaf _ _ keys => keys.getLastD default
  | internal _ keys _ => keys.getLastD default

mutual
/-- In-order contents of a node (left to right). -/
def toList : BNode T → List T
  | leaf _ _ keys => keys
  | internal _ _ children => (toListL children).flatten

/-- In-order contents of each node of a list of nodes. -/
def toListL : List (BNode T) → List (List T)
  | [] => []
  | c :: cs => toList c :: toListL cs
end

@[simp] theorem toListL_nil : toListL ([] : List (BNode T)) = [] := rfl

@[simp] theorem toListL_cons (c : BNode T) (cs : List (BNode T)) :
    toListL (c :: cs) = toList c :: toListL cs := rfl

theorem toListL_eq_map (cs : List (BNode T)) : toListL cs = cs.map toList := by
  induction cs with
  | nil => rfl
  | cons c cs ih => simp [ih]

@[simp] theorem toList_leaf (ed : Bool) (cap : Nat) (keys : List T) :
    toList (leaf ed cap keys) = keys := rfl

@[simp] theorem toList_internal (ed : Bool) (keys : List T)
    (children : List (BNode T)) :
    toList (internal ed keys children) = (children.map toList).flatten := by
  rw [toList, toListL_eq_map]

mutual
/-- A size measure used for termination arguments. -/
def nsize : BNode T → Nat
  | leaf _ _ keys => keys.length + 1
  | internal _ _ children => nsizeL children + 1

/-- Total size of a list of nodes. -/
def nsizeL : List (BNode T) → Nat
  | [] => 0
  | c :: cs => nsize c + nsizeL cs
end

@[simp] theorem nsizeL_nil : nsizeL ([] : List (BNode T)) = 0 := rfl

@[simp] theorem nsizeL_cons (c : BNode T) (cs : List (BNode T)) :
    nsizeL (c :: cs) = nsize c + nsizeL cs := rfl

theorem nsize_pos (n : BNode T) : 0 < nsize n := by
  cases n <;> simp [nsize]

theorem nsizeL_eq_sum (cs : List (BNode T)) :
    nsizeL cs = (cs.map nsize).sum := by
  induction cs with
  | nil => rfl
  | cons c cs ih => simp [ih]

theorem nsize_of_mem {c : BNode T} {cs : List (BNode T)} (h : c ∈ cs) :
    nsize c ≤ nsizeL cs := by
  induction cs with
  | nil => cases h
  | cons d ds ih =>
    rcases List.mem_cons.mp h with rfl | h
    · simp
    · have := ih h
      simp
      omega

mutual
/-- Structural equality test, modelling Go pointer comparison of roots in
`AsPersistent` (see the comment there). -/
def beq [DecidableEq T] : BNode T → BNode T → Bool
  | leaf e1 c1 k1, leaf e2 c2 k2 =>
    e1 == e2 && c1 == c2 && decide (k1 = k2)
  | internal e1 k1 cs1, internal e2 k2 cs2 =>
    e1 == e2 && decide (k1 = k2) && beqL cs1 cs2
  | _, _ => false

/-- Pointwise `beq` on node lists. -/
def beqL [DecidableEq T] : List (BNode T) → List (BNode T) → Bool
  | [], [] => true
  | a :: as, b :: bs => beq a b && beqL as bs
  | _, _ => false
end

mutual
theorem beq_iff_eq [DecidableEq T] :
    ∀ a b : BNode T, (beq a b = true) ↔ a = b
  | .leaf e1 c1 k1, .leaf e2 c2 k2 => by simp [beq, and_assoc]
  | .leaf _ _ _, .internal _ _ _ => by simp [beq]
  | .internal _ _ _, .leaf _ _ _ => by simp [beq]
  | .internal e1 k1 cs1, .internal e2 k2 cs2 => by
    simp [beq, beqL_iff_eq cs1 cs2, and_assoc]

theorem beqL_iff_eq [DecidableEq T] :
    ∀ as bs : List (BNode T), (beqL as bs = true) ↔ as = bs
  | [], [] => by simp [beqL]
  | [], _ :: _ => by simp [beqL]
  | _ :: _, [] => by simp [beqL]
  | a :: as, b :: bs => by
    simp [beqL, beq_iff_eq a b, beqL_iff_eq as bs]
end

instance [DecidableEq T] : DecidableEq (BNode T) := fun a b =>
  decidable_of_iff (beq a b = true) (beq_iff_eq a b)

/-- Induction over a node, with the inductive hypothesis available for every
child of an internal node. -/
theorem inductionOn {motive : BNode T → Prop}
    (hleaf : ∀ ed cap keys, motive (leaf ed cap keys))
    (hinternal : ∀ ed keys children,
      (∀ c ∈ children, motive c) → motive (internal ed keys children)) :
    ∀ n, motive n := by
  have main : ∀ k (n : BNode T), nsize n ≤ k → motive n := by
    intro k
    induction k with
    | zero =>
      intro n hn
      have := nsize_pos n
      omega
    | succ k ih =>
      intro n hn
      cases n with
      | leaf ed cap keys => exact hleaf ed cap keys
      | internal ed keys children =>
        refine hinternal ed keys children (fun c hc => ih c ?_)
        have h1 := nsize_of_mem hc
        have h2 : nsize (internal ed keys children) = nsizeL children + 1 := rfl
        omega
  exact fun n => main (nsize n) n le_rfl

mutual
/-- Set every edit flag to false: the observable effect, on the nodes owned
by a transient, of `AsPersistent` writing `false` into the single shared
edit-token cell. -/
def freeze : BNode T → BNode T
  | leaf _ cap keys => leaf false cap keys
  | internal _ keys children => internal false keys (freezeL children)

/-- `freeze` on each node of a list. -/
def freezeL : List (BNode T) → List (BNode T)
  | [] => []
  | c :: cs => freeze c :: freezeL cs
end

end BNode

section Search

variable {T : Type} (cmp : T → T → Int)

/-- `searchFirst` / `sort.Search`: least index `i` with `cmp keys[i] key ≥ 0`,
or `keys.length` if none. -/
def lsearchFirst (keys : List T) (key : T) : Nat :=
  keys.findIdx (fun k => 0 ≤ cmp k key)

/-- `search`: index of the compare-equal key, or `-ins-1` where `ins` is the
insertion point. -/
def lsearch [Inhabited T] (keys : List T) (key : T) : Int :=
  let i := lsearchFirst cmp keys key
  if i < keys.length ∧ cmp key (keys.getD i default) = 0 then (i : Int)
  else -(i : Int) - 1

/-- `searchEq`: like `search` but with the replace flag: a compare-equal key
that is not `eq`-equal reports `(-i-1, true)`. -/
def lsearchEq [Inhabited T] (eq : T → T → Bool) (keys : List T) (key : T) :
    Int × Bool :=
  let i := lsearchFirst cmp keys key
  if i < keys.length ∧ cmp key (keys.getD i default) = 0 then
    if eq key (keys.getD i default) then ((i : Int), false)
    else (-(i : Int) - 1, true)
  else (-(i : Int) - 1, false)

end Search

/-- The tagged result of a node-level structural operation (`nodeReturn` /
`returnStatus` in the source).  `early` carries the in-place-updated node
(see the module comment on aliasing); `three`'s outer slots are nil-able. -/
inductive NodeRet (T : Type) where
  | unchanged
  | early (n : BNode T)
  | replaced (n : BNode T)
  | one (n : BNode T)
  | two (n1 n2 : BNode T)
  | three (l : Option (BNode T)) (c : BNode T) (r : Option (BNode T))

namespace BNode

variable {T : Type}

/-- Key-array capacity of a leaf (`len(n.keys)` in Go). -/
def lcap : BNode T → Nat
  | leaf _ cap _ => cap
  | internal _ _ _ => 0

/-- Children of an internal node. -/
def ichildren : BNode T → List (BNode T)
  | leaf _ _ _ => []
  | internal _ _ cs => cs

/-- `canJoin` (with Go's nil-receiver convention: false on nil). -/
def canJoin (o : Option (BNode T)) (newLen : Nat) : Bool :=
  match o with
  | none => false
  | some m => m.nlen + newLen < maxLen

end BNode

/-- Rebuild a `nodeReturn{status, [n]}` whose status was `returnReplaced` or
`returnOne`. -/
def statusRet {T : Type} (isRepl : Bool) (n : BNode T) : NodeRet T :=
  if isRepl then .replaced n else .one n

/-- Key-array size allocated by `newLeaf`: over-allocated under an active
transient. -/
def newLeafCap (len : Nat) (edit : Bool) : Nat :=
  if edit then min maxLen (len + expandLen) else len

section LeafOps

variable {T : Type} [Inhabited T] [DecidableEq T]
variable (cmp : T → T → Int) (eq : T → T → Bool)

open BNode

/-- `leafNode.modifyInPlace`. -/
def leafModifyInPlace (ed : Bool) (cap : Nat) (keys : List T) (ins : Nat)
    (key : T) (replace : Bool) : NodeRet T :=
  if replace then
    .replaced (.leaf ed cap (keys.set ins key))
  else if ins = keys.length then
    .one (.leaf ed cap (keys ++ [key]))
  else
    -- copy(n.keys[ins+1:], n.keys[ins:n.len]); n.keys[ins] = key; n.len++
    .early (.leaf ed cap (keys.take ins ++ key :: keys.drop ins))

/-- `leafNode.copyAndInsertNode`. -/
def leafCopyAndInsertNode (keys : List T) (ins : Nat) (key : T) (edit : Bool) :
    NodeRet T :=
  .one (.leaf edit (newLeafCap (keys.length + 1) edit)
    (keys.take ins ++ key :: keys.drop ins))

/-- `leafNode.copyAndReplaceNode`. -/
def leafCopyAndReplaceNode (keys : List T) (ins : Nat) (key : T)
    (edit : Bool) : NodeRet T :=
  .replaced (.leaf edit (newLeafCap keys.length edit) (keys.set ins key))

/-- `leafNode.split`. -/
def leafSplit (keys : List T) (ins : Nat) (key : T) (edit : Bool) :
    NodeRet T :=
  let firstHalf := (keys.length + 1) / 2
  let secondHalf := keys.length + 1 - firstHalf
  if ins < firstHalf then
    .two (.leaf edit (newLeafCap firstHalf edit)
            (keys.take ins ++ key :: seg keys ins (firstHalf - 1)))
         (.leaf edit (newLeafCap secondHalf edit)
            (seg keys (firstHalf - 1) keys.length))
  else
    .two (.leaf edit (newLeafCap firstHalf edit) (keys.take firstHalf))
         (.leaf edit (newLeafCap secondHalf edit)
            (seg keys firstHalf ins ++ key :: seg keys ins keys.length))

/-- `leafNode.add`. -/
def leafAdd (ed : Bool) (cap : Nat) (keys : List T) (key : T) (edit : Bool) :
    NodeRet T :=
  let r := lsearchEq cmp eq keys key
  if 0 ≤ r.1 ∧ r.2 = false then .unchanged
  else
    let ins := (-r.1 - 1).toNat
    if ed = true ∧ (keys.length < cap ∨ r.2 = true) then
      leafModifyInPlace ed cap keys ins key r.2
    else if r.2 = true then
      leafCopyAndReplaceNode keys ins key edit
    else if keys.length < maxLen then
      leafCopyAndInsertNode keys ins key edit
    else
      leafSplit keys ins key edit

/-- `leafNode.borrowLeft` (the sibling `l` is known non-nil).  The in-place
sides rebuild the same key sequences that the source's overlapping
`copy`/`memmove` calls produce. -/
def leafBorrowLeft (ed : Bool) (cap : Nat) (keys : List T) (idx : Nat)
    (l : BNode T) (ro : Option (BNode T)) (edit : Bool) : NodeRet T :=
  let newLen := keys.length - 1
  let totalLen := l.nlen + newLen
  let newLeftLen := totalLen / 2
  let newCenterLen := totalLen - newLeftLen
  let centerKeys :=
    seg l.nkeys newLeftLen l.nlen ++ keys.take idx ++ seg keys (idx + 1) keys.length
  let newCenter :=
    if ed = true ∧ newCenterLen ≤ cap then BNode.leaf ed cap centerKeys
    else BNode.leaf edit (newLeafCap newCenterLen edit) centerKeys
  let newLeft :=
    if l.isEditable then BNode.leaf l.isEditable l.lcap (l.nkeys.take newLeftLen)
    else BNode.leaf edit (newLeafCap newLeftLen edit) (l.nkeys.take newLeftLen)
  .three (some newLeft) newCenter ro

/-- `leafNode.borrowRight` (the sibling `r` is known non-nil). -/
def leafBorrowRight (ed : Bool) (cap : Nat) (keys : List T) (idx : Nat)
    (lo : Option (BNode T)) (r : BNode T) (edit : Bool) : NodeRet T :=
  let newLen := keys.length - 1
  let totalLen := newLen + r.nlen
  let newCenterLen := totalLen / 2
  let newRightLen := totalLen - newCenterLen
  let rightHead := r.nlen - newRightLen
  let centerKeys :=
    keys.take idx ++ seg keys (idx + 1) keys.length ++ r.nkeys.take rightHead
  let newCenter :=
    if ed = true ∧ newCenterLen ≤ cap then BNode.leaf ed cap centerKeys
    else BNode.leaf edit (newLeafCap newCenterLen edit) centerKeys
  let newRight :=
    if r.isEditable then BNode.leaf r.isEditable r.lcap (seg r.nkeys rightHead r.nlen)
    else BNode.leaf edit (newLeafCap newRightLen edit) (seg r.nkeys rightHead r.nlen)
  .three lo newCenter (some newRight)

/-- `leafNode.remove`.  `lo`/`ro` are the nil-able siblings the parent passed
down. -/
def leafRemove (ed : Bool) (cap : Nat) (keys : List T) (key : T)
    (lo ro : Option (BNode T)) (edit : Bool) : NodeRet T :=
  let v := lsearch cmp keys key
  if v < 0 then .unchanged
  else
    let idx := v.toNat
    let newLen := keys.length - 1
    let erased := keys.take idx ++ keys.drop (idx + 1)
    if ¬(newLen < minLen ∧ (lo.isSome ∨ ro.isSome)) then
      -- !needsMerge
      if ed = true then
        -- removeInPlace
        if idx = newLen then .three lo (.leaf ed cap erased) ro
        else .early (.leaf ed cap erased)
      else
        -- copyAndRemoveIdx
        .three lo (.leaf edit (newLeafCap newLen edit) erased) ro
    else if canJoin lo newLen then
      -- joinLeft
      .three none
        (.leaf edit (newLeafCap ((lo.getD default).nlen + newLen) edit)
          ((lo.getD default).nkeys ++ erased)) ro
    else if canJoin ro newLen then
      -- joinRight
      .three lo
        (.leaf edit (newLeafCap ((ro.getD default).nlen + newLen) edit)
          (erased ++ (ro.getD default).nkeys)) none
    else if lo.isSome ∧ ((lo.getD default).isEditable = true ∨ ro = none ∨
        (ro.getD default).nlen ≤ (lo.getD default).nlen) then
      leafBorrowLeft ed cap keys idx (lo.getD default) ro edit
    else if ro.isSome then
      leafBorrowRight ed cap keys idx lo (ro.getD default) edit
    else
      .unchanged  -- Go: panic("unreachable")

end LeafOps

section InternalOps

variable {T : Type} [Inhabited T] [DecidableEq T]
variable (cmp : T → T → Int) (eq : T → T → Bool)

open BNode

/-- `internalNode.modifyInPlace` (`isRepl` records whether the child's status
was `returnReplaced`). -/
def internalModifyInPlace (ed : Bool) (keys : List T)
    (children : List (BNode T)) (ins : Nat) (c : BNode T) (isRepl : Bool) :
    NodeRet T :=
  let keys2 := keys.set ins c.maxKey
  let n2 : BNode T := .internal ed keys2 (children.set ins c)
  if ins = keys.length - 1 ∧ eq c.maxKey (keys2.getLastD default) then
    statusRet isRepl n2
  else if isRepl then .replaced n2
  else .early n2

/-- `internalNode.copyAndModify`.  The source shares the old `keys` array
when the separator is `eq`-unchanged and the old `children` array when the
returned child is pointer-equal to the stored one; pointer equality of the
freshly returned child with the stored child coincides with structural
equality here. -/
def internalCopyAndModify (edit : Bool) (keys : List T)
    (children : List (BNode T)) (ins : Nat) (c : BNode T) (isRepl : Bool) :
    NodeRet T :=
  let newKeys :=
    if eq c.maxKey (keys.getD ins default) then keys else keys.set ins c.maxKey
  let newChildren :=
    if c = children.getD ins default then children else children.set ins c
  statusRet isRepl (.internal edit newKeys newChildren)

/-- `internalNode.copyAndAppend`. -/
def internalCopyAndAppend (edit : Bool) (keys : List T)
    (children : List (BNode T)) (ins : Nat) (n1 n2 : BNode T) : NodeRet T :=
  .one (.internal edit
    (keys.take ins ++ n1.maxKey :: n2.maxKey :: seg keys (ins + 1) keys.length)
    (children.take ins ++ n1 :: n2 :: seg children (ins + 1) children.length))

/-- `internalNode.split`. -/
def internalSplit (edit : Bool) (keys : List T) (children : List (BNode T))
    (ins : Nat) (n1 n2 : BNode T) : NodeRet T :=
  let h1 := (keys.length + 1) / 2
  let half1 := if ins + 1 = h1 then h1 + 1 else h1
  if ins < half1 then
    .two (.internal edit
            (keys.take ins ++ n1.maxKey :: n2.maxKey :: seg keys (ins + 1) (half1 - 1))
            (children.take ins ++ n1 :: n2 :: seg children (ins + 1) (half1 - 1)))
         (.internal edit (seg keys (half1 - 1) keys.length)
            (seg children (half1 - 1) children.length))
  else
    .two (.internal edit (keys.take half1) (children.take half1))
         (.internal edit
            (seg keys half1 ins ++ n1.maxKey :: n2.maxKey :: seg keys (ins + 1) keys.length)
            (seg children half1 ins ++ n1 :: n2 :: seg children (ins + 1) children.length))

/-- The reshaped center produced by `internalNode.removeInPlace` /
`copyAndRemoveIdx` (both assemble the same keys: the stitcher starts at
`max(idx-1,0)` and skips the tail copy exactly when it is already in place). -/
def centerKeysOf (keys : List T) (idx : Nat) (n0 : Option (BNode T))
    (n1 : BNode T) (n2 : Option (BNode T)) : List T :=
  keys.take (idx - 1) ++
    (match n0 with | none => [] | some m => [m.maxKey]) ++
    n1.maxKey ::
    (match n2 with | none => [] | some m => [m.maxKey]) ++
    seg keys (idx + 2) keys.length

/-- The reshaped center children (same stitching as `centerKeysOf`). -/
def centerChildrenOf (children : List (BNode T)) (idx : Nat)
    (n0 : Option (BNode T)) (n1 : BNode T) (n2 : Option (BNode T)) :
    List (BNode T) :=
  children.take (idx - 1) ++
    (match n0 with | none => [] | some m => [m]) ++
    n1 ::
    (match n2 with | none => [] | some m => [m]) ++
    seg children (idx + 2) children.length

/-- `internalNode.joinLeft`. -/
def internalJoinLeft (edit : Bool) (keys : List T)
    (children : List (BNode T)) (idx : Nat) (l : BNode T)
    (ro : Option (BNode T)) (n0 : Option (BNode T)) (n1 : BNode T)
    (n2 : Option (BNode T)) : NodeRet T :=
  .three none
    (.internal edit (l.nkeys ++ centerKeysOf keys idx n0 n1 n2)
      (l.ichildren ++ centerChildrenOf children idx n0 n1 n2)) ro

/-- `internalNode.joinRight`. -/
def internalJoinRight (edit : Bool) (keys : List T)
    (children : List (BNode T)) (idx : Nat) (lo : Option (BNode T))
    (r : BNode T) (n0 : Option (BNode T)) (n1 : BNode T)
    (n2 : Option (BNode T)) : NodeRet T :=
  .three lo
    (.internal edit (centerKeysOf keys idx n0 n1 n2 ++ r.nkeys)
      (centerChildrenOf children idx n0 n1 n2 ++ r.ichildren)) none

/-- `internalNode.borrowLeft`. -/
def internalBorrowLeft (edit : Bool) (keys : List T)
    (children : List (BNode T)) (idx newLen : Nat) (l : BNode T)
    (ro : Option (BNode T)) (n0 : Option (BNode T)) (n1 : BNode T)
    (n2 : Option (BNode T)) : NodeRet T :=
  let totalLen := l.nlen + newLen
  let newLeftLen := totalLen / 2
  let newLeft : BNode T :=
    .internal edit (l.nkeys.take newLeftLen) (l.ichildren.take newLeftLen)
  let newCenter : BNode T :=
    .internal edit (seg l.nkeys newLeftLen l.nlen ++ centerKeysOf keys idx n0 n1 n2)
      (seg l.ichildren newLeftLen l.nlen ++ centerChildrenOf children idx n0 n1 n2)
  .three (some newLeft) newCenter ro

/-- `internalNode.borrowRight`. -/
def internalBorrowRight (edit : Bool) (keys : List T)
    (children : List (BNode T)) (idx newLen : Nat) (lo : Option (BNode T))
    (r : BNode T) (n0 : Option (BNode T)) (n1 : BNode T)
    (n2 : Option (BNode T)) : NodeRet T :=
  let totalLen := newLen + r.nlen
  let newCenterLen := totalLen / 2
  let newRightLen := totalLen - newCenterLen
  let rightHead := r.nlen - newRightLen
  let newCenter : BNode T :=
    .internal edit (centerKeysOf keys idx n0 n1 n2 ++ r.nkeys.take rightHead)
      (centerChildrenOf children idx n0 n1 n2 ++ r.ichildren.take rightHead)
  let newRight : BNode T :=
    .internal edit (seg r.nkeys rightHead r.nlen) (seg r.ichildren rightHead r.nlen)
  .three lo newCenter (some newRight)

end InternalOps

section NodeOps

variable {T : Type} [Inhabited T] [DecidableEq T]
variable (cmp : T → T → Int) (eq : T → T → Bool)

open BNode

theorem nsize_get_lt {T : Type} (cs : List (BNode T)) (i : Fin cs.length)
    (ed : Bool) (keys : List T) :
    (cs.get i).nsize < (BNode.internal ed keys cs).nsize := by
  have h1 := BNode.nsize_of_mem (List.get_mem cs i.1 i.2)
  simp only [Fin.eta] at h1
  have h2 : (BNode.internal ed keys cs).nsize = BNode.nsizeL cs + 1 := rfl
  omega

/-- `node.add` (dispatching on the node kind as `nodeHeader.add` does;
the internal case is `internalNode.add`).  The guards returning `.unchanged`
on an out-of-range child index have no Go counterpart: there the descent
index is always in range (on an empty internal node Go would panic). -/
def nodeAdd (edit : Bool) (n : BNode T) (key : T) : NodeRet T :=
  match n with
  | .leaf ed cap keys => leafAdd cmp eq ed cap keys key edit
  | .internal ed keys children =>
    let r := lsearchEq cmp eq keys key
    if 0 ≤ r.1 then .unchanged
    else
      let ins0 := (-r.1 - 1).toNat
      let ins := if ins0 = keys.length then keys.length - 1 else ins0
      if h : ins < children.length then
        match nodeAdd edit (children.get ⟨ins, h⟩) key with
        | .unchanged => .unchanged
        | .early c => .early (.internal ed keys (children.set ins c))
        | .one c =>
          if ed = true then internalModifyInPlace eq ed keys children ins c false
          else internalCopyAndModify eq edit keys children ins c false
        | .replaced c =>
          if ed = true then internalModifyInPlace eq ed keys children ins c true
          else internalCopyAndModify eq edit keys children ins c true
        | .two n1 n2 =>
          if keys.length < maxLen then
            internalCopyAndAppend edit keys children ins n1 n2
          else internalSplit edit keys children ins n1 n2
        | .three _ _ _ => .unchanged  -- never returned by add
      else .unchanged
termination_by nsize n
decreasing_by
  exact nsize_get_lt _ _ _ _

/-- `node.remove` (the internal case is `internalNode.removeInternal`). -/
def nodeRemove (edit : Bool) (n : BNode T) (key : T)
    (lo ro : Option (BNode T)) : NodeRet T :=
  match n with
  | .leaf ed cap keys => leafRemove cmp ed cap keys key lo ro edit
  | .internal ed keys children =>
    let v := lsearch cmp keys key
    let idx := if v < 0 then (-v - 1).toNat else v.toNat
    if idx = keys.length then .unchanged
    else
      let leftChild := if 0 < idx then some (children.getD (idx - 1) default) else none
      let rightChild :=
        if idx < keys.length - 1 then some (children.getD (idx + 1) default) else none
      if h : idx < children.length then
        match nodeRemove edit (children.get ⟨idx, h⟩) key leftChild rightChild with
        | .unchanged => .unchanged
        | .early c => .early (.internal ed keys (children.set idx c))
        | .three n0 n1 n2 =>
          let newLen := children.length - 1 -
              (if leftChild.isSome then 1 else 0) -
              (if rightChild.isSome then 1 else 0) +
              (if n0.isSome then 1 else 0) + 1 +
              (if n2.isSome then 1 else 0)
          if ¬(newLen < minLen ∧ (lo.isSome ∨ ro.isSome)) then
            -- !needsRebalance
            if ed = true ∧ idx < children.length - 2 then
              -- removeInPlace
              .early (.internal ed (centerKeysOf keys idx n0 n1 n2)
                (centerChildrenOf children idx n0 n1 n2))
            else
              -- copyAndRemoveIdx
              .three lo
                (.internal edit (centerKeysOf keys idx n0 n1 n2)
                  (centerChildrenOf children idx n0 n1 n2)) ro
          else if canJoin lo newLen then
            internalJoinLeft edit keys children idx (lo.getD default) ro n0 n1 n2
          else if canJoin ro newLen then
            internalJoinRight edit keys children idx lo (ro.getD default) n0 n1 n2
          else if lo.isSome ∧ (ro = none ∨
              (ro.getD default).nlen ≤ (lo.getD default).nlen) then
            internalBorrowLeft edit keys children idx newLen (lo.getD default) ro n0 n1 n2
          else if ro.isSome then
            internalBorrowRight edit keys children idx newLen lo (ro.getD default) n0 n1 n2
          else
            .unchanged  -- Go: panic("unreachable")
        | _ => .unchanged  -- never returned by remove
      else .unchanged
termination_by nsize n
decreasing_by
  exact nsize_get_lt _ _ _ _

/-- `node.find` (leaf and internal `find`). -/
def nodeFind (n : BNode T) (key : T) : T × Bool :=
  match n with
  | .leaf _ _ keys =>
    let v := lsearch cmp keys key
    if 0 ≤ v then (keys.getD v.toNat default, true) else (default, false)
  | .internal _ keys children =>
    let v := lsearch cmp keys key
    if 0 ≤ v then (keys.getD v.toNat default, true)
    else
      let idx := (-v - 1).toNat
      if idx = keys.length then (default, false)
      else if h : idx < children.length then nodeFind (children.get ⟨idx, h⟩) key
      else (default, false)
termination_by nsize n
decreasing_by
  exact nsize_get_lt _ _ _ _

end NodeOps

/-- The one named error kind: `ErrTafterP = Error("transient used after
persistent call")`. -/
inductive BtreeErr where
  | tafterP
  deriving DecidableEq

/-- The persistent handle `BTree`: root, element count, version counter, the
current reading of the edit token, and the comparator/equality closures. -/
structure PTree (T : Type) where
  root : BNode T
  count : Int
  version : Int
  edit : Bool
  cmp : T → T → Int
  eq : T → T → Bool

/-- The transient handle `TBTree`; `orig` is the `BTree` it was forked
from. -/
structure TTree (T : Type) where
  root : BNode T
  count : Int
  version : Int
  edit : Bool
  cmp : T → T → Int
  eq : T → T → Bool
  orig : PTree T

/-- The stack-based in-order iterator.  The source keeps a fixed
`[maxIterDepth]` array plus a depth index and never reads frames beyond the
depth; the model stores exactly the live frames, topmost first. -/
structure Iter (T : Type) where
  cmp : T → T → Int
  stack : List (BNode T × Nat)

section Handles

variable {T : Type} [Inhabited T] [DecidableEq T]

/-- `Empty`: a tree whose root is `newLeaf(0, emptyEdit)`. -/
def PTree.Empty (cmp : T → T → Int) (eq : T → T → Bool) : PTree T :=
  { root := .leaf false (newLeafCap 0 false) []
    count := 0
    version := 0
    edit := false
    cmp := cmp
    eq := eq }

/-- `BTree.Contains`. -/
def PTree.Contains (t : PTree T) (key : T) : Bool :=
  (nodeFind t.cmp t.root key).2

/-- `BTree.At`. -/
def PTree.At (t : PTree T) (key : T) : T :=
  (nodeFind t.cmp t.root key).1

/-- `BTree.Find`. -/
def PTree.Find (t : PTree T) (key : T) : T × Bool :=
  nodeFind t.cmp t.root key

/-- `BTree.Add`.  The `early`/`three` statuses never reach a persistent
handle (every reachable node is non-editable); Go's `default` arm would
dereference nil nodes there, so those arms are modelled as no-ops. -/
def PTree.Add (t : PTree T) (key : T) : PTree T :=
  match nodeAdd t.cmp t.eq t.edit t.root key with
  | .unchanged => t
  | .one nr =>
    { t with root := nr, count := t.count + 1, version := t.version + 1 }
  | .replaced nr => { t with root := nr, version := t.version + 1 }
  | .two n1 n2 =>
    { t with
      root := .internal t.edit [n1.maxKey, n2.maxKey] [n1, n2]
      count := t.count + 1
      version := t.version + 1 }
  | .early _ => t
  | .three _ _ _ => t

/-- `BTree.Delete` (collapsing a 1-ary internal root).  As in `Add`, the
`early` status cannot reach a persistent handle. -/
def PTree.Delete (t : PTree T) (key : T) : PTree T :=
  match nodeRemove t.cmp t.edit t.root key none none with
  | .unchanged => t
  | .three _ c _ =>
    let newRoot :=
      match c with
      | .internal _ _ cs => if cs.length = 1 then cs.getD 0 default else c
      | _ => c
    { t with root := newRoot, count := t.count - 1, version := t.version + 1 }
  | _ => t

/-- `BTree.Length`. -/
def PTree.Length (t : PTree T) : Int := t.count

/-- `BTree.AsTransient`: fork with a freshly allocated true edit token. -/
def PTree.AsTransient (t : PTree T) : TTree T :=
  { root := t.root
    count := t.count
    version := t.version
    edit := true
    cmp := t.cmp
    eq := t.eq
    orig := t }

/-- `TBTree.ensureEditable`, as the guard of every transient operation:
Go panics with `ErrTafterP`; the model reports the error value. -/
def TTree.guard (t : TTree T) {α : Type _} (v : α) : Except BtreeErr α :=
  if t.edit then .ok v else .error .tafterP

/-- `TBTree.Contains`. -/
def TTree.Contains (t : TTree T) (key : T) : Except BtreeErr Bool :=
  t.guard (nodeFind t.cmp t.root key).2

/-- `TBTree.At`. -/
def TTree.At (t : TTree T) (key : T) : Except BtreeErr T :=
  t.guard (nodeFind t.cmp t.root key).1

/-- `TBTree.Find`. -/
def TTree.Find (t : TTree T) (key : T) : Except BtreeErr (T × Bool) :=
  t.guard (nodeFind t.cmp t.root key)

/-- `TBTree.Length`. -/
def TTree.Length (t : TTree T) : Except BtreeErr Int :=
  t.guard t.count

/-- `TBTree.Add`.  In the `early` case the root was mutated in place, so Go
leaves `t.root` alone; the model installs the updated node the `early`
return carries (same tree, see the aliasing convention). -/
def TTree.Add (t : TTree T) (key : T) : Except BtreeErr (TTree T) :=
  if t.edit = false then .error .tafterP
  else
    match nodeAdd t.cmp t.eq t.edit t.root key with
    | .unchanged => .ok t
    | .early nr =>
      .ok { t with root := nr, count := t.count + 1, version := t.version + 1 }
    | .replaced nr => .ok { t with root := nr, version := t.version + 1 }
    | .one nr =>
      .ok { t with root := nr, count := t.count + 1, version := t.version + 1 }
    | .two n1 n2 =>
      .ok { t with
        root := .internal t.edit [n1.maxKey, n2.maxKey] [n1, n2]
        count := t.count + 1
        version := t.version + 1 }
    | .three _ _ _ => .ok t

/-- `TBTree.Delete`. -/
def TTree.Delete (t : TTree T) (key : T) : Except BtreeErr (TTree T) :=
  if t.edit = false then .error .tafterP
  else
    match nodeRemove t.cmp t.edit t.root key none none with
    | .unchanged => .ok t
    | .early nr =>
      .ok { t with root := nr, count := t.count - 1, version := t.version + 1 }
    | .three _ c _ =>
      let newRoot :=
        match c with
        | .internal _ _ cs => if cs.length = 1 then cs.getD 0 default else c
        | _ => c
      .ok { t with root := newRoot, count := t.count - 1, version := t.version + 1 }
    | _ => .ok t

/-- `TBTree.AsPersistent`.  Go writes `false` into the shared edit-token
cell (`t.edit.Reset(false)`) and then compares root *pointers* with the
originating tree.  The model returns both the produced `BTree` and the
stale transient handle as it now reads (its token reads false).  The cell
write cannot change the pointer comparison, so the model may compare first:
structural equality of the un-frozen root with `orig.root` is the faithful
rendering of pointer equality — a root that was never replaced is literally
`orig.root`, while any replacement installs a freshly built (editable-
flagged) node, distinct from every node of the persistent `orig`. -/
def TTree.AsPersistent (t : TTree T) : Except BtreeErr (PTree T × TTree T) :=
  if t.edit = false then .error .tafterP
  else
    let stale : TTree T :=
      { t with edit := false, root := BNode.freeze t.root }
    if t.root = t.orig.root then .ok (t.orig, stale)
    else
      .ok ({ root := BNode.freeze t.root
             count := t.count
             version := t.version
             edit := false
             cmp := t.cmp
             eq := t.eq }, stale)

end Handles

section Iterator

variable {T : Type}

open BNode

/-- Whether a node is a leaf (`kind == nodeKindLeaf`). -/
def BNode.isLeaf : BNode T → Bool
  | .leaf _ _ _ => true
  | .internal _ _ _ => false

/-- Weight of a stack frame, for the iterator termination measure: one plus
the size of everything the frame has yet to visit. -/
def frameW : BNode T × Nat → Nat
  | (.leaf _ _ keys, cur) => 1 + (keys.length - cur)
  | (.internal _ _ cs, cur) => 1 + nsizeL (cs.drop cur)

/-- Remaining weight of a whole frame stack. -/
def stackW (st : List (BNode T × Nat)) : Nat := (st.map frameW).sum

theorem frameW_pos (f : BNode T × Nat) : 0 < frameW f := by
  obtain ⟨n, cur⟩ := f
  cases n <;> simp [frameW]

theorem stackW_cons (f : BNode T × Nat) (st : List (BNode T × Nat)) :
    stackW (f :: st) = frameW f + stackW st := by
  simp [stackW]

theorem length_le_stackW (st : List (BNode T × Nat)) : st.length ≤ stackW st := by
  induction st with
  | nil => simp [stackW]
  | cons f st ih =>
    have := frameW_pos f
    rw [stackW_cons]
    simp only [List.length_cons]
    omega

theorem frameW_zero (c : BNode T) : frameW (c, 0) = nsize c := by
  cases c with
  | leaf ed cap keys =>
    have h1 : frameW ((BNode.leaf ed cap keys), 0) = 1 + (keys.length - 0) := rfl
    have h2 : nsize (BNode.leaf ed cap keys) = keys.length + 1 := rfl
    omega
  | internal ed keys cs =>
    have h1 : frameW ((BNode.internal ed keys cs), 0) = 1 + nsizeL (cs.drop 0) := rfl
    have h2 : nsize (BNode.internal ed keys cs) = nsizeL cs + 1 := rfl
    rw [h1, h2, List.drop_zero]
    omega

theorem frameW_push (ed : Bool) (keys : List T) {cs : List (BNode T)}
    {cur : Nat} (h : cur < cs.length) :
    frameW (BNode.internal ed keys cs, cur) =
      frameW (cs.get ⟨cur, h⟩, 0) + frameW (BNode.internal ed keys cs, cur + 1) := by
  have hdrop : cs.drop cur = cs[cur] :: cs.drop (cur + 1) :=
    List.drop_eq_getElem_cons h
  have h2 : frameW ((BNode.internal ed keys cs), cur) = 1 + nsizeL (cs.drop cur) := rfl
  have h3 : frameW ((BNode.internal ed keys cs), cur + 1) =
      1 + nsizeL (cs.drop (cur + 1)) := rfl
  have h4 : cs.get ⟨cur, h⟩ = cs[cur] := rfl
  rw [h2, h3, hdrop, nsizeL_cons, frameW_zero, h4]
  omega

theorem pop_dec (f : BNode T × Nat) (rest : List (BNode T × Nat)) :
    2 * stackW rest - rest.length <
      2 * stackW (f :: rest) - (f :: rest).length := by
  have h1 := frameW_pos f
  have h2 := length_le_stackW rest
  have h3 := stackW_cons f rest
  simp only [List.length_cons]
  omega

theorem push_dec {ed : Bool} {keys : List T} {children : List (BNode T)}
    {cur : Nat} (h : cur < children.length) (rest : List (BNode T × Nat)) :
    2 * stackW ((children.get ⟨cur, h⟩, 0) ::
        (BNode.internal ed keys children, cur + 1) :: rest) -
      ((children.get ⟨cur, h⟩, 0) ::
        (BNode.internal ed keys children, cur + 1) :: rest).length <
    2 * stackW ((BNode.internal ed keys children, cur) :: rest) -
      ((BNode.internal ed keys children, cur) :: rest).length := by
  have h1 := frameW_push ed keys h
  have h3 := stackW_cons ((children.get ⟨cur, h⟩ : BNode T), 0)
    ((BNode.internal ed keys children, cur + 1) :: rest)
  have h4 := stackW_cons (BNode.internal ed keys children, cur + 1) rest
  have h5 := stackW_cons (BNode.internal ed keys children, cur) rest
  have h6 := frameW_pos ((children.get ⟨cur, h⟩ : BNode T), 0)
  have h7 := frameW_pos (BNode.internal ed keys children, cur + 1)
  have h8 := length_le_stackW rest
  simp only [List.length_cons]
  omega

/-- `Iterator.HasNext` acting on the frame stack (topmost frame first):
reports whether a key remains, repositioning the stack as the source's
cursor bumps, pushes and pops do. -/
def hasNextA : List (BNode T × Nat) → Bool × List (BNode T × Nat)
  | [] => (false, [])
  | (BNode.leaf ed1 cap1 keys, cur) :: rest =>
    if cur < keys.length then (true, (BNode.leaf ed1 cap1 keys, cur) :: rest)
    else
      match rest with
      | [] => (false, (BNode.leaf ed1 cap1 keys, cur) :: rest)  -- i.depth == 0
      | p :: ps => hasNextA (p :: ps)                           -- popNode; recurse
  | (BNode.internal ed1 keys children, cur) :: rest =>
    if h : cur < children.length then
      let child := children.get ⟨cur, h⟩
      let pushed := (child, 0) :: (BNode.internal ed1 keys children, cur + 1) :: rest
      if child.isLeaf then (true, pushed) else hasNextA pushed
    else
      match rest with
      | [] => (false, (BNode.internal ed1 keys children, cur) :: rest)
      | p :: ps => hasNextA (p :: ps)
termination_by st => 2 * stackW st - st.length
decreasing_by
  · exact pop_dec _ _
  · exact push_dec h rest
  · exact pop_dec _ _

/-- `Iterator.HasNext`. -/
def Iter.hasNext (i : Iter T) : Bool × Iter T :=
  let r := hasNextA i.stack
  (r.1, ⟨i.cmp, r.2⟩)

/-- `Iterator.Next` [Inhabited T]: reads `keys[cur]` of the topmost frame
through the leaf view of the node and bumps the cursor.  Calling it with no
key available is the `next` after `hasNext() == false` programmer error,
whose behaviour the source leaves undefined. -/
def Iter.next [Inhabited T] (i : Iter T) : T × Iter T :=
  match i.stack with
  | [] => (default, i)
  | (n, cur) :: rest =>
    (n.nkeys.getD cur default, ⟨i.cmp, (n, cur + 1) :: rest⟩)

/-- `Iterator.findFirst` positions the stack on the first key `≥ from`:
binary-search each internal node, descend into the found child with the
parent cursor just past it, and set the leaf cursor. -/
def findFirstA (cmp : T → T → Int) (key : T) :
    List (BNode T × Nat) → List (BNode T × Nat)
  | [] => []
  | (BNode.leaf ed1 cap1 keys, _) :: rest =>
    (BNode.leaf ed1 cap1 keys, lsearchFirst cmp keys key) :: rest
  | (BNode.internal ed1 keys children, _) :: rest =>
    let first := lsearchFirst cmp keys key
    if h : first < children.length then
      findFirstA cmp key
        ((children.get ⟨first, h⟩, 0) :: (BNode.internal ed1 keys children, first + 1) :: rest)
    else (BNode.internal ed1 keys children, children.length) :: rest
termination_by st => nsize (st.headD (default, 0)).1
decreasing_by
  exact nsize_get_lt _ _ _ _

/-- `makeIterator`. -/
def makeIterator (cmp : T → T → Int) (n : BNode T) : Iter T :=
  ⟨cmp, [(n, 0)]⟩

/-- `BTree.Iterator` (the constructor calls `HasNext` once so that `Next`
is immediately valid). -/
def PTree.Iterator (t : PTree T) : Iter T :=
  (Iter.hasNext (makeIterator t.cmp t.root)).2

/-- `BTree.IteratorFrom`. -/
def PTree.IteratorFrom (t : PTree T) (key : T) : Iter T :=
  let i := makeIterator t.cmp t.root
  (Iter.hasNext ⟨i.cmp, findFirstA t.cmp key i.stack⟩).2

/-- `TBTree.Iterator`. -/
def TTree.Iterator (t : TTree T) : Except BtreeErr (Iter T) :=
  t.guard (Iter.hasNext (makeIterator t.cmp t.root)).2

/-- `TBTree.IteratorFrom`. -/
def TTree.IteratorFrom (t : TTree T) (key : T) : Except BtreeErr (Iter T) :=
  t.guard
    (let i := makeIterator t.cmp t.root
     (Iter.hasNext ⟨i.cmp, findFirstA t.cmp key i.stack⟩).2)

end Iterator

/-! ## The client contracts on `cmp` and `eq`

`cmp` must be a total order on the element type (deterministic and
side-effect-free, which the shallow embedding gives for free); `eq` must be
full equality on elements (it must imply `cmp = 0` and may be strictly
finer; the engine relies on it agreeing with value equality). -/

section Laws

variable {T : Type}

/-- Total-order laws for a three-way comparator. -/
structure CmpLaws (cmp : T → T → Int) : Prop where
  flip : ∀ a b, cmp a b < 0 ↔ 0 < cmp b a
  zero_symm : ∀ a b, cmp a b = 0 ↔ cmp b a = 0
  le_trans : ∀ a b c, cmp a b ≤ 0 → cmp b c ≤ 0 → cmp a c ≤ 0

namespace CmpLaws

variable {cmp : T → T → Int}

theorem refl (hc : CmpLaws cmp) (a : T) : cmp a a = 0 := by
  rcases lt_trichotomy (cmp a a) 0 with h | h | h
  · have := (hc.flip a a).mp h
    omega
  · exact h
  · have := (hc.flip a a).mpr h
    omega

theorem lt_trans (hc : CmpLaws cmp) {a b c : T} (h1 : cmp a b < 0) (h2 : cmp b c < 0) :
    cmp a c < 0 := by
  have hle := hc.le_trans a b c (by omega) (by omega)
  rcases lt_or_eq_of_le hle with h | h
  · exact h
  · exfalso
    have hca : cmp c a = 0 := (hc.zero_symm a c).mp h
    have := hc.le_trans c a b (by omega) (by omega)
    have := (hc.flip b c).mp h2
    omega

theorem lt_of_lt_of_zero (hc : CmpLaws cmp) {a b c : T} (h1 : cmp a b < 0) (h2 : cmp b c = 0) :
    cmp a c < 0 := by
  have hle := hc.le_trans a b c (by omega) (by omega)
  rcases lt_or_eq_of_le hle with h | h
  · exact h
  · exfalso
    have hca : cmp c a = 0 := (hc.zero_symm a c).mp h
    have hcb : cmp c b = 0 := (hc.zero_symm b c).mp h2
    have := hc.le_trans b c a (by omega) (by omega)
    have := (hc.flip a b).mp h1
    omega

theorem lt_of_zero_of_lt (hc : CmpLaws cmp) {a b c : T} (h1 : cmp a b = 0) (h2 : cmp b c < 0) :
    cmp a c < 0 := by
  have hle := hc.le_trans a b c (by omega) (by omega)
  rcases lt_or_eq_of_le hle with h | h
  · exact h
  · exfalso
    have hca : cmp c a = 0 := (hc.zero_symm a c).mp h
    have := hc.le_trans c a b (by omega) (by omega)
    have := (hc.flip b c).mp h2
    omega

theorem zero_trans (hc : CmpLaws cmp) {a b c : T} (h1 : cmp a b = 0) (h2 : cmp b c = 0) :
    cmp a c = 0 := by
  have h3 := hc.le_trans a b c (by omega) (by omega)
  have hcb : cmp c b = 0 := (hc.zero_symm b c).mp h2
  have hba : cmp b a = 0 := (hc.zero_symm a b).mp h1
  have h4 := hc.le_trans c b a (by omega) (by omega)
  have h5 : ¬cmp a c < 0 := fun h => by
    have := (hc.flip a c).mp h
    omega
  omega

theorem ne_zero_of_lt (hc : CmpLaws cmp) {a b : T} (h : cmp a b < 0) : cmp a b ≠ 0 := by omega

end CmpLaws

end Laws

/-! ## Sorted lists, searches and the list-level functional specification -/

section SortedLists

variable {T : Type} [Inhabited T] [DecidableEq T]
variable {cmp : T → T → Int} {eq : T → T → Bool}

/-- A list is strictly ascending under `cmp`. -/
def SortedL (cmp : T → T → Int) (l : List T) : Prop :=
  List.Pairwise (fun a b => cmp a b < 0) l

theorem sortedL_nil : SortedL cmp [] := List.Pairwise.nil

theorem sortedL_single (a : T) : SortedL cmp [a] := by
  simp [SortedL]

theorem SortedL.sublist {l l2 : List T} (h : SortedL cmp l) (hs : l2.Sublist l) :
    SortedL cmp l2 := List.Pairwise.sublist hs h

theorem SortedL.take {l : List T} (h : SortedL cmp l) (i : Nat) :
    SortedL cmp (l.take i) := h.sublist (List.take_sublist i l)

theorem SortedL.drop {l : List T} (h : SortedL cmp l) (i : Nat) :
    SortedL cmp (l.drop i) := h.sublist (List.drop_sublist i l)

theorem sortedL_append {A B : List T} :
    SortedL cmp (A ++ B) ↔
      SortedL cmp A ∧ SortedL cmp B ∧ ∀ a ∈ A, ∀ b ∈ B, cmp a b < 0 :=
  List.pairwise_append

/-- The unique class representative in a sorted list. -/
theorem sorted_class_unique (hc : CmpLaws cmp) {l : List T}
    (hs : SortedL cmp l) {key d1 d2 : T} (h1 : d1 ∈ l) (h2 : d2 ∈ l)
    (hz1 : cmp key d1 = 0) (hz2 : cmp key d2 = 0) : d1 = d2 := by
  rcases List.getElem_of_mem h1 with ⟨i, hi, rfl⟩
  rcases List.getElem_of_mem h2 with ⟨j, hj, rfl⟩
  rcases Nat.lt_trichotomy i j with h | h | h
  · exfalso
    have hlt := List.pairwise_iff_getElem.mp hs i j hi hj h
    have hz1s : cmp l[i] key = 0 := (hc.zero_symm key l[i]).mp hz1
    have := hc.zero_trans hz1s hz2
    omega
  · subst h
    rfl
  · exfalso
    have hlt := List.pairwise_iff_getElem.mp hs j i hj hi h
    have hz2s : cmp l[j] key = 0 := (hc.zero_symm key l[j]).mp hz2
    have := hc.zero_trans hz2s hz1
    omega

/-! ### Search specifications -/

theorem lsearchFirst_le (keys : List T) (key : T) :
    lsearchFirst cmp keys key ≤ keys.length :=
  List.findIdx_le_length _

theorem lsearchFirst_before {keys : List T} {key : T} {j : Nat}
    (hj : j < lsearchFirst cmp keys key) : cmp (keys.getD j default) key < 0 := by
  have hlen : j < keys.length := lt_of_lt_of_le hj (lsearchFirst_le keys key)
  have h := List.not_of_lt_findIdx hj
  rw [List.getD_eq_getElem _ _ hlen]
  simpa using h

theorem lsearchFirst_found {keys : List T} {key : T}
    (h : lsearchFirst cmp keys key < keys.length) :
    0 ≤ cmp (keys.getD (lsearchFirst cmp keys key) default) key := by
  have hg : (fun k => decide (0 ≤ cmp k key)) keys[lsearchFirst cmp keys key] = true :=
    List.findIdx_getElem (w := h)
  rw [List.getD_eq_getElem _ _ h]
  simpa using hg

/-- On a sorted list, `lsearchFirst` lands exactly on the index of a
compare-equal element. -/
theorem lsearchFirst_class (hc : CmpLaws cmp) {keys : List T} {key : T}
    (hs : SortedL cmp keys) {j : Nat} (hj : j < keys.length)
    (hz : cmp key keys[j] = 0) : lsearchFirst cmp keys key = j := by
  rw [lsearchFirst, List.findIdx_eq hj]
  constructor
  · simp only [decide_eq_true_eq]
    have := (hc.zero_symm key keys[j]).mp hz
    omega
  · intro m hm
    have hmlen : m < keys.length := lt_trans hm hj
    have hlt := List.pairwise_iff_getElem.mp hs m j hmlen hj hm
    have h5 : cmp keys[m] key < 0 := hc.lt_of_lt_of_zero hlt ((hc.zero_symm _ _).mp hz)
    have h6 : ¬0 ≤ cmp keys[m] key := by omega
    simpa using h6

/-- A negative `lsearch` on a sorted list means the key's compare-class is
absent. -/
theorem lsearch_neg_absent (hc : CmpLaws cmp) {keys : List T} {key : T}
    (hs : SortedL cmp keys) (hneg : lsearch cmp keys key < 0) :
    ∀ d ∈ keys, cmp key d ≠ 0 := by
  intro d hd hz
  rcases List.getElem_of_mem hd with ⟨j, hj, rfl⟩
  have hfi := lsearchFirst_class hc hs hj hz
  rw [lsearch] at hneg
  simp only [hfi, hj, true_and] at hneg
  rw [List.getD_eq_getElem _ _ hj, if_pos hz] at hneg
  omega

/-- A nonnegative `lsearch` identifies a compare-equal element. -/
theorem lsearch_nonneg {keys : List T} {key : T}
    (hnn : 0 ≤ lsearch cmp keys key) :
    (lsearch cmp keys key).toNat < keys.length ∧
      cmp key (keys.getD (lsearch cmp keys key).toNat default) = 0 := by
  rw [lsearch] at hnn ⊢
  by_cases hcl : lsearchFirst cmp keys key < keys.length ∧
      cmp key (keys.getD (lsearchFirst cmp keys key) default) = 0
  · simp only [hcl, if_true]
    simpa using hcl
  · simp only [hcl, if_false] at hnn
    omega

/-- `lsearch` at a present class member. -/
theorem lsearch_found (hc : CmpLaws cmp) {keys : List T} {key : T}
    (hs : SortedL cmp keys) {j : Nat} (hj : j < keys.length)
    (hz : cmp key keys[j] = 0) : lsearch cmp keys key = (j : Int) := by
  have hfi := lsearchFirst_class hc hs hj hz
  rw [lsearch]
  simp only [hfi, hj, true_and]
  rw [List.getD_eq_getElem _ _ hj]
  simp [hz]

/-! ### The list-level specification of insert-or-replace and delete -/

/-- Insert `key` into a sorted list, replacing the compare-equal element if
one is present. -/
def linsert (cmp : T → T → Int) : List T → T → List T
  | [], key => [key]
  | d :: ds, key =>
    if cmp key d < 0 then key :: d :: ds
    else if cmp key d = 0 then key :: ds
    else d :: linsert cmp ds key

/-- Remove the first compare-equal element. -/
def lremove (cmp : T → T → Int) : List T → T → List T
  | [], _ => []
  | d :: ds, key => if cmp key d = 0 then ds else d :: lremove cmp ds key

theorem mem_linsert {l : List T} {key x : T} (h : x ∈ linsert cmp l key) :
    x = key ∨ x ∈ l := by
  induction l with
  | nil => simpa [linsert] using h
  | cons d ds ih =>
    rw [linsert] at h
    by_cases h1 : cmp key d < 0
    · rw [if_pos h1] at h
      rcases List.mem_cons.mp h with rfl | h2
      · exact Or.inl rfl
      · exact Or.inr h2
    · rw [if_neg h1] at h
      by_cases h2 : cmp key d = 0
      · rw [if_pos h2] at h
        rcases List.mem_cons.mp h with rfl | h3
        · exact Or.inl rfl
        · exact Or.inr (List.mem_cons_of_mem _ h3)
      · rw [if_neg h2] at h
        rcases List.mem_cons.mp h with rfl | h3
        · exact Or.inr (by simp)
        · rcases ih h3 with h4 | h4
          · exact Or.inl h4
          · exact Or.inr (List.mem_cons_of_mem _ h4)

theorem key_mem_linsert (l : List T) (key : T) : key ∈ linsert cmp l key := by
  induction l with
  | nil => simp [linsert]
  | cons d ds ih =>
    rw [linsert]
    by_cases h1 : cmp key d < 0
    · simp [h1]
    · by_cases h2 : cmp key d = 0
      · simp [h1, h2]
      · simp only [h1, if_false, h2]
        exact List.mem_cons_of_mem _ ih

theorem linsert_sorted (hc : CmpLaws cmp) {l : List T} (hs : SortedL cmp l)
    (key : T) : SortedL cmp (linsert cmp l key) := by
  induction l with
  | nil => exact sortedL_single key
  | cons d ds ih =>
    have hds : SortedL cmp ds := (List.pairwise_cons.mp hs).2
    have hd : ∀ x ∈ ds, cmp d x < 0 := (List.pairwise_cons.mp hs).1
    rw [linsert]
    by_cases h1 : cmp key d < 0
    · rw [if_pos h1]
      refine List.pairwise_cons.mpr ⟨?_, hs⟩
      intro x hx
      rcases List.mem_cons.mp hx with rfl | hx
      · exact h1
      · exact hc.lt_trans h1 (hd x hx)
    · rw [if_neg h1]
      by_cases h2 : cmp key d = 0
      · rw [if_pos h2]
        refine List.pairwise_cons.mpr ⟨?_, hds⟩
        intro x hx
        exact hc.lt_of_zero_of_lt h2 (hd x hx)
      · rw [if_neg h2]
        have hdk : cmp d key < 0 := (hc.flip d key).mpr (by omega)
        refine List.pairwise_cons.mpr ⟨?_, ih hds⟩
        intro x hx
        rcases mem_linsert hx with rfl | hx
        · exact hdk
        · exact hd x hx

theorem linsert_length_absent {l : List T} {key : T}
    (habs : ∀ d ∈ l, cmp key d ≠ 0) :
    (linsert cmp l key).length = l.length + 1 := by
  induction l with
  | nil => simp [linsert]
  | cons d ds ih =>
    rw [linsert]
    by_cases h1 : cmp key d < 0
    · simp [h1]
    · have h2 : cmp key d ≠ 0 := habs d (by simp)
      simp only [h1, if_false, h2, List.length_cons]
      rw [ih (fun x hx => habs x (List.mem_cons_of_mem _ hx))]

theorem linsert_length_present (hc : CmpLaws cmp) {l : List T} {key d : T}
    (hs : SortedL cmp l) (hd : d ∈ l) (hz : cmp key d = 0) :
    (linsert cmp l key).length = l.length := by
  induction l with
  | nil => cases hd
  | cons a as ih =>
    have has : SortedL cmp as := (List.pairwise_cons.mp hs).2
    have ha : ∀ x ∈ as, cmp a x < 0 := (List.pairwise_cons.mp hs).1
    rw [linsert]
    rcases List.mem_cons.mp hd with rfl | hd2
    · have h1 : ¬cmp key d < 0 := by omega
      simp [h1, hz]
    · have hax : cmp a d < 0 := ha d hd2
      have : cmp key a > 0 := by
        have h3 : cmp d a > 0 := (hc.flip a d).mp hax
        have h4 : cmp d key = 0 := (hc.zero_symm key d).mp hz
        have h5 : ¬cmp key a ≤ 0 := by
          intro h6
          have := hc.le_trans d key a (by omega) h6
          omega
        omega
      have h1 : ¬cmp key a < 0 := by omega
      have h2 : cmp key a ≠ 0 := by omega
      simp only [h1, if_false, h2, List.length_cons]
      rw [ih has hd2]

/-- When the class is absent, `linsert` inserts at the `lsearchFirst`
position. -/
theorem linsert_eq_insert_at (hc : CmpLaws cmp) {l : List T} {key : T}
    (hs : SortedL cmp l) (habs : ∀ d ∈ l, cmp key d ≠ 0) :
    linsert cmp l key =
      l.take (lsearchFirst cmp l key) ++ key :: l.drop (lsearchFirst cmp l key) := by
  induction l with
  | nil => simp [linsert, lsearchFirst]
  | cons d ds ih =>
    have hds : SortedL cmp ds := (List.pairwise_cons.mp hs).2
    rw [linsert, lsearchFirst, List.findIdx_cons]
    by_cases hp : 0 ≤ cmp d key
    · have hkd : cmp key d ≠ 0 := habs d (by simp)
      have hdk0 : cmp d key ≠ 0 := fun h => hkd ((hc.zero_symm d key).mp h)
      have hlt : cmp key d < 0 := (hc.flip key d).mpr (by omega)
      have hdec : decide (0 ≤ cmp d key) = true := by simp [hp]
      simp only [hdec, cond_true, List.take_zero, List.drop_zero, List.nil_append, if_pos hlt]
    · have hgt : 0 < cmp key d := (hc.flip d key).mp (by omega)
      have h1 : ¬cmp key d < 0 := by omega
      have h2 : cmp key d ≠ 0 := by omega
      have hdec : decide (0 ≤ cmp d key) = false := by simp [hp]
      simp only [hdec, cond_false, h1, if_false, h2, List.take_succ_cons, List.drop_succ_cons,
        List.cons_append, List.cons.injEq, true_and]
      exact ih hds (fun x hx => habs x (List.mem_cons_of_mem _ hx))

/-- When the class member sits at index `i`, `linsert` replaces it. -/
theorem linsert_eq_set (hc : CmpLaws cmp) {l : List T} {key : T}
    (hs : SortedL cmp l) {i : Nat} (hi : i < l.length)
    (hz : cmp key l[i] = 0) : linsert cmp l key = l.set i key := by
  induction l generalizing i with
  | nil => simp at hi
  | cons d ds ih =>
    have hds : SortedL cmp ds := (List.pairwise_cons.mp hs).2
    have hd : ∀ x ∈ ds, cmp d x < 0 := (List.pairwise_cons.mp hs).1
    rw [linsert]
    cases i with
    | zero =>
      simp only [List.getElem_cons_zero] at hz
      have h1 : ¬cmp key d < 0 := by omega
      simp [h1, hz]
    | succ j =>
      simp only [List.getElem_cons_succ] at hz
      have hjlen : j < ds.length := by simpa using hi
      have hmem : ds[j] ∈ ds := List.getElem_mem hjlen
      have hdj : cmp d ds[j] < 0 := hd _ hmem
      have : cmp d key < 0 := hc.lt_of_lt_of_zero hdj ((hc.zero_symm _ _).mp hz)
      have hpos : 0 < cmp key d := (hc.flip d key).mp this
      have h1 : ¬cmp key d < 0 := by omega
      have h2 : ¬cmp key d = 0 := by omega
      simp only [h1, if_false, h2, List.set_cons_succ, List.cons.injEq, true_and]
      exact ih hds hjlen hz

theorem mem_lremove {l : List T} {key x : T} (h : x ∈ lremove cmp l key) :
    x ∈ l := by
  induction l with
  | nil => simpa [lremove] using h
  | cons d ds ih =>
    rw [lremove] at h
    by_cases h1 : cmp key d = 0
    · rw [if_pos h1] at h
      exact List.mem_cons_of_mem _ h
    · rw [if_neg h1] at h
      rcases List.mem_cons.mp h with rfl | h2
      · simp
      · exact List.mem_cons_of_mem _ (ih h2)

theorem lremove_absent {l : List T} {key : T}
    (habs : ∀ d ∈ l, cmp key d ≠ 0) : lremove cmp l key = l := by
  induction l with
  | nil => rfl
  | cons d ds ih =>
    rw [lremove]
    have := habs d (by simp)
    simp only [this, if_false]
    rw [ih (fun x hx => habs x (List.mem_cons_of_mem _ hx))]

/-- When the class member sits at index `i` of a sorted list, `lremove`
erases exactly that index. -/
theorem lremove_eq_eraseIdx (hc : CmpLaws cmp) {l : List T} {key : T}
    (hs : SortedL cmp l) {i : Nat} (hi : i < l.length)
    (hz : cmp key l[i] = 0) : lremove cmp l key = l.take i ++ l.drop (i + 1) := by
  induction l generalizing i with
  | nil => simp at hi
  | cons d ds ih =>
    have hds : SortedL cmp ds := (List.pairwise_cons.mp hs).2
    have hd : ∀ x ∈ ds, cmp d x < 0 := (List.pairwise_cons.mp hs).1
    rw [lremove]
    cases i with
    | zero =>
      simp only [List.getElem_cons_zero] at hz
      simp [hz]
    | succ j =>
      simp only [List.getElem_cons_succ] at hz
      have hjlen : j < ds.length := by simpa using hi
      have hmem : ds[j] ∈ ds := List.getElem_mem hjlen
      have hdj : cmp d ds[j] < 0 := hd _ hmem
      have : cmp d key < 0 := hc.lt_of_lt_of_zero hdj ((hc.zero_symm _ _).mp hz)
      have hpos : 0 < cmp key d := (hc.flip d key).mp this
      have h2 : ¬cmp key d = 0 := by omega
      simp only [h2, if_false, List.take_succ_cons, List.drop_succ_cons, List.cons_append,
        List.cons.injEq, true_and]
      exact ih hds hjlen hz

theorem lremove_sorted (hc : CmpLaws cmp) {l : List T} (hs : SortedL cmp l)
    (key : T) : SortedL cmp (lremove cmp l key) := by
  induction l with
  | nil => exact sortedL_nil
  | cons d ds ih =>
    have hds : SortedL cmp ds := (List.pairwise_cons.mp hs).2
    have hd : ∀ x ∈ ds, cmp d x < 0 := (List.pairwise_cons.mp hs).1
    rw [lremove]
    by_cases h1 : cmp key d = 0
    · rw [if_pos h1]
      exact hds
    · rw [if_neg h1]
      refine List.pairwise_cons.mpr ⟨?_, ih hds⟩
      intro x hx
      exact hd x (mem_lremove hx)

end SortedLists

/-! ## Structural invariants of reachable nodes -/

section Invariants

variable {T : Type} [Inhabited T] [DecidableEq T]

open BNode

/-- Strict ascending chain under `cmp`, as a boolean. -/
def sortedB (cmp : T → T → Int) : List T → Bool
  | [] => true
  | [_] => true
  | a :: b :: l => decide (cmp a b < 0) && sortedB cmp (b :: l)

theorem sortedB_iff {cmp : T → T → Int} (hc : CmpLaws cmp) :
    ∀ l : List T, sortedB cmp l = true ↔ SortedL cmp l
  | [] => by simp [sortedB, SortedL]
  | [a] => by simp [sortedB, SortedL]
  | a :: b :: l => by
    rw [sortedB]
    simp only [Bool.and_eq_true, decide_eq_true_eq, sortedB_iff hc (b :: l)]
    constructor
    · rintro ⟨hab, hbl⟩
      refine List.pairwise_cons.mpr ⟨?_, hbl⟩
      intro x hx
      rcases List.mem_cons.mp hx with rfl | hx
      · exact hab
      · have hbx : cmp b x < 0 := (List.pairwise_cons.mp hbl).1 x hx
        exact hc.lt_trans hab hbx
    · intro h
      obtain ⟨h1, h2⟩ := List.pairwise_cons.mp h
      exact ⟨h1 b (by simp), h2⟩

mutual
/-- Content well-formedness of a node, as maintained by the engine:
parallel `keys`/`children` arrays, no empty child, keys strictly ascending,
each separator equal to its child's `maxKey`, well-formed children, and the
whole in-order contents strictly ascending. -/
def wfc (cmp : T → T → Int) : BNode T → Bool
  | .leaf _ _ keys => sortedB cmp keys
  | .internal _ keys children =>
    decide (keys.length = children.length) && !children.isEmpty &&
    sortedB cmp keys &&
    (keys.zip children).all
      (fun p => decide (p.2.maxKey = p.1) && !(toList p.2).isEmpty) &&
    wfcL cmp children &&
    sortedB cmp ((children.map toList).flatten)

/-- `wfc` on every node of a list. -/
def wfcL (cmp : T → T → Int) : List (BNode T) → Bool
  | [] => true
  | c :: cs => wfc cmp c && wfcL cmp cs
end

theorem wfcL_iff {cmp : T → T → Int} :
    ∀ cs : List (BNode T), wfcL cmp cs = true ↔ ∀ c ∈ cs, wfc cmp c = true
  | [] => by simp [wfcL]
  | c :: cs => by
    rw [wfcL]
    simp [wfcL_iff cs]

/-- Depth of the leftmost spine (well-formed trees have uniform depth). -/
def depthOf : BNode T → Nat
  | .leaf _ _ _ => 0
  | .internal _ _ [] => 1
  | .internal _ _ (c :: _) => depthOf c + 1

/-- All nodes of the list at the depth of the first. -/
def sameDepth : List (BNode T) → Bool
  | [] => true
  | c :: cs => cs.all (fun d => depthOf d == depthOf c)

mutual
/-- All leaves at the same depth. -/
def uniformB : BNode T → Bool
  | .leaf _ _ _ => true
  | .internal _ _ cs => sameDepth cs && uniformL cs

/-- `uniformB` on every node of a list. -/
def uniformL : List (BNode T) → Bool
  | [] => true
  | c :: cs => uniformB c && uniformL cs
end

theorem uniformL_iff :
    ∀ cs : List (BNode T), uniformL cs = true ↔ ∀ c ∈ cs, uniformB c = true
  | [] => by simp [uniformL]
  | c :: cs => by
    rw [uniformL]
    simp [uniformL_iff cs]

mutual
/-- Size bounds: `len ≤ cap ≤ MAX` for leaves, `len ≤ MAX` for internal
nodes; every non-root node has `len ≥ MIN`, a root internal node has
`len ≥ 2`, a root leaf may be as small as empty. -/
def wfsz (isRoot : Bool) : BNode T → Bool
  | .leaf _ cap keys =>
    decide (keys.length ≤ cap) && decide (cap ≤ maxLen) &&
    (isRoot || decide (minLen ≤ keys.length))
  | .internal _ keys children =>
    decide (keys.length ≤ maxLen) &&
    (if isRoot then decide (2 ≤ keys.length) else decide (minLen ≤ keys.length)) &&
    wfszL children

/-- `wfsz false` on every node of a list. -/
def wfszL : List (BNode T) → Bool
  | [] => true
  | c :: cs => wfsz false c && wfszL cs
end

theorem wfszL_iff :
    ∀ cs : List (BNode T), wfszL cs = true ↔ ∀ c ∈ cs, wfsz false c = true
  | [] => by simp [wfszL]
  | c :: cs => by
    rw [wfszL]
    simp [wfszL_iff cs]

mutual
/-- Every edit flag reads false (all nodes of a persistent tree). -/
def noEd : BNode T → Bool
  | .leaf ed _ _ => !ed
  | .internal ed _ cs => !ed && noEdL cs

/-- `noEd` on every node of a list. -/
def noEdL : List (BNode T) → Bool
  | [] => true
  | c :: cs => noEd c && noEdL cs
end

theorem noEdL_iff :
    ∀ cs : List (BNode T), noEdL cs = true ↔ ∀ c ∈ cs, noEd c = true
  | [] => by simp [noEdL]
  | c :: cs => by
    rw [noEdL]
    simp [noEdL_iff cs]

end Invariants

section IterDrain

variable {T : Type}

open BNode

theorem stackW_hasNextA_le (st : List (BNode T × Nat)) :
    stackW (hasNextA st).2 ≤ stackW st := by
  induction st using hasNextA.induct with
  | case1 => rw [hasNextA.eq_def]
  | case2 ed1 cap1 keys cur rest h =>
    rw [hasNextA.eq_def]
    simp [h]
  | case3 ed1 cap1 keys cur h =>
    rw [hasNextA.eq_def]
    simp [h]
  | case4 ed1 cap1 keys cur h p ps ih =>
    rw [hasNextA.eq_def]
    simp only [if_neg h]
    have h3 := stackW_cons ((BNode.leaf ed1 cap1 keys : BNode T), cur) (p :: ps)
    omega
  | case5 ed1 keys children cur rest h child hleaf =>
    rw [hasNextA.eq_def]
    simp only [dif_pos h]
    have hleaf2 : (children.get ⟨cur, h⟩).isLeaf = true := hleaf
    rw [if_pos hleaf2]
    dsimp only
    have h1 := frameW_push ed1 keys h
    have h3 := stackW_cons ((children.get ⟨cur, h⟩ : BNode T), 0)
      ((BNode.internal ed1 keys children, cur + 1) :: rest)
    have h4 := stackW_cons (BNode.internal ed1 keys children, cur + 1) rest
    have h5 := stackW_cons (BNode.internal ed1 keys children, cur) rest
    omega
  | case6 ed1 keys children cur rest h child pushed hleaf ih =>
    rw [hasNextA.eq_def]
    simp only [dif_pos h]
    have hleaf2 : ¬(children.get ⟨cur, h⟩).isLeaf = true := hleaf
    rw [if_neg hleaf2]
    have hpu : stackW pushed = stackW ((children.get ⟨cur, h⟩, 0) ::
      (BNode.internal ed1 keys children, cur + 1) :: rest) := rfl
    have hpu3 : stackW (hasNextA pushed).2 = stackW (hasNextA ((children.get ⟨cur, h⟩, 0) ::
      (BNode.internal ed1 keys children, cur + 1) :: rest)).2 := rfl
    have h1 := frameW_push ed1 keys h
    have h3 := stackW_cons ((children.get ⟨cur, h⟩ : BNode T), 0)
      ((BNode.internal ed1 keys children, cur + 1) :: rest)
    have h4 := stackW_cons (BNode.internal ed1 keys children, cur + 1) rest
    have h5 := stackW_cons (BNode.internal ed1 keys children, cur) rest
    omega
  | case7 ed1 keys children cur h =>
    rw [hasNextA.eq_def]
    simp [h]
  | case8 ed1 keys children cur h p ps ih =>
    rw [hasNextA.eq_def]
    simp only [dif_neg h]
    have h3 := stackW_cons ((BNode.internal ed1 keys children : BNode T), cur) (p :: ps)
    omega

/-- Draining the iterator: the sequence produced by repeatedly calling
`HasNext` and then `Next` while `HasNext` reports true (the `Seq`/range
loop of the source).  When `HasNext` returns true the top frame is an
in-range leaf and the head/advance below is exactly what `Next` returns;
the fall-through arms are unreachable then (`Next` after a false `HasNext`
is undefined behaviour in the source). -/
def iterToList [Inhabited T] (i : Iter T) : List T :=
  match h1 : Iter.hasNext i with
  | (false, _) => []
  | (true, i2) =>
    match h2 : i2.stack with
    | (BNode.leaf ed cap keys, cur) :: rest =>
      if h3 : cur < keys.length then
        keys.getD cur default ::
          iterToList ⟨i2.cmp, (BNode.leaf ed cap keys, cur + 1) :: rest⟩
      else []
    | _ => []
termination_by stackW i.stack
decreasing_by
  have ha : i2.stack = (hasNextA i.stack).2 := by
    have h0 := congrArg (fun p => p.2.stack) h1
    exact h0.symm
  have hle := stackW_hasNextA_le i.stack
  rw [← ha, h2] at hle
  have h4 := stackW_cons ((BNode.leaf ed cap keys : BNode T), cur) rest
  have h5 := stackW_cons ((BNode.leaf ed cap keys : BNode T), cur + 1) rest
  have h6 : frameW ((BNode.leaf ed cap keys : BNode T), cur) = 1 + (keys.length - cur) := rfl
  have h7 : frameW ((BNode.leaf ed cap keys : BNode T), cur + 1) =
      1 + (keys.length - (cur + 1)) := rfl
  omega

end IterDrain

/-! ## Derived facts about well-formed nodes -/

section Helpers

variable {T : Type} [Inhabited T] [DecidableEq T] {cmp : T → T → Int}

open BNode

theorem getLastD_mem {l : List T} (h : l ≠ []) : l.getLastD default ∈ l := by
  induction l with
  | nil => exact absurd rfl h
  | cons a as ih =>
    cases as with
    | nil => simp
    | cons b bs =>
      have := ih (by simp)
      simpa using Or.inr (by simpa using this)

theorem getLastD_append_right {A B : List T} (h : B ≠ []) :
    (A ++ B).getLastD default = B.getLastD default := by
  rw [List.getLastD_eq_getLast?, List.getLastD_eq_getLast?, List.getLast?_append]
  have : B.getLast?.isSome = true := List.getLast?_isSome.mpr h
  rcases Option.isSome_iff_exists.mp this with ⟨b, hb⟩
  simp [hb]

theorem sortedL_le_last (hc : CmpLaws cmp) {l : List T} (hs : SortedL cmp l)
    {x : T} (hx : x ∈ l) : cmp x (l.getLastD default) ≤ 0 := by
  rcases List.getElem_of_mem hx with ⟨i, hi, rfl⟩
  have hne : l ≠ [] := by
    intro h
    subst h
    simp at hi
  have hlast : l.getLastD default = l[l.length - 1] := by
    rw [List.getLastD_eq_getLast?, List.getLast?_eq_getElem?]
    have : l.length - 1 < l.length := by
      cases l with
      | nil => exact absurd rfl hne
      | cons a as => simp
    simp [List.getElem?_eq_getElem this]
  rw [hlast]
  rcases Nat.lt_or_ge i (l.length - 1) with h | h
  · have := List.pairwise_iff_getElem.mp hs i (l.length - 1) hi (by omega) h
    omega
  · have : i = l.length - 1 := by omega
    subst this
    rw [hc.refl]

/-- Everything in a sorted list is at most `≤` its last element, and the
last element is strictly above everything before it. -/
theorem sortedL_lt_of_lt_last (hc : CmpLaws cmp) {l : List T}
    (hs : SortedL cmp l) {x b : T} (hx : x ∈ l)
    (hb : cmp (l.getLastD default) b < 0) : cmp x b < 0 := by
  have h1 := sortedL_le_last hc hs hx
  rcases lt_or_eq_of_le h1 with h | h
  · exact hc.lt_trans h hb
  · exact hc.lt_of_zero_of_lt h hb

theorem wfc_internal_parts {ed : Bool} {ks : List T} {cs : List (BNode T)}
    (h : wfc cmp (.internal ed ks cs) = true) :
    ks.length = cs.length ∧ cs ≠ [] ∧ sortedB cmp ks = true ∧
      (∀ i (h1 : i < ks.length) (h2 : i < cs.length),
        (cs[i]).maxKey = ks[i] ∧ toList cs[i] ≠ []) ∧
      (∀ c ∈ cs, wfc cmp c = true) ∧
      sortedB cmp ((cs.map toList).flatten) = true := by
  rw [wfc] at h
  simp only [Bool.and_eq_true, decide_eq_true_eq, Bool.not_eq_true', List.isEmpty_eq_false,
    List.all_eq_true] at h
  obtain ⟨⟨⟨⟨⟨hlen, hne⟩, hsk⟩, hzip⟩, hwl⟩, hflat⟩ := h
  refine ⟨hlen, hne, hsk, ?_, (wfcL_iff cs).mp hwl, hflat⟩
  intro i h1 h2
  have hmem : (ks[i], cs[i]) ∈ ks.zip cs := by
    rw [List.mem_iff_getElem]
    refine ⟨i, ?_, ?_⟩
    · rw [List.length_zip]
      omega
    · rw [List.getElem_zip]
  have := hzip _ hmem
  simp only [Bool.and_eq_true, decide_eq_true_eq, Bool.not_eq_true', List.isEmpty_eq_false] at this
  exact ⟨this.1, this.2⟩

theorem toList_sorted (hc : CmpLaws cmp) {n : BNode T}
    (h : wfc cmp n = true) : SortedL cmp (toList n) := by
  cases n with
  | leaf ed cap keys =>
    rw [wfc] at h
    exact (sortedB_iff hc keys).mp h
  | internal ed ks cs =>
    obtain ⟨_, _, _, _, _, hflat⟩ := wfc_internal_parts h
    rw [toList_internal]
    exact (sortedB_iff hc _).mp hflat

theorem maxKey_eq_last {n : BNode T} (h : wfc cmp n = true)
    (hne : toList n ≠ []) : n.maxKey = (toList n).getLastD default := by
  induction n using BNode.inductionOn with
  | hleaf ed cap keys => rfl
  | hinternal ed ks cs ih =>
    obtain ⟨hlen, hcne, _, hzip, hwl, _⟩ := wfc_internal_parts h
    have hcslen : 0 < cs.length := List.length_pos.mpr hcne
    have hklen : 0 < ks.length := by omega
    -- maxKey = ks[len-1] = maxKey of the last child = last of its contents
    -- = last of the flattened contents
    have hlastidx : cs.length - 1 < cs.length := by omega
    have hklastidx : ks.length - 1 < ks.length := by omega
    have hix : ks.length - 1 = cs.length - 1 := by omega
    obtain ⟨hmx, hnec⟩ := hzip (cs.length - 1) (by omega) hlastidx
    have hlastc : cs[cs.length - 1] ∈ cs := List.getElem_mem hlastidx
    have ihc := ih _ hlastc (hwl _ hlastc) hnec
    -- split cs as front ++ [last]
    have hsplit : cs = cs.take (cs.length - 1) ++ [cs[cs.length - 1]] := by
      conv_lhs => rw [← List.take_append_drop (cs.length - 1) cs]
      congr 1
      rw [List.drop_eq_getElem_cons hlastidx]
      have : cs.length - 1 + 1 = cs.length := by omega
      rw [this, List.drop_length]
    have h1 : (internal ed ks cs).maxKey = ks.getLastD default := rfl
    have h2 : ks.getLastD default = ks[ks.length - 1] := by
      rw [List.getLastD_eq_getLast?, List.getLast?_eq_getElem?]
      simp [List.getElem?_eq_getElem hklastidx]
    rw [h1, h2, toList_internal]
    conv_rhs => rw [hsplit]
    rw [List.map_append, List.flatten_append]
    rw [getLastD_append_right (by simpa using hnec)]
    simp only [List.map_cons, List.map_nil, List.flatten_cons, List.flatten_nil,
      List.append_nil]
    rw [← ihc, hmx]
    congr 2

theorem toList_internal_split {ed : Bool} {ks : List T} {cs : List (BNode T)}
    {i : Nat} (h : i < cs.length) :
    toList (.internal ed ks cs) =
      ((cs.take i).map toList).flatten ++ toList cs[i] ++
        ((cs.drop (i + 1)).map toList).flatten := by
  rw [toList_internal]
  have hcs : cs = cs.take i ++ cs[i] :: cs.drop (i + 1) := by
    conv_lhs => rw [← List.take_append_drop i cs]
    rw [List.drop_eq_getElem_cons h]
  conv_lhs => rw [hcs]
  rw [List.map_append, List.flatten_append, List.map_cons, List.flatten_cons,
    List.append_assoc]

theorem linsert_middle (hc : CmpLaws cmp) {X M Y : List T} {key : T}
    (hX : ∀ x ∈ X, 0 < cmp key x) (hY : ∀ y ∈ Y, cmp key y < 0) :
    linsert cmp (X ++ M ++ Y) key = X ++ linsert cmp M key ++ Y := by
  induction X with
  | cons x xs ih =>
    have hx := hX x (by simp)
    have h1 : ¬cmp key x < 0 := by omega
    have h2 : cmp key x ≠ 0 := by omega
    simp only [List.cons_append, linsert, h1, if_false, h2, List.append_eq]
    rw [ih (fun x2 hx2 => hX x2 (List.mem_cons_of_mem _ hx2))]
  | nil =>
    simp only [List.nil_append]
    induction M with
    | cons m ms ihm =>
      rw [List.cons_append, linsert, linsert]
      by_cases h1 : cmp key m < 0
      · simp [h1]
      · rw [if_neg h1, if_neg h1]
        by_cases h2 : cmp key m = 0
        · simp [h2]
        · rw [if_neg h2, if_neg h2, List.cons_append, ihm]
    | nil =>
      simp only [List.nil_append, linsert]
      cases Y with
      | nil => rfl
      | cons y ys =>
        have := hY y (by simp)
        rw [linsert, if_pos this]
        simp

theorem lremove_middle (hc : CmpLaws cmp) {X M Y : List T} {key : T}
    (hX : ∀ x ∈ X, cmp key x ≠ 0) (hY : ∀ y ∈ Y, cmp key y ≠ 0) :
    lremove cmp (X ++ M ++ Y) key = X ++ lremove cmp M key ++ Y := by
  induction X with
  | cons x xs ih =>
    have hx := hX x (by simp)
    simp only [List.cons_append, lremove, hx, if_false, List.append_eq]
    rw [ih (fun x2 hx2 => hX x2 (List.mem_cons_of_mem _ hx2))]
  | nil =>
    simp only [List.nil_append]
    induction M with
    | cons m ms ihm =>
      rw [List.cons_append, lremove, lremove]
      by_cases h1 : cmp key m = 0
      · simp [h1]
      · rw [if_neg h1, if_neg h1, List.cons_append, ihm]
    | nil =>
      simp only [List.nil_append, lremove]
      rw [lremove_absent hY]

/-! ### Slice algebra -/

theorem length_seg {α : Type _} (l : List α) (a b : Nat) :
    (seg l a b).length = min b l.length - a := by
  simp [seg]

theorem seg_zero_left {α : Type _} (l : List α) (b : Nat) :
    seg l 0 b = l.take b := by
  simp [seg]

theorem seg_to_length {α : Type _} (l : List α) (a : Nat) :
    seg l a l.length = l.drop a := by
  simp [seg]

theorem seg_append {α : Type _} (l : List α) {a b c : Nat} (hab : a ≤ b)
    (hbc : b ≤ c) : seg l a b ++ seg l b c = seg l a c := by
  unfold seg
  have h1 : l.take c = l.take b ++ (l.take c).drop b := by
    conv_lhs => rw [← List.take_append_drop b (l.take c)]
    rw [List.take_take, min_eq_left hbc]
  conv_rhs => rw [h1]
  rw [List.drop_append_eq_append_drop]
  congr 1
  rcases le_or_lt a (l.take b).length with h | h
  · rw [Nat.sub_eq_zero_of_le h, List.drop_zero]
  · have hlb : (l.take b).length = min b l.length := List.length_take b l
    have h2 : (l.take c).drop b = [] := by
      apply List.drop_eq_nil_of_le
      have := List.length_take c l
      omega
    rw [h2]
    simp

theorem getLastD_cons_of_ne {T : Type} [Inhabited T] [DecidableEq T] {key : T} {l : List T}
    (h : l ≠ []) : (key :: l).getLastD default = l.getLastD default := by
  have heq2 : key :: l = [key] ++ l := rfl
  rw [heq2, getLastD_append_right h]

theorem getLastD_insert_mid {T : Type} [Inhabited T] [DecidableEq T] {l : List T} {key : T}
    {i : Nat} (h : i < l.length) :
    (l.take i ++ key :: l.drop i).getLastD default = l.getLastD default := by
  have hne : l.drop i ≠ [] := by
    intro hd
    have := congrArg List.length hd
    simp at this
    omega
  rw [getLastD_append_right (A := l.take i) (by simp), getLastD_cons_of_ne hne]
  conv_rhs => rw [← List.take_append_drop i l]
  rw [getLastD_append_right hne]

end Helpers

/-! ## The functional specification of `add` at node level -/

section AddSpecSec

variable {T : Type} [Inhabited T] [DecidableEq T]

open BNode

/-- What each `add` return value means relative to the node's former
contents `L`. -/
def AddSpec (cmp : T → T → Int) (L : List T) (key : T) : NodeRet T → Prop
  | .unchanged => key ∈ L
  | .early n2 => (∀ d ∈ L, cmp key d ≠ 0) ∧ toList n2 = linsert cmp L key ∧
      wfc cmp n2 = true ∧ (toList n2).getLastD default = L.getLastD default
  | .replaced n2 => (∃ d ∈ L, cmp key d = 0) ∧ key ∉ L ∧
      toList n2 = linsert cmp L key ∧ wfc cmp n2 = true
  | .one n2 => (∀ d ∈ L, cmp key d ≠ 0) ∧ toList n2 = linsert cmp L key ∧
      wfc cmp n2 = true
  | .two n1 n2 => (∀ d ∈ L, cmp key d ≠ 0) ∧
      toList n1 ++ toList n2 = linsert cmp L key ∧
      wfc cmp n1 = true ∧ wfc cmp n2 = true ∧ toList n1 ≠ [] ∧ toList n2 ≠ []
  | .three _ _ _ => False

variable {cmp : T → T → Int} {eq : T → T → Bool}

theorem leafAdd_spec (hc : CmpLaws cmp) (heq : ∀ a b, eq a b = true ↔ a = b)
    {ed : Bool} {cap : Nat} {keys : List T} {key : T} {edit : Bool}
    (hs : sortedB cmp keys = true) :
    AddSpec cmp keys key (leafAdd cmp eq ed cap keys key edit) := by
  have hsl : SortedL cmp keys := (sortedB_iff hc keys).mp hs
  set i := lsearchFirst cmp keys key with hidef
  by_cases hfd : i < keys.length ∧ cmp key (keys.getD i default) = 0
  · obtain ⟨hilen, hzero⟩ := hfd
    have hgd : keys.getD i default = keys[i] := List.getD_eq_getElem _ _ hilen
    by_cases heqb : eq key (keys.getD i default) = true
    · -- unchanged
      have hr : lsearchEq cmp eq keys key = ((i : Int), false) := by
        rw [lsearchEq, ← hidef, if_pos ⟨hilen, hzero⟩, if_pos heqb]
      have hres : leafAdd cmp eq ed cap keys key edit = .unchanged := by
        simp [leafAdd, hr]
      rw [hres]
      show key ∈ keys
      have hkk : key = keys.getD i default := (heq _ _).mp heqb
      rw [hkk, hgd]
      exact List.getElem_mem hilen
    · -- replaced
      have hr : lsearchEq cmp eq keys key = (-(i : Int) - 1, true) := by
        rw [lsearchEq, ← hidef, if_pos ⟨hilen, hzero⟩, if_neg heqb]
      have hz2 : cmp key keys[i] = 0 := by rwa [hgd] at hzero
      have hpres : ∃ d ∈ keys, cmp key d = 0 :=
        ⟨keys[i], List.getElem_mem hilen, hz2⟩
      have hnk : key ∉ keys := by
        intro hk
        have hself : cmp key key = 0 := hc.refl key
        have huniq := sorted_class_unique hc hsl hk (List.getElem_mem hilen) hself hz2
        apply heqb
        rw [hgd, ← huniq]
        exact (heq key key).mpr rfl
      have hlin : keys.set i key = linsert cmp keys key :=
        (linsert_eq_set hc hsl hilen hz2).symm
      have hins : (-(-(i : Int) - 1) - 1).toNat = i := by omega
      by_cases hed : ed = true
      · have hres : leafAdd cmp eq ed cap keys key edit =
            .replaced (.leaf ed cap (keys.set i key)) := by
          simp [leafAdd, hr, leafModifyInPlace, hins, hed]
        rw [hres]
        refine ⟨hpres, hnk, by simpa using hlin, ?_⟩
        rw [wfc, hlin]
        exact (sortedB_iff hc _).mpr (linsert_sorted hc hsl key)
      · have hed2 : ed = false := by simpa using hed
        have hres : leafAdd cmp eq ed cap keys key edit =
            .replaced (.leaf edit (newLeafCap keys.length edit) (keys.set i key)) := by
          simp [leafAdd, hr, leafCopyAndReplaceNode, hins, hed2]
        rw [hres]
        refine ⟨hpres, hnk, by simpa using hlin, ?_⟩
        rw [wfc, hlin]
        exact (sortedB_iff hc _).mpr (linsert_sorted hc hsl key)
  · -- the compare-class is absent: insert
    have hr : lsearchEq cmp eq keys key = (-(i : Int) - 1, false) := by
      rw [lsearchEq, ← hidef, if_neg hfd]
    have habs : ∀ d ∈ keys, cmp key d ≠ 0 := by
      apply lsearch_neg_absent hc hsl
      rw [lsearch, ← hidef, if_neg hfd]
      omega
    have hins : (-(-(i : Int) - 1) - 1).toNat = i := by omega
    have hile : i ≤ keys.length := by
      rw [hidef]
      exact lsearchFirst_le keys key
    have hlini : linsert cmp keys key = keys.take i ++ key :: keys.drop i := by
      rw [linsert_eq_insert_at hc hsl habs, ← hidef]
    have hsrtlin : SortedL cmp (linsert cmp keys key) := linsert_sorted hc hsl key
    by_cases hed : ed = true ∧ keys.length < cap
    · by_cases hiend : i = keys.length
      · -- in-place append
        have hres : leafAdd cmp eq ed cap keys key edit =
            .one (.leaf ed cap (keys ++ [key])) := by
          simp [leafAdd, hr, leafModifyInPlace, hins, hed.1, hed.2, hiend]
          omega
        rw [hres]
        refine ⟨habs, ?_, ?_⟩
        · show keys ++ [key] = linsert cmp keys key
          rw [hlini, hiend]
          simp
        · rw [wfc]
          apply (sortedB_iff hc _).mpr
          have : keys ++ [key] = linsert cmp keys key := by
            rw [hlini, hiend]
            simp
          rw [this]
          exact hsrtlin
      · -- in-place interior insert
        have hilt : i < keys.length := by omega
        have hres : leafAdd cmp eq ed cap keys key edit =
            .early (.leaf ed cap (keys.take i ++ key :: keys.drop i)) := by
          simp [leafAdd, hr, leafModifyInPlace, hins, hed.1, hed.2, hiend]
          omega
        rw [hres]
        refine ⟨habs, by simpa using hlini.symm, ?_, ?_⟩
        · rw [wfc]
          apply (sortedB_iff hc _).mpr
          rw [← hlini]
          exact hsrtlin
        · show (keys.take i ++ key :: keys.drop i).getLastD default = _
          exact getLastD_insert_mid hilt
    · by_cases hmax : keys.length < maxLen
      · -- copy and insert
        have hres : leafAdd cmp eq ed cap keys key edit =
            .one (.leaf edit (newLeafCap (keys.length + 1) edit)
              (keys.take i ++ key :: keys.drop i)) := by
          simp [leafAdd, hr, leafCopyAndInsertNode, hins, hed, hmax]
          omega
        rw [hres]
        refine ⟨habs, by simpa using hlini.symm, ?_⟩
        rw [wfc]
        apply (sortedB_iff hc _).mpr
        rw [← hlini]
        exact hsrtlin
      · -- split
        have hlen64 : maxLen ≤ keys.length := by omega
        have hfh1 : 1 ≤ (keys.length + 1) / 2 := by
          rw [maxLen] at hlen64
          omega
        have hfhle : (keys.length + 1) / 2 ≤ keys.length := by
          rw [maxLen] at hlen64
          omega
        by_cases hsp : i < (keys.length + 1) / 2
        · have hres : leafAdd cmp eq ed cap keys key edit =
              .two (.leaf edit (newLeafCap ((keys.length + 1) / 2) edit)
                  (keys.take i ++ key :: seg keys i ((keys.length + 1) / 2 - 1)))
                (.leaf edit (newLeafCap (keys.length + 1 - (keys.length + 1) / 2) edit)
                  (seg keys ((keys.length + 1) / 2 - 1) keys.length)) := by
            simp [leafAdd, hr, leafSplit, hins, hed, hmax, hsp]
            all_goals omega
          rw [hres]
          have hconcat : (keys.take i ++ key :: seg keys i ((keys.length + 1) / 2 - 1)) ++
              seg keys ((keys.length + 1) / 2 - 1) keys.length = linsert cmp keys key := by
            rw [hlini]
            rw [List.append_assoc]
            congr 1
            rw [List.cons_append]
            congr 1
            rw [seg_append keys (by omega) (by omega), seg_to_length]
          have hsplit2 := (sortedL_append).mp (by rw [hconcat]; exact hsrtlin)
          refine ⟨habs, by simpa using hconcat, ?_, ?_, ?_, ?_⟩
          · rw [wfc]
            exact (sortedB_iff hc _).mpr hsplit2.1
          · rw [wfc]
            exact (sortedB_iff hc _).mpr hsplit2.2.1
          · simp
          · show seg keys ((keys.length + 1) / 2 - 1) keys.length ≠ []
            intro hnil
            have hlen := congrArg List.length hnil
            rw [length_seg, List.length_nil] at hlen
            omega
        · have hres : leafAdd cmp eq ed cap keys key edit =
              .two (.leaf edit (newLeafCap ((keys.length + 1) / 2) edit)
                  (keys.take ((keys.length + 1) / 2)))
                (.leaf edit (newLeafCap (keys.length + 1 - (keys.length + 1) / 2) edit)
                  (seg keys ((keys.length + 1) / 2) i ++ key :: seg keys i keys.length)) := by
            simp [leafAdd, hr, leafSplit, hins, hed, hmax, hsp]
            all_goals omega
          rw [hres]
          have hconcat : keys.take ((keys.length + 1) / 2) ++
              (seg keys ((keys.length + 1) / 2) i ++ key :: seg keys i keys.length) =
              linsert cmp keys key := by
            rw [hlini, ← List.append_assoc, ← seg_zero_left,
              seg_append keys (by omega) (by omega), seg_zero_left, seg_to_length]
          have hsplit2 := (sortedL_append).mp (by rw [hconcat]; exact hsrtlin)
          refine ⟨habs, by simpa using hconcat, ?_, ?_, ?_, ?_⟩
          · rw [wfc]
            exact (sortedB_iff hc _).mpr hsplit2.1
          · rw [wfc]
            exact (sortedB_iff hc _).mpr hsplit2.2.1
          · show keys.take ((keys.length + 1) / 2) ≠ []
            intro hnil
            have hlen := congrArg List.length hnil
            rw [List.length_take, List.length_nil] at hlen
            omega
          · simp


theorem CmpLaws.lt_of_le_of_lt {T : Type} {cmp : T → T → Int}
    (hc : CmpLaws cmp) {a b c : T} (h1 : cmp a b ≤ 0) (h2 : cmp b c < 0) :
    cmp a c < 0 := by
  rcases lt_or_eq_of_le h1 with h | h
  · exact hc.lt_trans h h2
  · exact hc.lt_of_zero_of_lt h h2

theorem CmpLaws.lt_of_lt_of_le {T : Type} {cmp : T → T → Int}
    (hc : CmpLaws cmp) {a b c : T} (h1 : cmp a b < 0) (h2 : cmp b c ≤ 0) :
    cmp a c < 0 := by
  rcases lt_or_eq_of_le h2 with h | h
  · exact hc.lt_trans h1 h
  · exact hc.lt_of_lt_of_zero h1 h

theorem CmpLaws.le_flip {T : Type} {cmp : T → T → Int}
    (hc : CmpLaws cmp) {a b : T} (h : 0 ≤ cmp b a) : cmp a b ≤ 0 := by
  by_contra hcon
  have : cmp b a < 0 := (hc.flip b a).mpr (by omega)
  omega

section InternalIntro

variable {T : Type} [Inhabited T] [DecidableEq T] {cmp : T → T → Int}

open BNode

theorem list_set_id {α : Type _} {l : List α} {i : Nat} {v : α}
    (h : i < l.length) (hv : l[i] = v) : l.set i v = l := by
  apply List.ext_getElem (by simp)
  intro n h1 h2
  rw [List.getElem_set]
  split
  · rename_i hin
    subst hin
    exact hv.symm
  · rfl

theorem getLastD_set_last {l : List T} {v : T} (h : l ≠ []) :
    (l.set (l.length - 1) v).getLastD default = v := by
  have hlen : l.length - 1 < l.length := by
    cases l with
    | nil => exact absurd rfl h
    | cons a as => simp
  rw [List.set_eq_take_append_cons_drop, if_pos hlen]
  have hdrop : l.drop (l.length - 1 + 1) = [] := by
    apply List.drop_eq_nil_of_le
    omega
  rw [hdrop]
  have : l.take (l.length - 1) ++ v :: [] = l.take (l.length - 1) ++ [v] := rfl
  rw [this, List.getLastD_concat]

/-- In a sorted flattening, every element of an earlier block is below every
element of a later block. -/
theorem flatten_sorted_cross (hc : CmpLaws cmp) {L : List (List T)}
    (hs : SortedL cmp L.flatten) {i j : Nat} (hi : i < L.length)
    (hj : j < L.length) (hij : i < j) :
    ∀ x ∈ L[i], ∀ y ∈ L[j], cmp x y < 0 := by
  intro x hx y hy
  have hLsplit : L = L.take i ++ L[i] :: L.drop (i + 1) := by
    conv_lhs => rw [← List.take_append_drop i L]
    rw [List.drop_eq_getElem_cons hi]
  have hflat : L.flatten = (L.take i).flatten ++ (L[i] ++ (L.drop (i + 1)).flatten) := by
    conv_lhs => rw [hLsplit]
    rw [List.flatten_append, List.flatten_cons]
  rw [hflat] at hs
  have hs2 := (sortedL_append).mp hs
  have hs3 := (sortedL_append).mp hs2.2.1
  apply hs3.2.2 x hx
  rw [List.mem_flatten]
  refine ⟨L[j], ?_, hy⟩
  rw [List.mem_drop_iff_getElem]
  exact ⟨j - (i + 1), by omega, by congr 1; omega⟩

/-- Assemble `wfc` for an internal node from indexed facts. -/
theorem wfc_internal_intro (hc : CmpLaws cmp) {ed : Bool} {ks : List T}
    {cs : List (BNode T)} (hlen : ks.length = cs.length) (hne : cs ≠ [])
    (hzip : ∀ j (hj : j < cs.length), (cs[j]).maxKey = ks.get ⟨j, by omega⟩)
    (hchild : ∀ c ∈ cs, wfc cmp c = true)
    (hnec : ∀ j (hj : j < cs.length), toList cs[j] ≠ [])
    (hflat : SortedL cmp ((cs.map toList).flatten)) :
    wfc cmp (.internal ed ks cs) = true := by
  have hsepmem : ∀ j (hj : j < cs.length), ks.get ⟨j, by omega⟩ ∈ toList cs[j] := by
    intro j hj
    have h1 := hzip j hj
    have h2 := maxKey_eq_last (hchild _ (List.getElem_mem hj)) (hnec j hj)
    simp only [Nat.sub_zero] at h1
    rw [← h1, h2]
    exact getLastD_mem (hnec j hj)
  have hcross : ∀ i j (hi : i < cs.length) (hj : j < cs.length), i < j →
      ∀ x ∈ toList cs[i], ∀ y ∈ toList cs[j], cmp x y < 0 := by
    intro i j hi hj hij x hx y hy
    have := flatten_sorted_cross hc hflat (i := i) (j := j)
      (by simpa using hi) (by simpa using hj) hij
    simp only [List.getElem_map] at this
    exact this x hx y hy
  have hsk : SortedL cmp ks := by
    apply List.pairwise_iff_getElem.mpr
    intro i j hi hj hij
    exact hcross i j (by omega) (by omega) hij _ (hsepmem i (by omega)) _
      (hsepmem j (by omega))
  rw [wfc]
  simp only [Bool.and_eq_true, decide_eq_true_eq, Bool.not_eq_true', List.isEmpty_eq_false,
    List.all_eq_true]
  refine ⟨⟨⟨⟨⟨hlen, hne⟩, (sortedB_iff hc ks).mpr hsk⟩, ?_⟩,
    (wfcL_iff cs).mpr hchild⟩, (sortedB_iff hc _).mpr hflat⟩
  intro p hp
  rw [List.mem_iff_getElem] at hp
  obtain ⟨j, hjl, hpj⟩ := hp
  rw [List.length_zip] at hjl
  have hj : j < cs.length := by omega
  have : p = (ks.get ⟨j, by omega⟩, cs[j]) := by
    rw [← hpj, List.getElem_zip, List.get_eq_getElem]
  subst this
  simp only [Bool.and_eq_true, decide_eq_true_eq, Bool.not_eq_true', List.isEmpty_eq_false]
  have := hzip j hj
  simp only [Nat.sub_zero] at this
  exact ⟨this, hnec j hj⟩

end InternalIntro

section InternalGlue

variable {T : Type} [Inhabited T] [DecidableEq T] {cmp : T → T → Int}

open BNode

theorem linsert_ne_nil (cmp : T → T → Int) (l : List T) (key : T) :
    linsert cmp l key ≠ [] :=
  List.ne_nil_of_mem (key_mem_linsert l key)

theorem mem_zip_of_getElem {α β : Type _} {A : List α} {B : List β} {i : Nat}
    (h1 : i < A.length) (h2 : i < B.length) : (A[i], B[i]) ∈ A.zip B := by
  rw [List.mem_iff_getElem]
  exact ⟨i, by rw [List.length_zip]; omega, by rw [List.getElem_zip]⟩

theorem mem_zip_take {α β : Type _} {A : List α} {B : List β} {n m : Nat}
    {p : α × β} (h : p ∈ (A.take n).zip (B.take m)) : p ∈ A.zip B := by
  rw [List.mem_iff_getElem] at h
  obtain ⟨i, hi, hp⟩ := h
  rw [List.length_zip, List.length_take, List.length_take] at hi
  have h1 : i < A.length := by omega
  have h2 : i < B.length := by omega
  have hpe : p = (A[i], B[i]) := by
    rw [← hp, List.getElem_zip, List.getElem_take, List.getElem_take]
  rw [hpe]
  exact mem_zip_of_getElem h1 h2

theorem mem_zip_drop {α β : Type _} {A : List α} {B : List β} {n : Nat}
    {p : α × β} (h : p ∈ (A.drop n).zip (B.drop n)) : p ∈ A.zip B := by
  rw [List.mem_iff_getElem] at h
  obtain ⟨i, hi, hp⟩ := h
  rw [List.length_zip, List.length_drop, List.length_drop] at hi
  have h1 : n + i < A.length := by omega
  have h2 : n + i < B.length := by omega
  have hpe : p = (A[n + i], B[n + i]) := by
    rw [← hp, List.getElem_zip, List.getElem_drop, List.getElem_drop]
  rw [hpe]
  exact mem_zip_of_getElem h1 h2

theorem mem_zip_seg {α β : Type _} {A : List α} {B : List β} {a b b2 : Nat}
    {p : α × β} (h : p ∈ (seg A a b).zip (seg B a b2)) : p ∈ A.zip B := by
  simp only [seg] at h
  exact mem_zip_take (mem_zip_drop h)

theorem mem_of_mem_seg {α : Type _} {l : List α} {a b : Nat} {x : α}
    (h : x ∈ seg l a b) : x ∈ l := by
  simp only [seg] at h
  exact List.mem_of_mem_take (List.mem_of_mem_drop h)

theorem flatten_map_take_drop {α β : Type _} (f : α → List β) (l : List α)
    (n : Nat) :
    (l.map f).flatten = ((l.take n).map f).flatten ++ ((l.drop n).map f).flatten := by
  conv_lhs => rw [← List.take_append_drop n l]
  rw [List.map_append, List.flatten_append]

theorem seg_append_drop {α : Type _} (l : List α) {a b : Nat} (hab : a ≤ b)
    (hb : b ≤ l.length) : seg l a b ++ l.drop b = l.drop a := by
  rw [← seg_to_length l b, seg_append l hab hb, seg_to_length]

theorem flatten_map_seg_decomp {α β : Type _} (f : α → List β) (l : List α)
    {a b : Nat} (hab : a ≤ b) (hb : b ≤ l.length) :
    (l.map f).flatten =
      ((l.take a).map f).flatten ++ ((seg l a b).map f).flatten ++
        ((l.drop b).map f).flatten := by
  rw [flatten_map_take_drop f l a, List.append_assoc]
  congr 1
  rw [← seg_append_drop l hab hb, List.map_append, List.flatten_append]

theorem mem_flatten_map_take {α β : Type _} {f : α → List β} {l : List α}
    {n : Nat} {x : β} (h : x ∈ ((l.take n).map f).flatten) :
    ∃ j : Fin l.length, j.1 < n ∧ x ∈ f (l.get j) := by
  rw [List.mem_flatten] at h
  obtain ⟨blk, hblk, hx⟩ := h
  rw [List.mem_map] at hblk
  obtain ⟨a, ha, rfl⟩ := hblk
  rw [List.mem_iff_getElem] at ha
  obtain ⟨j, hj, rfl⟩ := ha
  rw [List.length_take] at hj
  rw [List.getElem_take] at hx
  exact ⟨⟨j, by omega⟩, show j < n by omega, hx⟩

theorem mem_flatten_map_drop {α β : Type _} {f : α → List β} {l : List α}
    {n : Nat} {x : β} (h : x ∈ ((l.drop n).map f).flatten) :
    ∃ j : Fin l.length, n ≤ j.1 ∧ x ∈ f (l.get j) := by
  rw [List.mem_flatten] at h
  obtain ⟨blk, hblk, hx⟩ := h
  rw [List.mem_map] at hblk
  obtain ⟨a, ha, rfl⟩ := hblk
  rw [List.mem_iff_getElem] at ha
  obtain ⟨j, hj, rfl⟩ := ha
  rw [List.length_drop] at hj
  rw [List.getElem_drop] at hx
  exact ⟨⟨n + j, by omega⟩, show n ≤ n + j by omega, hx⟩

theorem mem_flatten_map_seg {α β : Type _} {f : α → List β} {l : List α}
    {a b : Nat} {x : β} (h : x ∈ ((seg l a b).map f).flatten) :
    ∃ j : Fin l.length, a ≤ j.1 ∧ j.1 < b ∧ x ∈ f (l.get j) := by
  simp only [seg] at h
  obtain ⟨j, hjn, hx⟩ := mem_flatten_map_drop h
  have hjb : j.1 < min b l.length :=
    lt_of_lt_of_eq j.2 (List.length_take b l)
  have hget : (l.take b).get j = l.get ⟨j.1, by omega⟩ := by
    simp [List.get_eq_getElem, List.getElem_take]
  refine ⟨⟨j.1, by omega⟩, hjn, show j.1 < b by omega, ?_⟩
  rw [← hget]
  exact hx

theorem flatten_ne_nil_of_mem {β : Type _} {L : List (List β)} {l : List β}
    (hl : l ∈ L) (hne : l ≠ []) : L.flatten ≠ [] := by
  intro h
  exact hne (List.flatten_eq_nil_iff.mp h l hl)

theorem sortedL_linsert_middle (hc : CmpLaws cmp) {X M Y : List T} {key : T}
    (hs : SortedL cmp (X ++ M ++ Y))
    (hX : ∀ x ∈ X, 0 < cmp key x) (hY : ∀ y ∈ Y, cmp key y < 0) :
    SortedL cmp (X ++ linsert cmp M key ++ Y) := by
  rw [sortedL_append] at hs
  obtain ⟨hXM, hY2, hcross⟩ := hs
  rw [sortedL_append] at hXM
  obtain ⟨hX2, hM, hcrossXM⟩ := hXM
  have hlins : SortedL cmp (linsert cmp M key) := linsert_sorted hc hM key
  rw [sortedL_append]
  refine ⟨?_, hY2, ?_⟩
  · rw [sortedL_append]
    refine ⟨hX2, hlins, ?_⟩
    intro a ha b hb
    rcases mem_linsert hb with rfl | hbM
    · exact (hc.flip _ _).mpr (hX a ha)
    · exact hcrossXM a ha b hbM
  · intro a ha b hb
    rcases List.mem_append.mp ha with haX | haL
    · exact hcross a (List.mem_append_left _ haX) b hb
    · rcases mem_linsert haL with rfl | haM
      · exact hY b hb
      · exact hcross a (List.mem_append_right _ haM) b hb

theorem wfc_internal_intro2 (hc : CmpLaws cmp) {ed : Bool} {ks : List T}
    {cs : List (BNode T)} (hlen : ks.length = cs.length) (hne : cs ≠ [])
    (hzip : ∀ p ∈ ks.zip cs, (p.2).maxKey = p.1 ∧ toList p.2 ≠ [])
    (hchild : ∀ c ∈ cs, wfc cmp c = true)
    (hflat : SortedL cmp ((cs.map toList).flatten)) :
    wfc cmp (.internal ed ks cs) = true := by
  apply wfc_internal_intro hc hlen hne ?_ hchild ?_ hflat
  · intro j hj
    exact (hzip _ (mem_zip_of_getElem (by omega) hj)).1
  · intro j hj
    exact (hzip _ (mem_zip_of_getElem (i := j) (by omega) hj)).2

theorem hpair_of_wfc {ed : Bool} {ks : List T} {cs : List (BNode T)}
    (hwf : wfc cmp (.internal ed ks cs) = true) :
    ∀ p ∈ ks.zip cs, (p.2).maxKey = p.1 ∧ toList p.2 ≠ [] := by
  obtain ⟨hlen, _, _, hzip0, _, _⟩ := wfc_internal_parts hwf
  intro p hp
  rw [List.mem_iff_getElem] at hp
  obtain ⟨i, hi, rfl⟩ := hp
  rw [List.length_zip] at hi
  rw [List.getElem_zip]
  exact hzip0 i (by omega) (by omega)

/-- Replacing the descent child (and its separator) by an updated child whose
contents are the inserted ones produces the inserted contents and preserves
well-formedness. -/
theorem internal_set_spec (hc : CmpLaws cmp) {ed : Bool} (ed2 : Bool) {ks : List T}
    {cs : List (BNode T)} {ins : Nat} {c : BNode T} {key : T}
    (hwf : wfc cmp (.internal ed ks cs) = true)
    (hins : ins < cs.length)
    (hX : ∀ x ∈ ((cs.take ins).map toList).flatten, 0 < cmp key x)
    (hY : ∀ y ∈ ((cs.drop (ins + 1)).map toList).flatten, cmp key y < 0)
    (hcwf : wfc cmp c = true)
    (hctl : toList c = linsert cmp (toList cs[ins]) key) :
    toList (.internal ed2 (ks.set ins c.maxKey) (cs.set ins c)) =
      linsert cmp (toList (.internal ed ks cs)) key ∧
    wfc cmp (.internal ed2 (ks.set ins c.maxKey) (cs.set ins c)) = true := by
  obtain ⟨hlen, hne, hsk, hzip0, hwl, hflat0⟩ := wfc_internal_parts hwf
  have hinsk : ins < ks.length := by omega
  have hset_cs : cs.set ins c = cs.take ins ++ c :: cs.drop (ins + 1) := by
    rw [List.set_eq_take_append_cons_drop, if_pos hins]
  have hset_ks : ks.set ins c.maxKey =
      ks.take ins ++ c.maxKey :: ks.drop (ins + 1) := by
    rw [List.set_eq_take_append_cons_drop, if_pos hinsk]
  have hflat_new : ((cs.set ins c).map toList).flatten =
      ((cs.take ins).map toList).flatten ++ toList c ++
        ((cs.drop (ins + 1)).map toList).flatten := by
    rw [hset_cs, List.map_append, List.flatten_append, List.map_cons,
      List.flatten_cons, List.append_assoc]
  have hLs : toList (.internal ed ks cs) =
      ((cs.take ins).map toList).flatten ++ toList cs[ins] ++
        ((cs.drop (ins + 1)).map toList).flatten := toList_internal_split hins
  have hmid : linsert cmp (toList (.internal ed ks cs)) key =
      ((cs.take ins).map toList).flatten ++
        linsert cmp (toList cs[ins]) key ++
        ((cs.drop (ins + 1)).map toList).flatten := by
    rw [hLs, linsert_middle hc hX hY]
  have hcontent : toList (.internal ed2 (ks.set ins c.maxKey) (cs.set ins c)) =
      linsert cmp (toList (.internal ed ks cs)) key := by
    rw [toList_internal, hflat_new, hctl, hmid]
  refine ⟨hcontent, ?_⟩
  have hsortOld : SortedL cmp (((cs.take ins).map toList).flatten ++
      toList cs[ins] ++ ((cs.drop (ins + 1)).map toList).flatten) := by
    have h1 : SortedL cmp (toList (.internal ed ks cs)) := toList_sorted hc hwf
    rwa [hLs] at h1
  have hsortNew : SortedL cmp (((cs.take ins).map toList).flatten ++
      linsert cmp (toList cs[ins]) key ++
      ((cs.drop (ins + 1)).map toList).flatten) :=
    sortedL_linsert_middle hc hsortOld hX hY
  have hpair := hpair_of_wfc hwf
  apply wfc_internal_intro2 hc
  · simp [hlen]
  · intro h0
    rw [hset_cs] at h0
    simp at h0
  · intro p hp
    rw [hset_ks, hset_cs] at hp
    rw [List.zip_append (by simp; omega)] at hp
    rcases List.mem_append.mp hp with hp1 | hp2
    · exact hpair p (mem_zip_take hp1)
    · rw [List.zip_cons_cons] at hp2
      rcases List.mem_cons.mp hp2 with rfl | hp3
      · refine ⟨rfl, ?_⟩
        rw [hctl]
        exact linsert_ne_nil cmp _ key
      · exact hpair p (mem_zip_drop hp3)
  · intro c2 hc2
    rw [hset_cs] at hc2
    rcases List.mem_append.mp hc2 with h1 | h2
    · exact hwl c2 (List.mem_of_mem_take h1)
    · rcases List.mem_cons.mp h2 with rfl | h3
      · exact hcwf
      · exact hwl c2 (List.mem_of_mem_drop h3)
  · rw [hflat_new, hctl]
    exact hsortNew

/-- `copyAndAppend`: replacing the descent child by the two split halves
produces the inserted contents and preserves well-formedness. -/
theorem internal_append2_spec (hc : CmpLaws cmp) {ed : Bool} (ed2 : Bool) {ks : List T}
    {cs : List (BNode T)} {ins : Nat} {n1 n2 : BNode T} {key : T}
    (hwf : wfc cmp (.internal ed ks cs) = true)
    (hins : ins < cs.length)
    (hX : ∀ x ∈ ((cs.take ins).map toList).flatten, 0 < cmp key x)
    (hY : ∀ y ∈ ((cs.drop (ins + 1)).map toList).flatten, cmp key y < 0)
    (h1wf : wfc cmp n1 = true) (h2wf : wfc cmp n2 = true)
    (h1ne : toList n1 ≠ []) (h2ne : toList n2 ≠ [])
    (hctl : toList n1 ++ toList n2 = linsert cmp (toList cs[ins]) key) :
    toList (.internal ed2
        (ks.take ins ++ n1.maxKey :: n2.maxKey :: seg ks (ins + 1) ks.length)
        (cs.take ins ++ n1 :: n2 :: seg cs (ins + 1) cs.length)) =
      linsert cmp (toList (.internal ed ks cs)) key ∧
    wfc cmp (.internal ed2
        (ks.take ins ++ n1.maxKey :: n2.maxKey :: seg ks (ins + 1) ks.length)
        (cs.take ins ++ n1 :: n2 :: seg cs (ins + 1) cs.length)) = true := by
  obtain ⟨hlen, hne, hsk, hzip0, hwl, hflat0⟩ := wfc_internal_parts hwf
  have hinsk : ins < ks.length := by omega
  rw [seg_to_length, seg_to_length]
  have hLs : toList (.internal ed ks cs) =
      ((cs.take ins).map toList).flatten ++ toList cs[ins] ++
        ((cs.drop (ins + 1)).map toList).flatten := toList_internal_split hins
  have hmid : linsert cmp (toList (.internal ed ks cs)) key =
      ((cs.take ins).map toList).flatten ++
        linsert cmp (toList cs[ins]) key ++
        ((cs.drop (ins + 1)).map toList).flatten := by
    rw [hLs, linsert_middle hc hX hY]
  have hflat_new : ((cs.take ins ++ n1 :: n2 :: cs.drop (ins + 1)).map toList).flatten =
      ((cs.take ins).map toList).flatten ++ (toList n1 ++ toList n2) ++
        ((cs.drop (ins + 1)).map toList).flatten := by
    simp only [List.map_append, List.map_cons, List.flatten_append,
      List.flatten_cons, List.append_assoc]
  have hcontent : toList (.internal ed2
      (ks.take ins ++ n1.maxKey :: n2.maxKey :: ks.drop (ins + 1))
      (cs.take ins ++ n1 :: n2 :: cs.drop (ins + 1))) =
      linsert cmp (toList (.internal ed ks cs)) key := by
    rw [toList_internal, hflat_new, hctl, hmid]
  refine ⟨hcontent, ?_⟩
  have hsortOld : SortedL cmp (((cs.take ins).map toList).flatten ++
      toList cs[ins] ++ ((cs.drop (ins + 1)).map toList).flatten) := by
    have h1 : SortedL cmp (toList (.internal ed ks cs)) := toList_sorted hc hwf
    rwa [hLs] at h1
  have hsortNew : SortedL cmp (((cs.take ins).map toList).flatten ++
      linsert cmp (toList cs[ins]) key ++
      ((cs.drop (ins + 1)).map toList).flatten) :=
    sortedL_linsert_middle hc hsortOld hX hY
  have hpair := hpair_of_wfc hwf
  apply wfc_internal_intro2 hc
  · simp
    omega
  · intro h0
    simp at h0
  · intro p hp
    rw [List.zip_append (by simp; omega)] at hp
    rcases List.mem_append.mp hp with hp1 | hp2
    · exact hpair p (mem_zip_take hp1)
    · rw [List.zip_cons_cons, List.zip_cons_cons] at hp2
      rcases List.mem_cons.mp hp2 with rfl | hp3
      · exact ⟨rfl, h1ne⟩
      · rcases List.mem_cons.mp hp3 with rfl | hp4
        · exact ⟨rfl, h2ne⟩
        · exact hpair p (mem_zip_drop hp4)
  · intro c2 hc2
    rcases List.mem_append.mp hc2 with h1 | h2
    · exact hwl c2 (List.mem_of_mem_take h1)
    · rcases List.mem_cons.mp h2 with rfl | h3
      · exact h1wf
      · rcases List.mem_cons.mp h3 with rfl | h4
        · exact h2wf
        · exact hwl c2 (List.mem_of_mem_drop h4)
  · rw [hflat_new, hctl]
    exact hsortNew

/-- `internalNode.split`: either branch yields two well-formed halves whose
concatenated contents are the inserted contents. -/
theorem internal_split_spec (hc : CmpLaws cmp) {ed : Bool} (edit : Bool) {ks : List T}
    {cs : List (BNode T)} {ins : Nat} {n1 n2 : BNode T} {key : T}
    (hwf : wfc cmp (.internal ed ks cs) = true)
    (hins : ins < cs.length) (hlen64 : maxLen ≤ ks.length)
    (hX : ∀ x ∈ ((cs.take ins).map toList).flatten, 0 < cmp key x)
    (hY : ∀ y ∈ ((cs.drop (ins + 1)).map toList).flatten, cmp key y < 0)
    (h1wf : wfc cmp n1 = true) (h2wf : wfc cmp n2 = true)
    (h1ne : toList n1 ≠ []) (h2ne : toList n2 ≠ [])
    (hctl : toList n1 ++ toList n2 = linsert cmp (toList cs[ins]) key) :
    ∃ p1 p2, internalSplit edit ks cs ins n1 n2 = .two p1 p2 ∧
      toList p1 ++ toList p2 = linsert cmp (toList (.internal ed ks cs)) key ∧
      wfc cmp p1 = true ∧ wfc cmp p2 = true ∧
      toList p1 ≠ [] ∧ toList p2 ≠ [] := by
  obtain ⟨hlen, hne, hsk, hzip0, hwl, hflat0⟩ := wfc_internal_parts hwf
  have hinsk : ins < ks.length := by omega
  have hkl : 64 ≤ ks.length := by simpa [maxLen] using hlen64
  have hLs : toList (.internal ed ks cs) =
      ((cs.take ins).map toList).flatten ++ toList cs[ins] ++
        ((cs.drop (ins + 1)).map toList).flatten := toList_internal_split hins
  have hmid : linsert cmp (toList (.internal ed ks cs)) key =
      ((cs.take ins).map toList).flatten ++
        linsert cmp (toList cs[ins]) key ++
        ((cs.drop (ins + 1)).map toList).flatten := by
    rw [hLs, linsert_middle hc hX hY]
  have hsortOld : SortedL cmp (((cs.take ins).map toList).flatten ++
      toList cs[ins] ++ ((cs.drop (ins + 1)).map toList).flatten) := by
    have h1 : SortedL cmp (toList (.internal ed ks cs)) := toList_sorted hc hwf
    rwa [hLs] at h1
  have hsortNew : SortedL cmp (((cs.take ins).map toList).flatten ++
      linsert cmp (toList cs[ins]) key ++
      ((cs.drop (ins + 1)).map toList).flatten) :=
    sortedL_linsert_middle hc hsortOld hX hY
  have hpair := hpair_of_wfc hwf
  simp only [internalSplit]
  set half := (if ins + 1 = (ks.length + 1) / 2 then (ks.length + 1) / 2 + 1
    else (ks.length + 1) / 2) with hhalf
  have hfacts : (ks.length + 1) / 2 ≤ half ∧ half ≤ (ks.length + 1) / 2 + 1 ∧
      ins + 1 ≠ half := by
    rw [hhalf]
    split <;> omega
  by_cases hbr : ins < half
  · -- first branch: the pair sits in the left half
    rw [if_pos hbr]
    have hib : ins + 1 ≤ half - 1 := by omega
    have hbl : half - 1 ≤ cs.length := by omega
    have hblk : half - 1 ≤ ks.length := by omega
    have hbltc : half - 1 < cs.length := by omega
    have hsegdecomp : ((cs.drop (ins + 1)).map toList).flatten =
        ((seg cs (ins + 1) (half - 1)).map toList).flatten ++
          ((seg cs (half - 1) cs.length).map toList).flatten := by
      rw [← List.flatten_append, ← List.map_append,
        seg_append cs hib (by omega), seg_to_length]
    have hW : ((cs.take ins).map toList).flatten ++
        linsert cmp (toList cs[ins]) key ++
        ((cs.drop (ins + 1)).map toList).flatten =
        ((cs.take ins ++ n1 :: n2 :: seg cs (ins + 1) (half - 1)).map toList).flatten ++
          ((seg cs (half - 1) cs.length).map toList).flatten := by
      rw [← hctl, hsegdecomp]
      simp only [List.map_append, List.map_cons, List.flatten_append,
        List.flatten_cons, List.append_assoc]
    have hsortW := hsortNew
    rw [hW] at hsortW
    have hparts := (sortedL_append).mp hsortW
    refine ⟨_, _, rfl, ?_, ?_, ?_, ?_, ?_⟩
    · rw [toList_internal, toList_internal, hmid, ← hctl, hsegdecomp]
      simp only [List.map_append, List.map_cons, List.flatten_append,
        List.flatten_cons, List.append_assoc]
    · apply wfc_internal_intro2 hc
      · simp [length_seg]
        omega
      · intro h0
        simp at h0
      · intro p hp
        rw [List.zip_append (by simp; omega)] at hp
        rcases List.mem_append.mp hp with hp1 | hp2
        · exact hpair p (mem_zip_take hp1)
        · rw [List.zip_cons_cons, List.zip_cons_cons] at hp2
          rcases List.mem_cons.mp hp2 with rfl | hp3
          · exact ⟨rfl, h1ne⟩
          · rcases List.mem_cons.mp hp3 with rfl | hp4
            · exact ⟨rfl, h2ne⟩
            · exact hpair p (mem_zip_seg hp4)
      · intro c2 hc2
        rcases List.mem_append.mp hc2 with h1 | h2
        · exact hwl c2 (List.mem_of_mem_take h1)
        · rcases List.mem_cons.mp h2 with rfl | h3
          · exact h1wf
          · rcases List.mem_cons.mp h3 with rfl | h4
            · exact h2wf
            · exact hwl c2 (mem_of_mem_seg h4)
      · exact hparts.1
    · apply wfc_internal_intro2 hc
      · simp [length_seg]
        omega
      · intro h0
        have := congrArg List.length h0
        simp [length_seg] at this
        omega
      · intro p hp
        exact hpair p (mem_zip_seg hp)
      · intro c2 hc2
        exact hwl c2 (mem_of_mem_seg hc2)
      · exact hparts.2.1
    · rw [toList_internal]
      exact flatten_ne_nil_of_mem
        (List.mem_map_of_mem toList (by simp : n1 ∈ _)) h1ne
    · rw [toList_internal, seg_to_length]
      have hm : cs.get ⟨half - 1, by omega⟩ ∈ cs.drop (half - 1) := by
        have h0 : 0 < (cs.drop (half - 1)).length := by
          simp
          omega
        have h1 := List.getElem_mem h0
        rw [List.getElem_drop] at h1
        simpa using h1
      have hnec : toList (cs.get ⟨half - 1, by omega⟩) ≠ [] := by
        have := hzip0 (half - 1) (by omega) (by omega)
        simpa using this.2
      exact flatten_ne_nil_of_mem (List.mem_map_of_mem toList hm) hnec
  · -- second branch: the pair sits in the right half
    rw [if_neg hbr]
    have hhi : half ≤ ins := by omega
    have hhp : 1 ≤ half := by omega
    have htakedecomp : ((cs.take ins).map toList).flatten =
        ((cs.take half).map toList).flatten ++
          ((seg cs half ins).map toList).flatten := by
      rw [← List.flatten_append, ← List.map_append]
      congr 1
      rw [← seg_zero_left cs ins, ← seg_append cs (Nat.zero_le half) hhi,
        seg_zero_left]
    have hW : ((cs.take ins).map toList).flatten ++
        linsert cmp (toList cs[ins]) key ++
        ((cs.drop (ins + 1)).map toList).flatten =
        ((cs.take half).map toList).flatten ++
          ((seg cs half ins ++ n1 :: n2 :: seg cs (ins + 1) cs.length).map toList).flatten := by
      rw [← hctl, htakedecomp]
      simp only [seg_to_length, List.map_append, List.map_cons,
        List.flatten_append, List.flatten_cons, List.append_assoc]
    have hsortW := hsortNew
    rw [hW] at hsortW
    have hparts := (sortedL_append).mp hsortW
    refine ⟨_, _, rfl, ?_, ?_, ?_, ?_, ?_⟩
    · rw [toList_internal, toList_internal, hmid, ← hctl, htakedecomp]
      simp only [seg_to_length, List.map_append, List.map_cons,
        List.flatten_append, List.flatten_cons, List.append_assoc]
    · apply wfc_internal_intro2 hc
      · simp
        omega
      · intro h0
        have h1 : (cs.take half).length = 0 := by rw [h0]; rfl
        rw [List.length_take] at h1
        omega
      · intro p hp
        exact hpair p (mem_zip_take hp)
      · intro c2 hc2
        exact hwl c2 (List.mem_of_mem_take hc2)
      · exact hparts.1
    · apply wfc_internal_intro2 hc
      · simp [length_seg]
        omega
      · intro h0
        simp at h0
      · intro p hp
        rw [List.zip_append (by simp [length_seg]; omega)] at hp
        rcases List.mem_append.mp hp with hp1 | hp2
        · exact hpair p (mem_zip_seg hp1)
        · rw [List.zip_cons_cons, List.zip_cons_cons] at hp2
          rcases List.mem_cons.mp hp2 with rfl | hp3
          · exact ⟨rfl, h1ne⟩
          · rcases List.mem_cons.mp hp3 with rfl | hp4
            · exact ⟨rfl, h2ne⟩
            · exact hpair p (mem_zip_seg hp4)
      · intro c2 hc2
        rcases List.mem_append.mp hc2 with h1 | h2
        · exact hwl c2 (mem_of_mem_seg h1)
        · rcases List.mem_cons.mp h2 with rfl | h3
          · exact h1wf
          · rcases List.mem_cons.mp h3 with rfl | h4
            · exact h2wf
            · exact hwl c2 (mem_of_mem_seg h4)
      · exact hparts.2.1
    · rw [toList_internal]
      have hm0 : cs.get ⟨0, by omega⟩ ∈ cs.take half := by
        have h0 : 0 < (cs.take half).length := by
          simp
          omega
        have h1 := List.getElem_mem h0
        rw [List.getElem_take] at h1
        simpa using h1
      have hnec : toList (cs.get ⟨0, by omega⟩) ≠ [] := by
        have := hzip0 0 (by omega) (by omega)
        simpa using this.2
      exact flatten_ne_nil_of_mem (List.mem_map_of_mem toList hm0) hnec
    · rw [toList_internal]
      exact flatten_ne_nil_of_mem
        (List.mem_map_of_mem toList (by simp : n1 ∈ _)) h1ne

theorem statusRet_true {n : BNode T} : statusRet true n = .replaced n := rfl

theorem statusRet_false {n : BNode T} : statusRet false n = .one n := rfl

/-- `internalNode.modifyInPlace` with a `returnReplaced` child status. -/
theorem internalModifyInPlace_repl_eval {eq : T → T → Bool} {ed : Bool}
    {ks : List T} {cs : List (BNode T)} {ins : Nat} {c : BNode T} :
    internalModifyInPlace eq ed ks cs ins c true =
      .replaced (.internal ed (ks.set ins c.maxKey) (cs.set ins c)) := by
  simp only [internalModifyInPlace]
  split <;> rfl

/-- `internalNode.modifyInPlace` with a `returnOne` child status: `returnOne`
survives only when the updated separator is the last one. -/
theorem internalModifyInPlace_one_eval {eq : T → T → Bool}
    (heq : ∀ a b, eq a b = true ↔ a = b) {ed : Bool} {ks : List T}
    {cs : List (BNode T)} {ins : Nat} {c : BNode T}
    (hinsk : ins < ks.length) :
    internalModifyInPlace eq ed ks cs ins c false =
      if ins = ks.length - 1 then
        .one (.internal ed (ks.set ins c.maxKey) (cs.set ins c))
      else
        .early (.internal ed (ks.set ins c.maxKey) (cs.set ins c)) := by
  simp only [internalModifyInPlace]
  by_cases h1 : ins = ks.length - 1
  · have hkne : ks ≠ [] := by
      intro h0
      rw [h0] at hinsk
      simp at hinsk
    have hlast : (ks.set ins c.maxKey).getLastD default = c.maxKey := by
      rw [h1]
      exact getLastD_set_last hkne
    rw [if_pos ⟨h1, by rw [hlast]; exact (heq _ _).mpr rfl⟩, if_pos h1,
      statusRet_false]
  · rw [if_neg (fun hcon => h1 hcon.1), if_neg h1]
    rfl

/-- `internalNode.copyAndModify` under a reflexive-on-equals `eq`: the
array-sharing conditionals do not change the result. -/
theorem internalCopyAndModify_eval {eq : T → T → Bool}
    (heq : ∀ a b, eq a b = true ↔ a = b) {edit : Bool} {ks : List T}
    {cs : List (BNode T)} {ins : Nat} {c : BNode T} {isRepl : Bool}
    (hinsk : ins < ks.length) (hinsc : ins < cs.length) :
    internalCopyAndModify eq edit ks cs ins c isRepl =
      statusRet isRepl (.internal edit (ks.set ins c.maxKey) (cs.set ins c)) := by
  simp only [internalCopyAndModify]
  have hkeys : (if eq c.maxKey (ks.getD ins default) = true then ks
      else ks.set ins c.maxKey) = ks.set ins c.maxKey := by
    split
    · rename_i h1
      rw [List.getD_eq_getElem _ _ hinsk] at h1
      exact (list_set_id hinsk ((heq _ _).mp h1).symm).symm
    · rfl
  have hchildren : (if c = cs.getD ins default then cs else cs.set ins c) =
      cs.set ins c := by
    split
    · rename_i h1
      rw [List.getD_eq_getElem _ _ hinsc] at h1
      exact (list_set_id hinsc h1.symm).symm
    · rfl
  rw [hkeys, hchildren]

end InternalGlue

/-- `node.add` satisfies the full functional specification on every
content-well-formed node. -/
theorem nodeAdd_spec (hc : CmpLaws cmp) (heq : ∀ a b, eq a b = true ↔ a = b)
    {edit : Bool} {key : T} :
    ∀ n : BNode T, wfc cmp n = true →
      AddSpec cmp (toList n) key (nodeAdd cmp eq edit n key) := by
  intro n
  induction n using BNode.inductionOn with
  | hleaf ed cap keys =>
    intro hwf
    rw [wfc] at hwf
    have hstep : nodeAdd cmp eq edit (.leaf ed cap keys) key =
        leafAdd cmp eq ed cap keys key edit := by
      rw [nodeAdd.eq_def]
    rw [hstep, toList_leaf]
    exact leafAdd_spec hc heq hwf
  | hinternal ed ks cs ih =>
    intro hwf
    obtain ⟨hlen, hne, hsk, hzip0, hwl, hflat0⟩ := wfc_internal_parts hwf
    have hcpos : 0 < cs.length := List.length_pos.mpr hne
    have hkpos : 0 < ks.length := by omega
    have hflatS : SortedL cmp ((cs.map toList).flatten) :=
      (sortedB_iff hc _).mp hflat0
    set i0 := lsearchFirst cmp ks key with hi0
    have hi0le : i0 ≤ ks.length := by
      rw [hi0]
      exact lsearchFirst_le ks key
    clear_value i0
    have hcases : (lsearchEq cmp eq ks key = ((i0 : Int), false) ∧
        i0 < ks.length ∧ key = ks.getD i0 default) ∨
        (lsearchEq cmp eq ks key).1 = -(i0 : Int) - 1 := by
      simp only [lsearchEq]
      rw [← hi0]
      by_cases hfound : i0 < ks.length ∧ cmp key (ks.getD i0 default) = 0
      · rw [if_pos hfound]
        by_cases heqb : eq key (ks.getD i0 default) = true
        · rw [if_pos heqb]
          exact Or.inl ⟨rfl, hfound.1, (heq _ _).mp heqb⟩
        · rw [if_neg heqb]
          exact Or.inr rfl
      · rw [if_neg hfound]
        exact Or.inr rfl
    rcases hcases with ⟨hr, hi0lt, hkeq⟩ | hr
    · -- an eq-equal separator was found: the add is a no-op
      have hres : nodeAdd cmp eq edit (.internal ed ks cs) key = .unchanged := by
        rw [nodeAdd.eq_def]
        simp [hr, Int.natCast_nonneg]
      rw [hres]
      show key ∈ toList (.internal ed ks cs)
      have hi0c : i0 < cs.length := by omega
      rw [toList_internal_split hi0c]
      have hmem : ks.getD i0 default ∈ toList cs[i0] := by
        have h2 := (hzip0 i0 hi0lt hi0c).1
        have h3 := (hzip0 i0 hi0lt hi0c).2
        have h4 := maxKey_eq_last (hwl _ (List.getElem_mem hi0c)) h3
        rw [List.getD_eq_getElem _ _ hi0lt, ← h2, h4]
        exact getLastD_mem h3
      rw [hkeq]
      exact List.mem_append_left _ (List.mem_append_right _ hmem)
    · -- descend into the child at the insertion point
      have hnn : ¬0 ≤ (lsearchEq cmp eq ks key).1 := by
        rw [hr]
        omega
      have hins0 : (-(lsearchEq cmp eq ks key).1 - 1).toNat = i0 := by
        rw [hr]
        omega
      set ins := if i0 = ks.length then ks.length - 1 else i0 with hinsdef
      have hinsc : ins < cs.length := by
        rw [hinsdef]
        split <;> omega
      have hinsk2 : ins < ks.length := by omega
      have hinsle : ins ≤ i0 := by
        rw [hinsdef]
        split <;> omega
      have hstep : nodeAdd cmp eq edit (.internal ed ks cs) key =
          match nodeAdd cmp eq edit cs[ins] key with
          | .unchanged => .unchanged
          | .early c => .early (.internal ed ks (cs.set ins c))
          | .one c =>
            if ed = true then internalModifyInPlace eq ed ks cs ins c false
            else internalCopyAndModify eq edit ks cs ins c false
          | .replaced c =>
            if ed = true then internalModifyInPlace eq ed ks cs ins c true
            else internalCopyAndModify eq edit ks cs ins c true
          | .two n1 n2 =>
            if ks.length < maxLen then internalCopyAndAppend edit ks cs ins n1 n2
            else internalSplit edit ks cs ins n1 n2
          | .three _ _ _ => .unchanged := by
        rw [nodeAdd.eq_def]
        dsimp only
        rw [if_neg hnn, hins0, ← hinsdef, dif_pos hinsc]
        rfl
      rw [hstep]
      have hgetmem : cs[ins] ∈ cs := List.getElem_mem hinsc
      have hchildwf : wfc cmp cs[ins] = true := hwl _ hgetmem
      have hchild := ih _ hgetmem hchildwf
      have hnecM : toList cs[ins] ≠ [] := (hzip0 ins hinsk2 hinsc).2
      have hX : ∀ x ∈ ((cs.take ins).map toList).flatten, 0 < cmp key x := by
        intro x hx
        obtain ⟨j, hjins, hxj⟩ := mem_flatten_map_take hx
        have hjk : j.1 < ks.length := by omega
        have hji0 : j.1 < i0 := by omega
        have hbefore : cmp (ks.getD j.1 default) key < 0 := by
          apply lsearchFirst_before
          rw [← hi0]
          exact hji0
        have hsj : SortedL cmp (toList (cs.get j)) :=
          toList_sorted hc (hwl _ (List.get_mem cs j.1 j.2))
        have hnej := (hzip0 j.1 hjk j.2).2
        have hmxj := (hzip0 j.1 hjk j.2).1
        have hlastj : (toList (cs.get j)).getLastD default = ks.getD j.1 default := by
          rw [← maxKey_eq_last (hwl _ (List.get_mem cs j.1 j.2)) hnej]
          rw [List.getD_eq_getElem _ _ hjk]
          exact hmxj
        have hxk : cmp x key < 0 :=
          sortedL_lt_of_lt_last hc hsj hxj (by rw [hlastj]; exact hbefore)
        exact (hc.flip x key).mp hxk
      have hY : ∀ y ∈ ((cs.drop (ins + 1)).map toList).flatten, cmp key y < 0 := by
        intro y hy
        obtain ⟨j, hjge, hyj⟩ := mem_flatten_map_drop hy
        by_cases hclamp : i0 = ks.length
        · exfalso
          have h1 : ins = ks.length - 1 := by
            rw [hinsdef, if_pos hclamp]
          have h2 := j.2
          omega
        · have hinsi0 : ins = i0 := by
            rw [hinsdef, if_neg hclamp]
          have hi0lt2 : i0 < ks.length := by omega
          have hfound0 : 0 ≤ cmp (ks.getD i0 default) key := by
            have h3 : 0 ≤ cmp (ks.getD (lsearchFirst cmp ks key) default) key :=
              lsearchFirst_found (by rw [← hi0]; exact hi0lt2)
            rwa [← hi0] at h3
          have hkle : cmp key (ks.getD i0 default) ≤ 0 := hc.le_flip hfound0
          have hsep : ks.getD ins default ∈ toList cs[ins] := by
            rw [List.getD_eq_getElem _ _ hinsk2, ← (hzip0 ins hinsk2 hinsc).1,
              maxKey_eq_last (hwl _ hgetmem) hnecM]
            exact getLastD_mem hnecM
          have hcross := flatten_sorted_cross hc hflatS (i := ins) (j := j.1)
            (by simpa using hinsc) (by simpa using j.2) (by omega)
          simp only [List.getElem_map] at hcross
          have h5 : cmp (ks.getD ins default) y < 0 := hcross _ hsep y hyj
          rw [hinsi0] at h5
          exact hc.lt_of_le_of_lt hkle h5
      have habs_of : (∀ d ∈ toList cs[ins], cmp key d ≠ 0) →
          ∀ d ∈ toList (.internal ed ks cs), cmp key d ≠ 0 := by
        intro hM d hd
        rw [toList_internal_split hinsc] at hd
        rcases List.mem_append.mp hd with hd1 | hd2
        · rcases List.mem_append.mp hd1 with hdX | hdM
          · have := hX d hdX
            omega
          · exact hM d hdM
        · have := hY d hd2
          omega
      have hnotmem_of : key ∉ toList cs[ins] →
          key ∉ toList (.internal ed ks cs) := by
        intro hM hk
        rw [toList_internal_split hinsc] at hk
        rcases List.mem_append.mp hk with hd1 | hd2
        · rcases List.mem_append.mp hd1 with hdX | hdM
          · have := hX key hdX
            have := hc.refl key
            omega
          · exact hM hdM
        · have := hY key hd2
          have := hc.refl key
          omega
      have hexists_lift : (∃ d ∈ toList cs[ins], cmp key d = 0) →
          ∃ d ∈ toList (.internal ed ks cs), cmp key d = 0 := by
        rintro ⟨d, hd, hz⟩
        refine ⟨d, ?_, hz⟩
        rw [toList_internal_split hinsc]
        exact List.mem_append_left _ (List.mem_append_right _ hd)
      have hYne_of : ins + 1 < cs.length →
          ((cs.drop (ins + 1)).map toList).flatten ≠ [] := by
        intro hlt
        have hm : cs.get ⟨ins + 1, hlt⟩ ∈ cs.drop (ins + 1) := by
          have h0 : 0 < (cs.drop (ins + 1)).length := by
            simp
            omega
          have h1 := List.getElem_mem h0
          rw [List.getElem_drop] at h1
          simpa using h1
        exact flatten_ne_nil_of_mem (List.mem_map_of_mem toList hm)
          (by simpa using (hzip0 (ins + 1) (by omega) hlt).2)
      cases hres : nodeAdd cmp eq edit cs[ins] key with
      | unchanged =>
        rw [hres] at hchild
        show key ∈ toList (.internal ed ks cs)
        rw [toList_internal_split hinsc]
        exact List.mem_append_left _ (List.mem_append_right _ hchild)
      | early c =>
        rw [hres] at hchild
        obtain ⟨habsM, hctl, hcwf, hlastpres⟩ := hchild
        have hcne : toList c ≠ [] := by
          rw [hctl]
          exact linsert_ne_nil cmp _ key
        have hcmx : c.maxKey = ks[ins] := by
          rw [maxKey_eq_last hcwf hcne, hlastpres,
            ← maxKey_eq_last hchildwf hnecM]
          exact (hzip0 ins hinsk2 hinsc).1
        have hksid : ks.set ins c.maxKey = ks := list_set_id hinsk2 hcmx.symm
        have hws := internal_set_spec hc ed hwf hinsc hX hY hcwf hctl
        rw [hksid] at hws
        refine ⟨habs_of habsM, hws.1, hws.2, ?_⟩
        rw [hws.1]
        by_cases hYcase : ins + 1 < cs.length
        · rw [toList_internal_split hinsc, linsert_middle hc hX hY,
            getLastD_append_right (hYne_of hYcase),
            getLastD_append_right (hYne_of hYcase)]
        · have hYeq : cs.drop (ins + 1) = [] := by
            apply List.drop_eq_nil_of_le
            omega
          rw [toList_internal_split hinsc, linsert_middle hc hX hY, hYeq]
          simp only [List.map_nil, List.flatten_nil, List.append_nil]
          rw [getLastD_append_right (linsert_ne_nil cmp _ key),
            getLastD_append_right hnecM, ← hctl]
          exact hlastpres
      | one c =>
        dsimp only
        rw [hres] at hchild
        obtain ⟨habsM, hctl, hcwf⟩ := hchild
        by_cases hed : ed = true
        · rw [if_pos hed, internalModifyInPlace_one_eval heq hinsk2]
          by_cases hlastq : ins = ks.length - 1
          · rw [if_pos hlastq]
            have hws := internal_set_spec hc ed hwf hinsc hX hY hcwf hctl
            exact ⟨habs_of habsM, hws.1, hws.2⟩
          · rw [if_neg hlastq]
            have hws := internal_set_spec hc ed hwf hinsc hX hY hcwf hctl
            refine ⟨habs_of habsM, hws.1, hws.2, ?_⟩
            have hYcase : ins + 1 < cs.length := by omega
            rw [hws.1, toList_internal_split hinsc, linsert_middle hc hX hY,
              getLastD_append_right (hYne_of hYcase),
              getLastD_append_right (hYne_of hYcase)]
        · rw [if_neg hed, internalCopyAndModify_eval heq hinsk2 hinsc,
            statusRet_false]
          have hws := internal_set_spec hc edit hwf hinsc hX hY hcwf hctl
          exact ⟨habs_of habsM, hws.1, hws.2⟩
      | replaced c =>
        dsimp only
        rw [hres] at hchild
        obtain ⟨hexM, hnotM, hctl, hcwf⟩ := hchild
        by_cases hed : ed = true
        · rw [if_pos hed, internalModifyInPlace_repl_eval]
          have hws := internal_set_spec hc ed hwf hinsc hX hY hcwf hctl
          exact ⟨hexists_lift hexM, hnotmem_of hnotM, hws.1, hws.2⟩
        · rw [if_neg hed, internalCopyAndModify_eval heq hinsk2 hinsc,
            statusRet_true]
          have hws := internal_set_spec hc edit hwf hinsc hX hY hcwf hctl
          exact ⟨hexists_lift hexM, hnotmem_of hnotM, hws.1, hws.2⟩
      | two n1 n2 =>
        dsimp only
        rw [hres] at hchild
        obtain ⟨habsM, hconcat, h1wf, h2wf, h1ne, h2ne⟩ := hchild
        by_cases hsmall : ks.length < maxLen
        · rw [if_pos hsmall, internalCopyAndAppend]
          have hws := internal_append2_spec hc edit hwf hinsc hX hY
            h1wf h2wf h1ne h2ne hconcat
          exact ⟨habs_of habsM, hws.1, hws.2⟩
        · rw [if_neg hsmall]
          obtain ⟨p1, p2, heq2, hcont, hw1, hw2, hne1, hne2⟩ :=
            internal_split_spec hc edit hwf hinsc
              (Nat.le_of_not_lt hsmall) hX hY h1wf h2wf h1ne h2ne hconcat
          rw [heq2]
          exact ⟨habs_of habsM, hcont, hw1, hw2, hne1, hne2⟩
      | three l c r =>
        rw [hres] at hchild
        exact hchild.elim

end AddSpecSec

/-! ## The functional specification of `remove` at node level -/

section RemoveSpecSec

variable {T : Type} [Inhabited T] [DecidableEq T] {cmp : T → T → Int}

open BNode

/-- Contents of a nil-able sibling slot. -/
def optList : Option (BNode T) → List T
  | none => []
  | some m => toList m

@[simp] theorem optList_none : optList (T := T) none = [] := rfl

@[simp] theorem optList_some (m : BNode T) : optList (some m) = toList m := rfl

/-- What each `remove` return value means relative to the node's former
contents `L` and the passed-down siblings `lo`/`ro`. -/
def RemoveSpec (cmp : T → T → Int) (L : List T) (key : T)
    (lo ro : Option (BNode T)) : NodeRet T → Prop
  | .unchanged => ∀ d ∈ L, cmp key d ≠ 0
  | .early c => (∃ d ∈ L, cmp key d = 0) ∧ toList c = lremove cmp L key ∧
      wfc cmp c = true ∧ toList c ≠ [] ∧
      (toList c).getLastD default = L.getLastD default
  | .three l2 c2 r2 => (∃ d ∈ L, cmp key d = 0) ∧
      optList l2 ++ toList c2 ++ optList r2 =
        optList lo ++ lremove cmp L key ++ optList ro ∧
      (∀ m, l2 = some m → wfc cmp m = true ∧ toList m ≠ []) ∧
      wfc cmp c2 = true ∧
      (∀ m, r2 = some m → wfc cmp m = true ∧ toList m ≠ []) ∧
      ((lo.isSome ∨ ro.isSome) → toList c2 ≠ [])
  | _ => False

theorem lremove_sublist (cmp : T → T → Int) (l : List T) (key : T) :
    (lremove cmp l key).Sublist l := by
  induction l with
  | nil => simp [lremove]
  | cons d ds ih =>
    rw [lremove]
    split
    · exact List.sublist_cons_self d ds
    · exact ih.cons₂ d

theorem lremove_length_le (cmp : T → T → Int) (l : List T) (key : T) :
    (lremove cmp l key).length ≤ l.length :=
  (lremove_sublist cmp l key).length_le

theorem getLastD_eraseIdx {l : List T} {i : Nat} (h : i + 1 < l.length) :
    (l.take i ++ l.drop (i + 1)).getLastD default = l.getLastD default := by
  have hne : l.drop (i + 1) ≠ [] := by
    intro h0
    have := congrArg List.length h0
    simp at this
    omega
  rw [getLastD_append_right hne]
  conv_rhs => rw [← List.take_append_drop (i + 1) l]
  rw [getLastD_append_right hne]

theorem nkeys_length_eq_nlen (m : BNode T) : m.nkeys.length = m.nlen := by
  cases m <;> rfl

theorem toList_of_isLeaf {m : BNode T} (h : m.isLeaf = true) :
    toList m = m.nkeys := by
  cases m
  · rfl
  · simp [isLeaf] at h

theorem toList_of_internal {m : BNode T} (h : m.isLeaf = false) :
    toList m = ((m.ichildren).map toList).flatten := by
  cases m
  · simp [isLeaf] at h
  · simp [ichildren, toList_internal]

theorem depthOf_eq_zero_iff {m : BNode T} : depthOf m = 0 ↔ m.isLeaf = true := by
  cases m with
  | leaf ed cap keys => simp [depthOf, isLeaf]
  | internal ed ks cs =>
    cases cs <;> simp [depthOf, isLeaf]

/-- A sorted-middle infix decomposition: each block of a concatenation that
forms a sorted list is itself sorted. -/
theorem sortedL_of_concat3 {A B C W : List T} (h : A ++ B ++ C = W)
    (hW : SortedL cmp W) : SortedL cmp A ∧ SortedL cmp B ∧ SortedL cmp C := by
  rw [← h] at hW
  have h1 := (sortedL_append).mp hW
  have h2 := (sortedL_append).mp h1.1
  exact ⟨h2.1, h2.2.1, h1.2.1⟩

/-- Replacing the child at `ins` (and its separator) by a node with given
sorted contents. -/
theorem internal_set_generic (hc : CmpLaws cmp) {ed : Bool} (ed2 : Bool) {ks : List T}
    {cs : List (BNode T)} {ins : Nat} {c : BNode T}
    (hwf : wfc cmp (.internal ed ks cs) = true)
    (hins : ins < cs.length)
    (hcwf : wfc cmp c = true) (hcne : toList c ≠ [])
    (hsorted : SortedL cmp (((cs.take ins).map toList).flatten ++ toList c ++
      ((cs.drop (ins + 1)).map toList).flatten)) :
    toList (.internal ed2 (ks.set ins c.maxKey) (cs.set ins c)) =
      ((cs.take ins).map toList).flatten ++ toList c ++
        ((cs.drop (ins + 1)).map toList).flatten ∧
    wfc cmp (.internal ed2 (ks.set ins c.maxKey) (cs.set ins c)) = true := by
  obtain ⟨hlen, hne, hsk, hzip0, hwl, hflat0⟩ := wfc_internal_parts hwf
  have hinsk : ins < ks.length := by omega
  have hset_cs : cs.set ins c = cs.take ins ++ c :: cs.drop (ins + 1) := by
    rw [List.set_eq_take_append_cons_drop, if_pos hins]
  have hset_ks : ks.set ins c.maxKey =
      ks.take ins ++ c.maxKey :: ks.drop (ins + 1) := by
    rw [List.set_eq_take_append_cons_drop, if_pos hinsk]
  have hflat_new : ((cs.set ins c).map toList).flatten =
      ((cs.take ins).map toList).flatten ++ toList c ++
        ((cs.drop (ins + 1)).map toList).flatten := by
    rw [hset_cs, List.map_append, List.flatten_append, List.map_cons,
      List.flatten_cons, List.append_assoc]
  refine ⟨by rw [toList_internal, hflat_new], ?_⟩
  have hpair := hpair_of_wfc hwf
  apply wfc_internal_intro2 hc
  · simp [hlen]
  · intro h0
    rw [hset_cs] at h0
    simp at h0
  · intro p hp
    rw [hset_ks, hset_cs] at hp
    rw [List.zip_append (by simp; omega)] at hp
    rcases List.mem_append.mp hp with hp1 | hp2
    · exact hpair p (mem_zip_take hp1)
    · rw [List.zip_cons_cons] at hp2
      rcases List.mem_cons.mp hp2 with rfl | hp3
      · exact ⟨rfl, hcne⟩
      · exact hpair p (mem_zip_drop hp3)
  · intro c2 hc2
    rw [hset_cs] at hc2
    rcases List.mem_append.mp hc2 with h1 | h2
    · exact hwl c2 (List.mem_of_mem_take h1)
    · rcases List.mem_cons.mp h2 with rfl | h3
      · exact hcwf
      · exact hwl c2 (List.mem_of_mem_drop h3)
  · rw [hflat_new]
    exact hsorted

theorem toList_ite_leaf {P : Prop} [Decidable P] {e1 : Bool} {c1 : Nat}
    {e2 : Bool} {c2 : Nat} {k : List T} :
    toList (if P then BNode.leaf e1 c1 k else BNode.leaf e2 c2 k) = k := by
  split <;> rfl

theorem wfc_ite_leaf {P : Prop} [Decidable P] {e1 : Bool} {c1 : Nat}
    {e2 : Bool} {c2 : Nat} {k : List T} :
    wfc cmp (if P then BNode.leaf e1 c1 k else BNode.leaf e2 c2 k) =
      sortedB cmp k := by
  split <;> rfl

theorem seg_sublist {α : Type _} (l : List α) (a b : Nat) :
    (seg l a b).Sublist l :=
  (List.drop_sublist a (l.take b)).trans (List.take_sublist b l)

theorem sortedL_mid_right {A B C : List T} (h : SortedL cmp (A ++ B ++ C)) :
    SortedL cmp (B ++ C) := by
  have h1 := (sortedL_append).mp h
  have h2 := (sortedL_append).mp h1.1
  exact (sortedL_append).mpr
    ⟨h2.2.1, h1.2.1, fun b hb c hc2 => h1.2.2 b (List.mem_append_right _ hb) c hc2⟩

/-- `leafNode.borrowLeft` satisfies the remove contract. -/
theorem leafBorrowLeft_spec (hc : CmpLaws cmp) {ed : Bool} {cap : Nat}
    {keys : List T} {key : T} {idx : Nat} {l : BNode T}
    {ro : Option (BNode T)} {edit : Bool}
    (hidx : idx < keys.length)
    (hlleaf : l.isLeaf = true) (hlne : toList l ≠ [])
    (hro : ∀ m, ro = some m → wfc cmp m = true ∧ toList m ≠ [])
    (hsmall : keys.length - 1 < minLen)
    (hbig : maxLen ≤ l.nlen + (keys.length - 1))
    (herased : keys.take idx ++ keys.drop (idx + 1) = lremove cmp keys key)
    (hex : ∃ d ∈ keys, cmp key d = 0)
    (hW : SortedL cmp (toList l ++ lremove cmp keys key ++ optList ro)) :
    RemoveSpec cmp keys key (some l) ro
      (leafBorrowLeft ed cap keys idx l ro edit) := by
  have hkl : l.nkeys = toList l := (toList_of_isLeaf hlleaf).symm
  have hlen_l : l.nkeys.length = l.nlen := nkeys_length_eq_nlen l
  have h32 : minLen = 32 := rfl
  have h64 : maxLen = 64 := rfl
  have hlnl : 33 ≤ l.nlen := by omega
  have ha32 : 32 ≤ (l.nlen + (keys.length - 1)) / 2 := by omega
  have hale : (l.nlen + (keys.length - 1)) / 2 ≤ l.nlen := by omega
  have hWl : SortedL cmp (toList l) :=
    ((sortedL_append).mp
      ((sortedL_append).mp hW).1).1
  have hWlr : SortedL cmp (toList l ++ lremove cmp keys key) :=
    ((sortedL_append).mp hW).1
  have hrecomb : l.nkeys.take ((l.nlen + (keys.length - 1)) / 2) ++
      seg l.nkeys ((l.nlen + (keys.length - 1)) / 2) l.nlen = l.nkeys := by
    rw [← seg_zero_left l.nkeys ((l.nlen + (keys.length - 1)) / 2),
      seg_append l.nkeys (Nat.zero_le _) hale, seg_zero_left, ← hlen_l,
      List.take_length]
  simp only [leafBorrowLeft]
  refine ⟨hex, ?_, ?_, ?_, fun m hm => hro m hm, ?_⟩
  · rw [optList_some, toList_ite_leaf, toList_ite_leaf, optList_some,
      seg_to_length, ← herased, ← hkl]
    conv_rhs => rw [← hrecomb]
    simp only [List.append_assoc]
  · intro m hm
    injection hm with hm2
    subst hm2
    constructor
    · rw [wfc_ite_leaf]
      apply (sortedB_iff hc _).mpr
      rw [hkl]
      exact hWl.take _
    · rw [toList_ite_leaf]
      intro h0
      have hl0 : (l.nkeys.take ((l.nlen + (keys.length - 1)) / 2)).length = 0 := by
        rw [h0]
        rfl
      rw [List.length_take] at hl0
      omega
  · rw [wfc_ite_leaf]
    apply (sortedB_iff hc _).mpr
    apply SortedL.sublist hWlr
    rw [seg_to_length, List.append_assoc, herased]
    exact List.Sublist.append (hkl ▸ seg_sublist l.nkeys _ _) (List.Sublist.refl _)
  · intro hsib
    rw [toList_ite_leaf]
    intro h0
    have hl0 : (seg l.nkeys ((l.nlen + (keys.length - 1)) / 2) l.nlen ++
        keys.take idx ++ seg keys (idx + 1) keys.length).length = 0 := by
      rw [h0]
      rfl
    rw [List.length_append, List.length_append, length_seg, hlen_l] at hl0
    omega

/-- `leafNode.borrowRight` satisfies the remove contract. -/
theorem leafBorrowRight_spec (hc : CmpLaws cmp) {ed : Bool} {cap : Nat}
    {keys : List T} {key : T} {idx : Nat} {r : BNode T}
    {lo : Option (BNode T)} {edit : Bool}
    (hidx : idx < keys.length)
    (hrleaf : r.isLeaf = true) (hrne : toList r ≠ [])
    (hlo : ∀ m, lo = some m → wfc cmp m = true ∧ toList m ≠ [])
    (hsmall : keys.length - 1 < minLen)
    (hbig : maxLen ≤ (keys.length - 1) + r.nlen)
    (herased : keys.take idx ++ keys.drop (idx + 1) = lremove cmp keys key)
    (hex : ∃ d ∈ keys, cmp key d = 0)
    (hW : SortedL cmp (optList lo ++ lremove cmp keys key ++ toList r)) :
    RemoveSpec cmp keys key lo (some r)
      (leafBorrowRight ed cap keys idx lo r edit) := by
  have hkr : r.nkeys = toList r := (toList_of_isLeaf hrleaf).symm
  have hlen_r : r.nkeys.length = r.nlen := nkeys_length_eq_nlen r
  have h32 : minLen = 32 := rfl
  have h64 : maxLen = 64 := rfl
  have hrnl : 33 ≤ r.nlen := by omega
  have hhd : r.nlen - (((keys.length - 1) + r.nlen) -
      ((keys.length - 1) + r.nlen) / 2) ≤ r.nlen := by omega
  have hWr : SortedL cmp (toList r) :=
    ((sortedL_append).mp (sortedL_mid_right hW)).2.1
  have hWmr : SortedL cmp (lremove cmp keys key ++ toList r) :=
    sortedL_mid_right hW
  have hrecomb : r.nkeys.take (r.nlen - (((keys.length - 1) + r.nlen) -
      ((keys.length - 1) + r.nlen) / 2)) ++
      seg r.nkeys (r.nlen - (((keys.length - 1) + r.nlen) -
        ((keys.length - 1) + r.nlen) / 2)) r.nlen = r.nkeys := by
    rw [← seg_zero_left r.nkeys (r.nlen - (((keys.length - 1) + r.nlen) -
      ((keys.length - 1) + r.nlen) / 2)),
      seg_append r.nkeys (Nat.zero_le _) hhd, seg_zero_left, ← hlen_r,
      List.take_length]
  simp only [leafBorrowRight]
  refine ⟨hex, ?_, fun m hm => hlo m hm, ?_, ?_, ?_⟩
  · rw [optList_some, optList_some, toList_ite_leaf, toList_ite_leaf,
      seg_to_length, ← herased, ← hkr]
    conv_rhs => rw [← hrecomb]
    simp only [List.append_assoc]
  · rw [wfc_ite_leaf]
    apply (sortedB_iff hc _).mpr
    apply SortedL.sublist hWmr
    rw [seg_to_length, herased]
    exact List.Sublist.append (List.Sublist.refl _)
      (hkr ▸ List.take_sublist _ r.nkeys)
  · intro m hm
    injection hm with hm2
    subst hm2
    constructor
    · rw [wfc_ite_leaf]
      apply (sortedB_iff hc _).mpr
      rw [hkr]
      exact hWr.sublist (seg_sublist _ _ _)
    · rw [toList_ite_leaf]
      intro h0
      have hl0 : (seg r.nkeys (r.nlen - (((keys.length - 1) + r.nlen) -
          ((keys.length - 1) + r.nlen) / 2)) r.nlen).length = 0 := by
        rw [h0]
        rfl
      rw [length_seg, hlen_r] at hl0
      omega
  · intro hsib
    rw [toList_ite_leaf]
    intro h0
    have hl0 : (keys.take idx ++ seg keys (idx + 1) keys.length ++
        r.nkeys.take (r.nlen - (((keys.length - 1) + r.nlen) -
          ((keys.length - 1) + r.nlen) / 2))).length = 0 := by
      rw [h0]
      rfl
    rw [List.length_append, List.length_append, List.length_take,
      List.length_take, length_seg, hlen_r] at hl0
    omega

variable {eq : T → T → Bool}

/-- `leafNode.remove` satisfies the remove contract on sorted keys with
leaf siblings. -/
theorem leafRemove_spec (hc : CmpLaws cmp) {ed : Bool} {cap : Nat}
    {keys : List T} {key : T} {lo ro : Option (BNode T)} {edit : Bool}
    (hs : sortedB cmp keys = true)
    (hlo : ∀ m, lo = some m → m.isLeaf = true ∧ wfc cmp m = true ∧ toList m ≠ [])
    (hro : ∀ m, ro = some m → m.isLeaf = true ∧ wfc cmp m = true ∧ toList m ≠ [])
    (hsort : SortedL cmp (optList lo ++ keys ++ optList ro)) :
    RemoveSpec cmp keys key lo ro (leafRemove cmp ed cap keys key lo ro edit) := by
  have hsl : SortedL cmp keys := (sortedB_iff hc keys).mp hs
  simp only [leafRemove]
  by_cases hneg : lsearch cmp keys key < 0
  · rw [if_pos hneg]
    exact lsearch_neg_absent hc hsl hneg
  · rw [if_neg hneg]
    obtain ⟨hidx, hz⟩ := lsearch_nonneg (le_of_not_lt hneg)
    have hz2 : cmp key (keys.getD (lsearch cmp keys key).toNat default) = 0 := hz
    rw [List.getD_eq_getElem _ _ hidx] at hz2
    have herased : keys.take (lsearch cmp keys key).toNat ++
        keys.drop ((lsearch cmp keys key).toNat + 1) = lremove cmp keys key :=
      (lremove_eq_eraseIdx hc hsl hidx hz2).symm
    have hex : ∃ d ∈ keys, cmp key d = 0 :=
      ⟨keys[(lsearch cmp keys key).toNat], List.getElem_mem hidx, hz2⟩
    have hkne : keys ≠ [] := by
      intro h0
      rw [h0] at hidx
      simp at hidx
    have hWsub : (optList lo ++ lremove cmp keys key ++ optList ro).Sublist
        (optList lo ++ keys ++ optList ro) :=
      List.Sublist.append
        (List.Sublist.append (List.Sublist.refl _) (lremove_sublist cmp keys key))
        (List.Sublist.refl _)
    have hW : SortedL cmp (optList lo ++ lremove cmp keys key ++ optList ro) :=
      hsort.sublist hWsub
    have hWc : SortedL cmp (lremove cmp keys key) :=
      (sortedL_of_concat3 rfl hW).2.1
    by_cases hnm : ¬(keys.length - 1 < minLen ∧ (lo.isSome ∨ ro.isSome))
    · rw [if_pos hnm]
      by_cases hed : ed = true
      · rw [if_pos hed]
        by_cases hlast : (lsearch cmp keys key).toNat = keys.length - 1
        · rw [if_pos hlast]
          refine ⟨hex, ?_, fun m hm => ⟨(hlo m hm).2.1, (hlo m hm).2.2⟩, ?_,
            fun m hm => ⟨(hro m hm).2.1, (hro m hm).2.2⟩, ?_⟩
          · rw [toList_leaf, herased]
          · rw [wfc, herased]
            exact (sortedB_iff hc _).mpr hWc
          · intro hsib
            rw [toList_leaf]
            intro h0
            have hl0 : (keys.take (lsearch cmp keys key).toNat ++
                keys.drop ((lsearch cmp keys key).toNat + 1)).length = 0 := by
              rw [h0]
              rfl
            rw [List.length_append, List.length_take, List.length_drop] at hl0
            have h32 : minLen = 32 := rfl
            have hge : ¬(keys.length - 1 < minLen) := fun hlt => hnm ⟨hlt, hsib⟩
            omega
        · rw [if_neg hlast]
          refine ⟨hex, ?_, ?_, ?_, ?_⟩
          · rw [toList_leaf, herased]
          · rw [wfc, herased]
            exact (sortedB_iff hc _).mpr hWc
          · rw [toList_leaf]
            intro h0
            have hl0 : (keys.take (lsearch cmp keys key).toNat ++
                keys.drop ((lsearch cmp keys key).toNat + 1)).length = 0 := by
              rw [h0]
              rfl
            rw [List.length_append, List.length_take, List.length_drop] at hl0
            omega
          · rw [toList_leaf]
            exact getLastD_eraseIdx (by omega)
      · rw [if_neg hed]
        refine ⟨hex, ?_, fun m hm => ⟨(hlo m hm).2.1, (hlo m hm).2.2⟩, ?_,
          fun m hm => ⟨(hro m hm).2.1, (hro m hm).2.2⟩, ?_⟩
        · rw [toList_leaf, herased]
        · rw [wfc, herased]
          exact (sortedB_iff hc _).mpr hWc
        · intro hsib
          rw [toList_leaf]
          intro h0
          have hl0 : (keys.take (lsearch cmp keys key).toNat ++
              keys.drop ((lsearch cmp keys key).toNat + 1)).length = 0 := by
            rw [h0]
            rfl
          rw [List.length_append, List.length_take, List.length_drop] at hl0
          have h32 : minLen = 32 := rfl
          have hge : ¬(keys.length - 1 < minLen) := fun hlt => hnm ⟨hlt, hsib⟩
          omega
    · rw [if_neg hnm]
      push_neg at hnm
      obtain ⟨hsmall, hsib⟩ := hnm
      by_cases hjl : canJoin lo (keys.length - 1) = true
      · rw [if_pos hjl]
        cases lo with
        | none => simp [canJoin] at hjl
        | some l =>
          obtain ⟨hlleaf, hlwf, hlne⟩ := hlo l rfl
          have hkl : l.nkeys = toList l := (toList_of_isLeaf hlleaf).symm
          refine ⟨hex, ?_, fun m hm => by simp at hm, ?_,
            fun m hm => ⟨(hro m hm).2.1, (hro m hm).2.2⟩, ?_⟩
          · simp only [Option.getD_some, toList_leaf, optList_some, optList_none,
              List.nil_append]
            rw [herased, ← hkl, List.append_assoc]
          · rw [wfc]
            apply (sortedB_iff hc _).mpr
            simp only [Option.getD_some]
            rw [herased, hkl]
            exact ((sortedL_append).mp hW).1
          · intro hsib2
            simp only [Option.getD_some, toList_leaf]
            intro h0
            rw [List.append_eq_nil] at h0
            exact hlne (by rw [← hkl]; exact h0.1)
      · rw [if_neg hjl]
        by_cases hjr : canJoin ro (keys.length - 1) = true
        · rw [if_pos hjr]
          cases ro with
          | none => simp [canJoin] at hjr
          | some r =>
            obtain ⟨hrleaf, hrwf, hrne⟩ := hro r rfl
            have hkr : r.nkeys = toList r := (toList_of_isLeaf hrleaf).symm
            refine ⟨hex, ?_, fun m hm => ⟨(hlo m hm).2.1, (hlo m hm).2.2⟩, ?_,
              fun m hm => by simp at hm, ?_⟩
            · simp only [Option.getD_some, toList_leaf, optList_some, optList_none,
                List.append_nil]
              rw [herased, ← hkr, List.append_assoc]
            · rw [wfc]
              apply (sortedB_iff hc _).mpr
              simp only [Option.getD_some]
              rw [herased, hkr]
              exact sortedL_mid_right hW
            · intro hsib2
              simp only [Option.getD_some, toList_leaf]
              intro h0
              rw [List.append_eq_nil] at h0
              exact hrne (by rw [← hkr]; exact h0.2)
        · rw [if_neg hjr]
          by_cases hbl : lo.isSome ∧ ((lo.getD default).isEditable = true ∨
              ro = none ∨ (ro.getD default).nlen ≤ (lo.getD default).nlen)
          · rw [if_pos hbl]
            obtain ⟨m0, hm0⟩ := Option.isSome_iff_exists.mp hbl.1
            subst hm0
            obtain ⟨hlleaf, hlwf, hlne⟩ := hlo m0 rfl
            simp only [Option.getD_some]
            have hbig : maxLen ≤ m0.nlen + (keys.length - 1) := by
              by_contra hcon
              exact hjl (by
                simp only [canJoin]
                exact decide_eq_true (by omega))
            apply leafBorrowLeft_spec hc hidx hlleaf hlne
              (fun m hm => ⟨(hro m hm).2.1, (hro m hm).2.2⟩) hsmall hbig herased hex
            rwa [optList_some] at hW
          · rw [if_neg hbl]
            by_cases hros : ro.isSome = true
            · rw [if_pos hros]
              obtain ⟨r0, hr0⟩ := Option.isSome_iff_exists.mp hros
              subst hr0
              obtain ⟨hrleaf, hrwf, hrne⟩ := hro r0 rfl
              simp only [Option.getD_some]
              have hbig : maxLen ≤ (keys.length - 1) + r0.nlen := by
                by_contra hcon
                exact hjr (by
                  simp only [canJoin]
                  exact decide_eq_true (by omega))
              apply leafBorrowRight_spec hc hidx hrleaf hrne
                (fun m hm => ⟨(hlo m hm).2.1, (hlo m hm).2.2⟩) hsmall hbig herased hex
              rwa [optList_some] at hW
            · rw [if_neg hros]
              rcases hsib with h1 | h1
              · have hron : ro = none := by
                  cases ro
                  · rfl
                  · exact absurd rfl hros
                exact absurd ⟨h1, Or.inr (Or.inl hron)⟩ hbl
              · exact absurd h1 hros

theorem flat_take_split_left {cs : List (BNode T)} {idx : Nat}
    (hidx : idx < cs.length) :
    ((cs.take idx).map toList).flatten =
      ((cs.take (idx - 1)).map toList).flatten ++
        optList (if 0 < idx then some (cs.getD (idx - 1) default) else none) := by
  by_cases h0 : 0 < idx
  · rw [if_pos h0, List.getD_eq_getElem _ _ (by omega), optList_some]
    have hsplit : cs.take idx = cs.take (idx - 1) ++ [cs[idx - 1]] := by
      conv_lhs => rw [show idx = idx - 1 + 1 by omega]
      rw [List.take_succ, List.getElem?_eq_getElem (show idx - 1 < cs.length by omega)]
      rfl
    rw [hsplit, List.map_append, List.flatten_append]
    simp
  · rw [if_neg h0]
    have h1 : idx = 0 := by omega
    subst h1
    simp

theorem flat_drop_split_right {cs : List (BNode T)} {idx : Nat}
    (hidx : idx < cs.length) :
    ((cs.drop (idx + 1)).map toList).flatten =
      optList (if idx < cs.length - 1 then some (cs.getD (idx + 1) default) else none) ++
        ((seg cs (idx + 2) cs.length).map toList).flatten := by
  rw [seg_to_length]
  by_cases h1 : idx < cs.length - 1
  · rw [if_pos h1, List.getD_eq_getElem _ _ (by omega), optList_some]
    rw [List.drop_eq_getElem_cons (show idx + 1 < cs.length by omega)]
    simp only [List.map_cons, List.flatten_cons]
  · rw [if_neg h1]
    rw [List.drop_eq_nil_of_le (by omega), List.drop_eq_nil_of_le (by omega)]
    simp

theorem centerChildren_flat {cs : List (BNode T)} {idx : Nat}
    (n0 : Option (BNode T)) (n1 : BNode T) (n2 : Option (BNode T)) :
    ((centerChildrenOf cs idx n0 n1 n2).map toList).flatten =
      ((cs.take (idx - 1)).map toList).flatten ++
        (optList n0 ++ toList n1 ++ optList n2) ++
        ((seg cs (idx + 2) cs.length).map toList).flatten := by
  cases n0 <;> cases n2 <;>
    simp [centerChildrenOf, List.map_append, List.flatten_append,
      List.append_assoc]

theorem centerKeys_length {ks : List T} {cs : List (BNode T)} {idx : Nat}
    (hlen : ks.length = cs.length)
    (n0 : Option (BNode T)) (n1 : BNode T) (n2 : Option (BNode T)) :
    (centerKeysOf ks idx n0 n1 n2).length =
      (centerChildrenOf cs idx n0 n1 n2).length := by
  cases n0 <;> cases n2 <;>
    simp [centerKeysOf, centerChildrenOf, length_seg, hlen] <;> omega

theorem center_ne_nil {cs : List (BNode T)} {idx : Nat}
    (n0 : Option (BNode T)) (n1 : BNode T) (n2 : Option (BNode T)) :
    centerChildrenOf cs idx n0 n1 n2 ≠ [] := by
  cases n0 <;> cases n2 <;> simp [centerChildrenOf]

theorem center_zip_prop {ks : List T} {cs : List (BNode T)} {idx : Nat}
    (hpair : ∀ p ∈ ks.zip cs, (p.2).maxKey = p.1 ∧ toList p.2 ≠ [])
    (hlen : ks.length = cs.length)
    {n0 : Option (BNode T)} {n1 : BNode T} {n2 : Option (BNode T)}
    (hn0 : ∀ m, n0 = some m → toList m ≠ []) (hn1 : toList n1 ≠ [])
    (hn2 : ∀ m, n2 = some m → toList m ≠ []) :
    ∀ p ∈ (centerKeysOf ks idx n0 n1 n2).zip (centerChildrenOf cs idx n0 n1 n2),
      (p.2).maxKey = p.1 ∧ toList p.2 ≠ [] := by
  intro p hp
  have htk : (ks.take (idx - 1)).length = (cs.take (idx - 1)).length := by
    simp
    omega
  cases n0 with
  | none =>
    cases n2 with
    | none =>
      simp only [centerKeysOf, centerChildrenOf, List.append_assoc,
        List.cons_append, List.nil_append, List.singleton_append,
        List.append_nil] at hp
      rw [List.zip_append htk, List.zip_cons_cons] at hp
      rcases List.mem_append.mp hp with hp1 | hp2
      · exact hpair p (mem_zip_take hp1)
      · rcases List.mem_cons.mp hp2 with rfl | hp3
        · exact ⟨rfl, hn1⟩
        · exact hpair p (mem_zip_seg hp3)
    | some b =>
      simp only [centerKeysOf, centerChildrenOf, List.append_assoc,
        List.cons_append, List.nil_append, List.singleton_append,
        List.append_nil] at hp
      rw [List.zip_append htk, List.zip_cons_cons, List.zip_cons_cons] at hp
      rcases List.mem_append.mp hp with hp1 | hp2
      · exact hpair p (mem_zip_take hp1)
      · rcases List.mem_cons.mp hp2 with rfl | hp3
        · exact ⟨rfl, hn1⟩
        · rcases List.mem_cons.mp hp3 with rfl | hp4
          · exact ⟨rfl, hn2 b rfl⟩
          · exact hpair p (mem_zip_seg hp4)
  | some a =>
    cases n2 with
    | none =>
      simp only [centerKeysOf, centerChildrenOf, List.append_assoc,
        List.cons_append, List.nil_append, List.singleton_append,
        List.append_nil] at hp
      rw [List.zip_append htk, List.zip_cons_cons, List.zip_cons_cons] at hp
      rcases List.mem_append.mp hp with hp1 | hp2
      · exact hpair p (mem_zip_take hp1)
      · rcases List.mem_cons.mp hp2 with rfl | hp3
        · exact ⟨rfl, hn0 a rfl⟩
        · rcases List.mem_cons.mp hp3 with rfl | hp4
          · exact ⟨rfl, hn1⟩
          · exact hpair p (mem_zip_seg hp4)
    | some b =>
      simp only [centerKeysOf, centerChildrenOf, List.append_assoc,
        List.cons_append, List.nil_append, List.singleton_append,
        List.append_nil] at hp
      rw [List.zip_append htk, List.zip_cons_cons, List.zip_cons_cons,
        List.zip_cons_cons] at hp
      rcases List.mem_append.mp hp with hp1 | hp2
      · exact hpair p (mem_zip_take hp1)
      · rcases List.mem_cons.mp hp2 with rfl | hp3
        · exact ⟨rfl, hn0 a rfl⟩
        · rcases List.mem_cons.mp hp3 with rfl | hp4
          · exact ⟨rfl, hn1⟩
          · rcases List.mem_cons.mp hp4 with rfl | hp5
            · exact ⟨rfl, hn2 b rfl⟩
            · exact hpair p (mem_zip_seg hp5)

theorem center_children_wf {cs : List (BNode T)} {idx : Nat}
    (hwl : ∀ c ∈ cs, wfc cmp c = true)
    {n0 : Option (BNode T)} {n1 : BNode T} {n2 : Option (BNode T)}
    (hn0 : ∀ m, n0 = some m → wfc cmp m = true) (hn1 : wfc cmp n1 = true)
    (hn2 : ∀ m, n2 = some m → wfc cmp m = true) :
    ∀ c ∈ centerChildrenOf cs idx n0 n1 n2, wfc cmp c = true := by
  intro c hcm
  cases n0 <;> cases n2 <;>
    simp only [centerChildrenOf, List.append_assoc, List.cons_append,
      List.nil_append, List.singleton_append, List.append_nil,
      List.mem_append, List.mem_cons] at hcm
  · rcases hcm with h1 | rfl | h2
    · exact hwl c (List.mem_of_mem_take h1)
    · exact hn1
    · exact hwl c (mem_of_mem_seg h2)
  · rcases hcm with h1 | rfl | rfl | h2
    · exact hwl c (List.mem_of_mem_take h1)
    · exact hn1
    · exact hn2 c rfl
    · exact hwl c (mem_of_mem_seg h2)
  · rcases hcm with h1 | rfl | rfl | h2
    · exact hwl c (List.mem_of_mem_take h1)
    · exact hn0 c rfl
    · exact hn1
    · exact hwl c (mem_of_mem_seg h2)
  · rcases hcm with h1 | rfl | rfl | rfl | h2
    · exact hwl c (List.mem_of_mem_take h1)
    · exact hn0 c rfl
    · exact hn1
    · exact hn2 c rfl
    · exact hwl c (mem_of_mem_seg h2)

/-- The reshaped center is well-formed whenever its pieces are and the
reshaped contents are sorted. -/
theorem center_wfc (hc : CmpLaws cmp) {ed2 ed : Bool} {ks : List T}
    {cs : List (BNode T)} {idx : Nat}
    (hwf : wfc cmp (.internal ed ks cs) = true)
    {n0 : Option (BNode T)} {n1 : BNode T} {n2 : Option (BNode T)}
    (hn0 : ∀ m, n0 = some m → wfc cmp m = true ∧ toList m ≠ [])
    (hn1w : wfc cmp n1 = true) (hn1e : toList n1 ≠ [])
    (hn2 : ∀ m, n2 = some m → wfc cmp m = true ∧ toList m ≠ [])
    (hsorted : SortedL cmp (((centerChildrenOf cs idx n0 n1 n2).map toList).flatten)) :
    wfc cmp (.internal ed2 (centerKeysOf ks idx n0 n1 n2)
      (centerChildrenOf cs idx n0 n1 n2)) = true := by
  obtain ⟨hlen, hne, hsk, hzip0, hwl, hflat0⟩ := wfc_internal_parts hwf
  apply wfc_internal_intro2 hc (centerKeys_length hlen n0 n1 n2)
    (center_ne_nil n0 n1 n2)
    (center_zip_prop (hpair_of_wfc hwf) hlen
      (fun m hm => (hn0 m hm).2) hn1e (fun m hm => (hn2 m hm).2))
    (center_children_wf hwl (fun m hm => (hn0 m hm).1) hn1w
      (fun m hm => (hn2 m hm).1))
    hsorted

theorem n1_mem_center {cs : List (BNode T)} {idx : Nat}
    (n0 : Option (BNode T)) (n1 : BNode T) (n2 : Option (BNode T)) :
    n1 ∈ centerChildrenOf cs idx n0 n1 n2 := by
  cases n0 <;> cases n2 <;> simp [centerChildrenOf]

theorem center_flat_ne_nil {cs : List (BNode T)} {idx : Nat}
    {n0 : Option (BNode T)} {n1 : BNode T} {n2 : Option (BNode T)}
    (hn1 : toList n1 ≠ []) :
    ((centerChildrenOf cs idx n0 n1 n2).map toList).flatten ≠ [] :=
  flatten_ne_nil_of_mem (List.mem_map_of_mem toList (n1_mem_center n0 n1 n2)) hn1

/-- An internal node assembled from two parallel batches of separators and
children is well-formed when each batch is and the joint contents are
sorted. -/
theorem internal_concat_wfc (hc : CmpLaws cmp) {ed2 : Bool}
    {ksA ksB : List T} {csA csB : List (BNode T)}
    (hlenA : ksA.length = csA.length) (hlenB : ksB.length = csB.length)
    (hpairA : ∀ p ∈ ksA.zip csA, (p.2).maxKey = p.1 ∧ toList p.2 ≠ [])
    (hpairB : ∀ p ∈ ksB.zip csB, (p.2).maxKey = p.1 ∧ toList p.2 ≠ [])
    (hwA : ∀ c ∈ csA, wfc cmp c = true) (hwB : ∀ c ∈ csB, wfc cmp c = true)
    (hne : csA ++ csB ≠ [])
    (hsorted : SortedL cmp ((csA.map toList).flatten ++ (csB.map toList).flatten)) :
    wfc cmp (.internal ed2 (ksA ++ ksB) (csA ++ csB)) = true := by
  apply wfc_internal_intro2 hc (by simp [hlenA, hlenB]) hne
  · intro p hp
    rw [List.zip_append hlenA] at hp
    rcases List.mem_append.mp hp with h1 | h2
    · exact hpairA p h1
    · exact hpairB p h2
  · intro c hcm
    rcases List.mem_append.mp hcm with h1 | h2
    · exact hwA c h1
    · exact hwB c h2
  · rw [List.map_append, List.flatten_append]
    exact hsorted

theorem toList_concat_internal {ed2 : Bool} {ksA ksB : List T}
    {csA csB : List (BNode T)} :
    toList (.internal ed2 (ksA ++ ksB) (csA ++ csB)) =
      (csA.map toList).flatten ++ (csB.map toList).flatten := by
  rw [toList_internal, List.map_append, List.flatten_append]

theorem ichildren_length_of_wfc {ed : Bool} {ks : List T} {cs : List (BNode T)}
    (h : wfc cmp (.internal ed ks cs) = true) : cs.length = ks.length :=
  (wfc_internal_parts h).1.symm

theorem uniform_children {ed : Bool} {ks : List T} {cs : List (BNode T)}
    (h : uniformB (.internal ed ks cs) = true) :
    ∀ c ∈ cs, uniformB c = true := by
  rw [uniformB, Bool.and_eq_true] at h
  exact (uniformL_iff cs).mp h.2

theorem uniform_depth_eq {ed : Bool} {ks : List T} {cs : List (BNode T)}
    (h : uniformB (.internal ed ks cs) = true) {i j : Nat}
    (hi : i < cs.length) (hj : j < cs.length) :
    depthOf cs[i] = depthOf cs[j] := by
  rw [uniformB, Bool.and_eq_true] at h
  have hsd := h.1
  cases cs with
  | nil => simp at hi
  | cons c0 rest =>
    rw [sameDepth, List.all_eq_true] at hsd
    have hhead : ∀ k (hk : k < (c0 :: rest).length),
        depthOf (c0 :: rest)[k] = depthOf c0 := by
      intro k hk
      cases k with
      | zero => rfl
      | succ k2 =>
        have hm : (c0 :: rest)[k2 + 1] ∈ rest := by
          rw [List.getElem_cons_succ]
          exact List.getElem_mem (by simpa using hk)
        have := hsd _ hm
        simpa using this
    rw [hhead i hi, hhead j hj]

theorem isLeaf_eq_of_depth_eq {a b : BNode T} (h : depthOf a = depthOf b) :
    a.isLeaf = b.isLeaf := by
  by_cases ha : a.isLeaf = true
  · have h0 : depthOf a = 0 := depthOf_eq_zero_iff.mpr ha
    have h1 : b.isLeaf = true := depthOf_eq_zero_iff.mp (by omega)
    rw [ha, h1]
  · have h0 : depthOf a ≠ 0 := fun h2 => ha (depthOf_eq_zero_iff.mp h2)
    have h1 : b.isLeaf ≠ true := fun h2 =>
      h0 (by rw [h]; exact depthOf_eq_zero_iff.mpr h2)
    have ha2 : a.isLeaf = false := Bool.eq_false_iff.mpr ha
    have h12 : b.isLeaf = false := Bool.eq_false_iff.mpr h1
    rw [ha2, h12]

theorem depthOf_internal_pos (ed : Bool) (ks : List T) (cs : List (BNode T)) :
    0 < depthOf (.internal ed ks cs) := by
  cases cs <;> simp [depthOf] <;> omega

mutual
/-- Every internal node holds at least two children (a consequence of the
size invariants: non-root nodes hold at least `MIN = 32` keys and an
internal root at least 2). -/
def min2 : BNode T → Bool
  | .leaf _ _ _ => true
  | .internal _ _ cs => decide (2 ≤ cs.length) && min2L cs

/-- `min2` on every node of a list. -/
def min2L : List (BNode T) → Bool
  | [] => true
  | c :: cs => min2 c && min2L cs
end

theorem min2L_iff :
    ∀ cs : List (BNode T), min2L cs = true ↔ ∀ c ∈ cs, min2 c = true
  | [] => by simp [min2L]
  | c :: cs => by
    rw [min2L]
    simp [min2L_iff cs]

theorem min2_parts {ed : Bool} {ks : List T} {cs : List (BNode T)}
    (h : min2 (.internal ed ks cs) = true) :
    2 ≤ cs.length ∧ ∀ c ∈ cs, min2 c = true := by
  rw [min2, Bool.and_eq_true] at h
  exact ⟨by simpa using h.1, (min2L_iff cs).mp h.2⟩

set_option maxHeartbeats 1000000 in
/-- `node.remove` satisfies the full functional specification on every
content-well-formed, depth-uniform node, given well-formed adjacent
siblings. -/
theorem nodeRemove_spec (hc : CmpLaws cmp) {edit : Bool} {key : T} :
    ∀ n : BNode T, ∀ lo ro : Option (BNode T),
      wfc cmp n = true → uniformB n = true → min2 n = true →
      (∀ m, lo = some m → wfc cmp m = true ∧ toList m ≠ [] ∧
        depthOf m = depthOf n) →
      (∀ m, ro = some m → wfc cmp m = true ∧ toList m ≠ [] ∧
        depthOf m = depthOf n) →
      SortedL cmp (optList lo ++ toList n ++ optList ro) →
      RemoveSpec cmp (toList n) key lo ro (nodeRemove cmp edit n key lo ro) := by
  intro n
  induction n using BNode.inductionOn with
  | hleaf ed cap keys =>
    intro lo ro hwf hun hmin hlo hro hsort
    have hstep : nodeRemove cmp edit (.leaf ed cap keys) key lo ro =
        leafRemove cmp ed cap keys key lo ro edit := by
      rw [nodeRemove.eq_def]
    rw [hstep]
    rw [wfc] at hwf
    have hlo2 : ∀ m, lo = some m →
        m.isLeaf = true ∧ wfc cmp m = true ∧ toList m ≠ [] := by
      intro m hm
      obtain ⟨h1, h2, h3⟩ := hlo m hm
      refine ⟨?_, h1, h2⟩
      rw [isLeaf_eq_of_depth_eq h3]
      rfl
    have hro2 : ∀ m, ro = some m →
        m.isLeaf = true ∧ wfc cmp m = true ∧ toList m ≠ [] := by
      intro m hm
      obtain ⟨h1, h2, h3⟩ := hro m hm
      refine ⟨?_, h1, h2⟩
      rw [isLeaf_eq_of_depth_eq h3]
      rfl
    rw [toList_leaf] at hsort
    exact leafRemove_spec hc hwf hlo2 hro2 hsort
  | hinternal ed ks cs ih =>
    intro lo ro hwf hun hmin hlo hro hsort
    obtain ⟨hlen, hne, hsk, hzip0, hwl, hflat0⟩ := wfc_internal_parts hwf
    have hcpos : 0 < cs.length := List.length_pos.mpr hne
    have hkpos : 0 < ks.length := by omega
    have hflatS : SortedL cmp ((cs.map toList).flatten) :=
      (sortedB_iff hc _).mp hflat0
    have hidxeq : (if lsearch cmp ks key < 0 then
        (-(lsearch cmp ks key) - 1).toNat else (lsearch cmp ks key).toNat) =
        lsearchFirst cmp ks key := by
      rw [lsearch]
      by_cases hC : lsearchFirst cmp ks key < ks.length ∧
          cmp key (ks.getD (lsearchFirst cmp ks key) default) = 0
      · rw [if_pos hC]
        have h0 : ¬((lsearchFirst cmp ks key : Int) < 0) := by omega
        rw [if_neg h0]
        omega
      · rw [if_neg hC]
        rw [if_pos (by omega)]
        omega
    rw [nodeRemove.eq_def]
    dsimp only
    rw [hidxeq]
    set I := lsearchFirst cmp ks key with hI
    by_cases hend : I = ks.length
    · rw [if_pos hend]
      intro d hd
      rw [toList_internal, List.mem_flatten] at hd
      obtain ⟨blk, hblk, hdm⟩ := hd
      rw [List.mem_map] at hblk
      obtain ⟨c0, hc0, rfl⟩ := hblk
      rw [List.mem_iff_getElem] at hc0
      obtain ⟨j, hj, rfl⟩ := hc0
      have hjk : j < ks.length := by omega
      have hbefore : cmp (ks.getD j default) key < 0 := by
        apply lsearchFirst_before
        rw [← hI]
        omega
      have hsj : SortedL cmp (toList cs[j]) :=
        toList_sorted hc (hwl _ (List.getElem_mem hj))
      have hnej := (hzip0 j hjk hj).2
      have hlastj : (toList cs[j]).getLastD default = ks.getD j default := by
        rw [← maxKey_eq_last (hwl _ (List.getElem_mem hj)) hnej,
          List.getD_eq_getElem _ _ hjk]
        exact (hzip0 j hjk hj).1
      have hdk : cmp d key < 0 :=
        sortedL_lt_of_lt_last hc hsj hdm (by rw [hlastj]; exact hbefore)
      have := (hc.flip d key).mp hdk
      omega
    · rw [if_neg hend]
      have hidxk : I < ks.length := lt_of_le_of_ne (by rw [hI]; exact lsearchFirst_le ks key) hend
      have hidxc : I < cs.length := by omega
      rw [dif_pos hidxc]
      have hgg : cs.get ⟨I, hidxc⟩ = cs[I] := rfl
      rw [hgg]
      have hcond : (I < ks.length - 1) = (I < cs.length - 1) := by
        rw [hlen]
      simp only [hcond]
      set lC := (if 0 < I then some (cs.getD (I - 1) default) else none)
        with hlC
      set rC := (if I < cs.length - 1 then some (cs.getD (I + 1) default)
        else none) with hrC
      -- descent-side facts
      have hgetmem : cs[I] ∈ cs := List.getElem_mem hidxc
      have hchildwf : wfc cmp cs[I] = true := hwl _ hgetmem
      have hnecM : toList cs[I] ≠ [] := (hzip0 I hidxk hidxc).2
      have hX : ∀ x ∈ ((cs.take I).map toList).flatten, 0 < cmp key x := by
        intro x hx
        obtain ⟨j, hjins, hxj⟩ := mem_flatten_map_take hx
        have hjk : j.1 < ks.length := by omega
        have hbefore : cmp (ks.getD j.1 default) key < 0 := by
          apply lsearchFirst_before
          rw [← hI]
          exact hjins
        have hsj : SortedL cmp (toList (cs.get j)) :=
          toList_sorted hc (hwl _ (List.get_mem cs j.1 j.2))
        have hnej := (hzip0 j.1 hjk j.2).2
        have hlastj : (toList (cs.get j)).getLastD default =
            ks.getD j.1 default := by
          rw [← maxKey_eq_last (hwl _ (List.get_mem cs j.1 j.2)) hnej,
            List.getD_eq_getElem _ _ hjk]
          exact (hzip0 j.1 hjk j.2).1
        have hxk : cmp x key < 0 :=
          sortedL_lt_of_lt_last hc hsj hxj (by rw [hlastj]; exact hbefore)
        exact (hc.flip x key).mp hxk
      have hY : ∀ y ∈ ((cs.drop (I + 1)).map toList).flatten,
          cmp key y < 0 := by
        intro y hy
        obtain ⟨j, hjge, hyj⟩ := mem_flatten_map_drop hy
        have hfound0 : 0 ≤ cmp (ks.getD I default) key := by
          have h3 : 0 ≤ cmp (ks.getD (lsearchFirst cmp ks key) default) key :=
            lsearchFirst_found (by rw [← hI]; exact hidxk)
          rwa [← hI] at h3
        have hkle : cmp key (ks.getD I default) ≤ 0 := hc.le_flip hfound0
        have hsep : ks.getD I default ∈ toList cs[I] := by
          rw [List.getD_eq_getElem _ _ hidxk, ← (hzip0 I hidxk hidxc).1,
            maxKey_eq_last (hwl _ hgetmem) hnecM]
          exact getLastD_mem hnecM
        have hcross := flatten_sorted_cross hc hflatS (i := I) (j := j.1)
          (by simpa using hidxc) (by simpa using j.2) (by omega)
        simp only [List.getElem_map] at hcross
        have h5 : cmp (ks.getD I default) y < 0 := hcross _ hsep y hyj
        exact hc.lt_of_le_of_lt hkle h5
      have hXne : ∀ x ∈ ((cs.take I).map toList).flatten, cmp key x ≠ 0 := by
        intro x hx
        have := hX x hx
        omega
      have hYne : ∀ y ∈ ((cs.drop (I + 1)).map toList).flatten,
          cmp key y ≠ 0 := by
        intro y hy
        have := hY y hy
        omega
      have hlrem : lremove cmp (toList (.internal ed ks cs)) key =
          ((cs.take I).map toList).flatten ++ lremove cmp (toList cs[I]) key ++
            ((cs.drop (I + 1)).map toList).flatten := by
        rw [toList_internal_split hidxc, lremove_middle hc hXne hYne]
      have hXsplit : ((cs.take I).map toList).flatten =
          ((cs.take (I - 1)).map toList).flatten ++ optList lC := by
        rw [hlC]
        exact flat_take_split_left hidxc
      have hYsplit : ((cs.drop (I + 1)).map toList).flatten =
          optList rC ++ ((seg cs (I + 2) cs.length).map toList).flatten := by
        rw [hrC]
        exact flat_drop_split_right hidxc
      have habs_of : (∀ d ∈ toList cs[I], cmp key d ≠ 0) →
          ∀ d ∈ toList (.internal ed ks cs), cmp key d ≠ 0 := by
        intro hM d hd
        rw [toList_internal_split hidxc] at hd
        rcases List.mem_append.mp hd with hd1 | hd2
        · rcases List.mem_append.mp hd1 with hdX | hdM
          · exact hXne d hdX
          · exact hM d hdM
        · exact hYne d hd2
      have hexists_lift : (∃ d ∈ toList cs[I], cmp key d = 0) →
          ∃ d ∈ toList (.internal ed ks cs), cmp key d = 0 := by
        rintro ⟨d, hd, hz⟩
        refine ⟨d, ?_, hz⟩
        rw [toList_internal_split hidxc]
        exact List.mem_append_left _ (List.mem_append_right _ hd)
      have hsibL : ∀ m, lC = some m → wfc cmp m = true ∧ toList m ≠ [] ∧
          depthOf m = depthOf cs[I] := by
        intro m hm
        rw [hlC] at hm
        by_cases h0 : 0 < I
        · rw [if_pos h0] at hm
          injection hm with hm2
          rw [List.getD_eq_getElem _ _ (by omega)] at hm2
          subst hm2
          exact ⟨hwl _ (List.getElem_mem (by omega)),
            (hzip0 (I - 1) (by omega) (by omega)).2,
            uniform_depth_eq hun (by omega) hidxc⟩
        · rw [if_neg h0] at hm
          simp at hm
      have hsibR : ∀ m, rC = some m → wfc cmp m = true ∧ toList m ≠ [] ∧
          depthOf m = depthOf cs[I] := by
        intro m hm
        rw [hrC] at hm
        by_cases h1 : I < cs.length - 1
        · rw [if_pos h1] at hm
          injection hm with hm2
          rw [List.getD_eq_getElem _ _ (by omega)] at hm2
          subst hm2
          exact ⟨hwl _ (List.getElem_mem (by omega)),
            (hzip0 (I + 1) (by omega) (by omega)).2,
            uniform_depth_eq hun (by omega) hidxc⟩
        · rw [if_neg h1] at hm
          simp at hm
      have hEmid : ((cs.take I).map toList).flatten ++ toList cs[I] ++
          ((cs.drop (I + 1)).map toList).flatten =
          ((cs.take (I - 1)).map toList).flatten ++
            (optList lC ++ toList cs[I] ++ optList rC) ++
            ((seg cs (I + 2) cs.length).map toList).flatten := by
        rw [hXsplit, hYsplit]
        simp only [List.append_assoc]
      have hsortI : SortedL cmp (optList lC ++ toList cs[I] ++ optList rC) := by
        have hflats : SortedL cmp (((cs.take I).map toList).flatten ++
            toList cs[I] ++ ((cs.drop (I + 1)).map toList).flatten) := by
          have h1 : SortedL cmp (toList (.internal ed ks cs)) :=
            toList_sorted hc hwf
          rwa [toList_internal_split hidxc] at h1
        rw [hEmid] at hflats
        exact (sortedL_of_concat3 rfl hflats).2.1
      have hchilduni : uniformB cs[I] = true := uniform_children hun _ hgetmem
      have hchildmin : min2 cs[I] = true := (min2_parts hmin).2 _ hgetmem
      have hcs2 : 2 ≤ cs.length := (min2_parts hmin).1
      have hchild := ih _ hgetmem lC rC hchildwf hchilduni hchildmin hsibL
        hsibR hsortI
      have hWafter : SortedL cmp (optList lo ++
          lremove cmp (toList (.internal ed ks cs)) key ++ optList ro) := by
        apply hsort.sublist
        exact List.Sublist.append
          (List.Sublist.append (List.Sublist.refl _)
            (lremove_sublist cmp _ key))
          (List.Sublist.refl _)
      have hY0ne_of : I + 2 < cs.length →
          ((seg cs (I + 2) cs.length).map toList).flatten ≠ [] := by
        intro hlt
        rw [seg_to_length]
        have hm : cs.get ⟨I + 2, hlt⟩ ∈ cs.drop (I + 2) := by
          have h0 : 0 < (cs.drop (I + 2)).length := by
            simp
            omega
          have h1 := List.getElem_mem h0
          rw [List.getElem_drop] at h1
          simpa using h1
        exact flatten_ne_nil_of_mem (List.mem_map_of_mem toList hm)
          (by simpa using (hzip0 (I + 2) (by omega) hlt).2)
      have hYne_of : I + 1 < cs.length →
          ((cs.drop (I + 1)).map toList).flatten ≠ [] := by
        intro hlt
        have hm : cs.get ⟨I + 1, hlt⟩ ∈ cs.drop (I + 1) := by
          have h0 : 0 < (cs.drop (I + 1)).length := by
            simp
            omega
          have h1 := List.getElem_mem h0
          rw [List.getElem_drop] at h1
          simpa using h1
        exact flatten_ne_nil_of_mem (List.mem_map_of_mem toList hm)
          (by simpa using (hzip0 (I + 1) (by omega) hlt).2)
      cases hres : nodeRemove cmp edit cs[I] key lC rC with
      | unchanged =>
        rw [hres] at hchild
        exact habs_of hchild
      | early c =>
        dsimp only
        rw [hres] at hchild
        obtain ⟨hexM, hctl, hcwf, hcne, hlastpres⟩ := hchild
        have hcmx : c.maxKey = ks[I] := by
          rw [maxKey_eq_last hcwf hcne, hlastpres,
            ← maxKey_eq_last hchildwf hnecM]
          exact (hzip0 I hidxk hidxc).1
        have hksid : ks.set I c.maxKey = ks := list_set_id hidxk hcmx.symm
        have hsortNew : SortedL cmp (((cs.take I).map toList).flatten ++
            toList c ++ ((cs.drop (I + 1)).map toList).flatten) := by
          have h1 : SortedL cmp (toList (.internal ed ks cs)) :=
            toList_sorted hc hwf
          rw [toList_internal_split hidxc] at h1
          apply h1.sublist
          rw [hctl]
          exact List.Sublist.append
            (List.Sublist.append (List.Sublist.refl _)
              (lremove_sublist cmp _ key))
            (List.Sublist.refl _)
        have hws := internal_set_generic hc ed hwf hidxc hcwf hcne
          hsortNew
        rw [hksid] at hws
        have hcontent : toList (.internal ed ks (cs.set I c)) =
            lremove cmp (toList (.internal ed ks cs)) key := by
          rw [hws.1, hctl, hlrem]
        refine ⟨hexists_lift hexM, hcontent, hws.2, ?_, ?_⟩
        · rw [hws.1]
          intro h0
          rw [List.append_eq_nil, List.append_eq_nil] at h0
          exact hcne h0.1.2
        · rw [hcontent, hlrem]
          by_cases hYcase : I + 1 < cs.length
          · rw [toList_internal_split hidxc,
              getLastD_append_right (hYne_of hYcase),
              getLastD_append_right (hYne_of hYcase)]
          · have hYeq : cs.drop (I + 1) = [] := by
              apply List.drop_eq_nil_of_le
              omega
            rw [toList_internal_split hidxc, hYeq]
            simp only [List.map_nil, List.flatten_nil, List.append_nil]
            rw [getLastD_append_right (by rw [← hctl]; exact hcne),
              getLastD_append_right hnecM, ← hctl]
            exact hlastpres
      | three n0 n1 n2 =>
        dsimp only
        rw [hres] at hchild
        obtain ⟨hexM, hconcat, hn0p, hn1w, hn2p, hn1e0⟩ := hchild
        set nl := cs.length - 1 - (if lC.isSome = true then 1 else 0) -
            (if rC.isSome = true then 1 else 0) +
            (if n0.isSome = true then 1 else 0) + 1 +
            (if n2.isSome = true then 1 else 0) with hnl
        have hsib2 : lC.isSome = true ∨ rC.isSome = true := by
          by_cases h0 : 0 < I
          · left
            rw [hlC, if_pos h0]
            rfl
          · right
            rw [hrC, if_pos (by omega)]
            rfl
        have hn1e : toList n1 ≠ [] := hn1e0 hsib2
        have hEmidC : ((cs.take (I - 1)).map toList).flatten ++
            (optList lC ++ lremove cmp (toList cs[I]) key ++ optList rC) ++
            ((seg cs (I + 2) cs.length).map toList).flatten =
            ((cs.take I).map toList).flatten ++
              lremove cmp (toList cs[I]) key ++
              ((cs.drop (I + 1)).map toList).flatten := by
          rw [hXsplit, hYsplit]
          simp only [List.append_assoc]
        have hcontentC : ((centerChildrenOf cs I n0 n1 n2).map toList).flatten =
            lremove cmp (toList (.internal ed ks cs)) key := by
          rw [centerChildren_flat, hconcat, hlrem, hEmidC]
        have hsortC : SortedL cmp
            (((centerChildrenOf cs I n0 n1 n2).map toList).flatten) := by
          rw [hcontentC]
          exact lremove_sorted hc (toList_sorted hc hwf) key
        have hwfC : ∀ ed2 : Bool, wfc cmp (.internal ed2
            (centerKeysOf ks I n0 n1 n2) (centerChildrenOf cs I n0 n1 n2)) = true :=
          fun ed2 => center_wfc hc hwf hn0p hn1w hn1e hn2p hsortC
        split
        · -- no rebalancing needed
          split
          · -- removeInPlace
            rename_i hnm hip
            refine ⟨hexists_lift hexM, ?_, hwfC ed, ?_, ?_⟩
            · rw [toList_internal]
              exact hcontentC
            · rw [toList_internal]
              exact center_flat_ne_nil hn1e
            · have hY0 := hY0ne_of (by omega)
              rw [toList_internal, centerChildren_flat,
                getLastD_append_right hY0, toList_internal_split hidxc, hYsplit]
              rw [getLastD_append_right (show optList rC ++
                  ((seg cs (I + 2) cs.length).map toList).flatten ≠ [] from
                  fun h => hY0 (List.append_eq_nil.mp h).2),
                getLastD_append_right hY0]
          · -- copyAndRemoveIdx
            refine ⟨hexists_lift hexM, ?_,
              fun m hm => ⟨(hlo m hm).1, (hlo m hm).2.1⟩, hwfC edit,
              fun m hm => ⟨(hro m hm).1, (hro m hm).2.1⟩, ?_⟩
            · rw [toList_internal, hcontentC]
            · intro _
              rw [toList_internal]
              exact center_flat_ne_nil hn1e
        · -- rebalancing
          rename_i hnm
          rw [not_not] at hnm
          split
          · -- joinLeft
            rename_i hjl
            cases lo with
            | none => simp [canJoin] at hjl
            | some l =>
              obtain ⟨hlwf, hlne, hldep⟩ := hlo l rfl
              have hlint : l.isLeaf = false := by
                cases hb : l.isLeaf
                · rfl
                · exfalso
                  have h0 := depthOf_internal_pos ed ks cs
                  have h1 : depthOf l = 0 := depthOf_eq_zero_iff.mpr hb
                  omega
              cases l with
              | leaf e0 c0 k0 => simp [isLeaf] at hlint
              | internal edl ksl csl =>
                obtain ⟨hlenl, hnel, _, _, hwll, _⟩ := wfc_internal_parts hlwf
                simp only [internalJoinLeft, Option.getD_some, nkeys, ichildren]
                refine ⟨hexists_lift hexM, ?_, fun m hm => by simp at hm, ?_,
                  fun m hm => ⟨(hro m hm).1, (hro m hm).2.1⟩, ?_⟩
                · rw [toList_concat_internal, optList_none, List.nil_append,
                    optList_some, hcontentC]
                  simp only [toList_internal, List.append_assoc]
                · apply internal_concat_wfc hc hlenl
                    (centerKeys_length hlen n0 n1 n2) (hpair_of_wfc hlwf)
                    (center_zip_prop (hpair_of_wfc hwf) hlen
                      (fun m hm => (hn0p m hm).2) hn1e
                      (fun m hm => (hn2p m hm).2))
                    hwll
                    (center_children_wf hwl (fun m hm => (hn0p m hm).1) hn1w
                      (fun m hm => (hn2p m hm).1))
                    (fun h => center_ne_nil n0 n1 n2 (List.append_eq_nil.mp h).2)
                  rw [hcontentC, toList_internal]
                  have h1 := ((sortedL_append).mp hWafter).1
                  simp only [optList_some, toList_internal] at h1
                  exact h1
                · intro _
                  rw [toList_concat_internal]
                  intro h0
                  rw [List.append_eq_nil] at h0
                  exact (center_flat_ne_nil hn1e) h0.2
          · split
            · -- joinRight
              rename_i hjl hjr
              cases ro with
              | none => simp [canJoin] at hjr
              | some r =>
                obtain ⟨hrwf, hrne, hrdep⟩ := hro r rfl
                have hrint : r.isLeaf = false := by
                  cases hb : r.isLeaf
                  · rfl
                  · exfalso
                    have h0 := depthOf_internal_pos ed ks cs
                    have h1 : depthOf r = 0 := depthOf_eq_zero_iff.mpr hb
                    omega
                cases r with
                | leaf e0 c0 k0 => simp [isLeaf] at hrint
                | internal edr ksr csr =>
                  obtain ⟨hlenr, hner, _, _, hwlr, _⟩ := wfc_internal_parts hrwf
                  simp only [internalJoinRight, Option.getD_some, nkeys, ichildren]
                  refine ⟨hexists_lift hexM, ?_,
                    fun m hm => ⟨(hlo m hm).1, (hlo m hm).2.1⟩, ?_,
                    fun m hm => by simp at hm, ?_⟩
                  · rw [toList_concat_internal, optList_none, List.append_nil,
                      optList_some, hcontentC]
                    simp only [toList_internal, List.append_assoc]
                  · apply internal_concat_wfc hc
                      (centerKeys_length hlen n0 n1 n2) hlenr
                      (center_zip_prop (hpair_of_wfc hwf) hlen
                        (fun m hm => (hn0p m hm).2) hn1e
                        (fun m hm => (hn2p m hm).2))
                      (hpair_of_wfc hrwf)
                      (center_children_wf hwl (fun m hm => (hn0p m hm).1) hn1w
                        (fun m hm => (hn2p m hm).1))
                      hwlr
                      (fun h => center_ne_nil n0 n1 n2 (List.append_eq_nil.mp h).1)
                    rw [hcontentC, toList_internal]
                    have h1 := sortedL_mid_right hWafter
                    simp only [optList_some, toList_internal] at h1
                    exact h1
                  · intro _
                    rw [toList_concat_internal]
                    intro h0
                    rw [List.append_eq_nil] at h0
                    exact (center_flat_ne_nil hn1e) h0.1
            · -- borrows
              rename_i hjl hjr
              have hcontentC2 : ((centerChildrenOf cs I n0 n1 n2).map toList).flatten =
                  lremove cmp ((cs.map toList).flatten) key := by
                rw [hcontentC, toList_internal]
              have h32 : minLen = 32 := rfl
              have h64 : maxLen = 64 := rfl
              split
              · -- borrowLeft
                rename_i hbl
                obtain ⟨hlos, hcond2⟩ := hbl
                obtain ⟨l, hl⟩ := Option.isSome_iff_exists.mp hlos
                subst hl
                obtain ⟨hlwf, hlne, hldep⟩ := hlo l rfl
                have hbig : maxLen ≤ l.nlen + nl := by
                  by_contra hcon
                  exact hjl (by
                    simp only [canJoin]
                    exact decide_eq_true (by omega))
                have hlint : l.isLeaf = false := by
                  cases hb : l.isLeaf
                  · rfl
                  · exfalso
                    have h0 := depthOf_internal_pos ed ks cs
                    have h1 : depthOf l = 0 := depthOf_eq_zero_iff.mpr hb
                    omega
                cases l with
                | leaf e0 c0 k0 => simp [isLeaf] at hlint
                | internal edl ksl csl =>
                  obtain ⟨hlenl, hnel, _, hzipl, hwll, _⟩ := wfc_internal_parts hlwf
                  have hnlen : (BNode.internal edl ksl csl).nlen = ksl.length := rfl
                  rw [hnlen] at hbig
                  have hnl32 : nl < 32 := by
                    have := hnm.1
                    omega
                  have hksl33 : 33 ≤ ksl.length := by omega
                  simp only [internalBorrowLeft, Option.getD_some, nkeys, nlen,
                    ichildren]
                  have hsegdropk : seg ksl ((ksl.length + nl) / 2) ksl.length =
                      ksl.drop ((ksl.length + nl) / 2) := seg_to_length _ _
                  have hsegdrop : seg csl ((ksl.length + nl) / 2) ksl.length =
                      csl.drop ((ksl.length + nl) / 2) := by
                    rw [hlenl, seg_to_length]
                  have hsplitl : (csl.map toList).flatten =
                      ((csl.take ((ksl.length + nl) / 2)).map toList).flatten ++
                        ((csl.drop ((ksl.length + nl) / 2)).map toList).flatten :=
                    flatten_map_take_drop toList csl _
                  have hlsorted : SortedL cmp ((csl.map toList).flatten ++
                      lremove cmp ((cs.map toList).flatten) key) := by
                    have h1 := ((sortedL_append).mp hWafter).1
                    simp only [optList_some, toList_internal] at h1
                    exact h1
                  have hdropsorted : SortedL cmp
                      (((csl.drop ((ksl.length + nl) / 2)).map toList).flatten ++
                        lremove cmp ((cs.map toList).flatten) key) := by
                    have h2 := hlsorted
                    rw [hsplitl] at h2
                    exact sortedL_mid_right h2
                  refine ⟨hexists_lift hexM, ?_, ?_, ?_,
                    fun m hm => ⟨(hro m hm).1, (hro m hm).2.1⟩, ?_⟩
                  · simp only [optList_some, toList_internal, List.map_append,
                      List.flatten_append]
                    rw [hsegdrop, hcontentC2]
                    conv_rhs => rw [hsplitl]
                    simp only [List.append_assoc]
                  · intro m hm
                    injection hm with hm2
                    subst hm2
                    constructor
                    · apply wfc_internal_intro2 hc
                      · simp
                        omega
                      · intro h0
                        have hl0 : (csl.take ((ksl.length + nl) / 2)).length = 0 := by
                          rw [h0]
                          rfl
                        rw [List.length_take] at hl0
                        omega
                      · intro p hp
                        exact hpair_of_wfc hlwf p (mem_zip_take hp)
                      · intro c2 hc2
                        exact hwll c2 (List.mem_of_mem_take hc2)
                      · have h2 := hlsorted
                        rw [hsplitl] at h2
                        exact ((sortedL_append).mp
                          ((sortedL_append).mp h2).1).1
                    · rw [toList_internal]
                      have h0 : 0 < (csl.take ((ksl.length + nl) / 2)).length := by
                        simp
                        omega
                      have h1 := List.getElem_mem h0
                      rw [List.getElem_take] at h1
                      exact flatten_ne_nil_of_mem (List.mem_map_of_mem toList h1)
                        ((hzipl 0 (by omega) (by omega)).2)
                  · apply internal_concat_wfc hc
                      (by simp [length_seg]; omega)
                      (centerKeys_length hlen n0 n1 n2)
                      (fun p hp => hpair_of_wfc hlwf p (mem_zip_seg hp))
                      (center_zip_prop (hpair_of_wfc hwf) hlen
                        (fun m hm => (hn0p m hm).2) hn1e
                        (fun m hm => (hn2p m hm).2))
                      (fun c2 hc2 => hwll c2 (mem_of_mem_seg hc2))
                      (center_children_wf hwl (fun m hm => (hn0p m hm).1) hn1w
                        (fun m hm => (hn2p m hm).1))
                      (fun h => center_ne_nil n0 n1 n2 (List.append_eq_nil.mp h).2)
                    rw [hsegdrop, hcontentC2]
                    exact hdropsorted
                  · intro _
                    rw [toList_internal, List.map_append, List.flatten_append]
                    intro h0
                    rw [List.append_eq_nil] at h0
                    exact (center_flat_ne_nil hn1e) h0.2
              · split
                · -- borrowRight
                  rename_i hbl hros
                  obtain ⟨r, hr⟩ := Option.isSome_iff_exists.mp hros
                  subst hr
                  obtain ⟨hrwf, hrne, hrdep⟩ := hro r rfl
                  have hbig : maxLen ≤ nl + r.nlen := by
                    by_contra hcon
                    exact hjr (by
                      simp only [canJoin]
                      exact decide_eq_true (by omega))
                  have hrint : r.isLeaf = false := by
                    cases hb : r.isLeaf
                    · rfl
                    · exfalso
                      have h0 := depthOf_internal_pos ed ks cs
                      have h1 : depthOf r = 0 := depthOf_eq_zero_iff.mpr hb
                      omega
                  cases r with
                  | leaf e0 c0 k0 => simp [isLeaf] at hrint
                  | internal edr ksr csr =>
                    obtain ⟨hlenr, hner, _, hzipr, hwlr, _⟩ := wfc_internal_parts hrwf
                    have hnlen : (BNode.internal edr ksr csr).nlen = ksr.length := rfl
                    rw [hnlen] at hbig
                    have hnl32 : nl < 32 := by
                      have := hnm.1
                      omega
                    have hksr33 : 33 ≤ ksr.length := by omega
                    simp only [internalBorrowRight, Option.getD_some, nkeys, nlen,
                      ichildren]
                    have hsegdrop : seg csr (ksr.length - (nl + ksr.length -
                        (nl + ksr.length) / 2)) ksr.length =
                        csr.drop (ksr.length - (nl + ksr.length -
                          (nl + ksr.length) / 2)) := by
                      rw [hlenr, seg_to_length]
                    have hsplitr : (csr.map toList).flatten =
                        ((csr.take (ksr.length - (nl + ksr.length -
                          (nl + ksr.length) / 2))).map toList).flatten ++
                          ((csr.drop (ksr.length - (nl + ksr.length -
                            (nl + ksr.length) / 2))).map toList).flatten :=
                      flatten_map_take_drop toList csr _
                    have hrsorted : SortedL cmp
                        (lremove cmp ((cs.map toList).flatten) key ++
                          (csr.map toList).flatten) := by
                      have h1 := sortedL_mid_right hWafter
                      simp only [optList_some, toList_internal] at h1
                      exact h1
                    refine ⟨hexists_lift hexM, ?_,
                      fun m hm => ⟨(hlo m hm).1, (hlo m hm).2.1⟩, ?_, ?_, ?_⟩
                    · simp only [optList_some, toList_internal, List.map_append,
                        List.flatten_append]
                      rw [hsegdrop, hcontentC2]
                      conv_rhs => rw [hsplitr]
                      simp only [List.append_assoc]
                    · apply internal_concat_wfc hc
                        (centerKeys_length hlen n0 n1 n2)
                        (by simp; omega)
                        (center_zip_prop (hpair_of_wfc hwf) hlen
                          (fun m hm => (hn0p m hm).2) hn1e
                          (fun m hm => (hn2p m hm).2))
                        (fun p hp => hpair_of_wfc hrwf p (mem_zip_take hp))
                        (center_children_wf hwl (fun m hm => (hn0p m hm).1) hn1w
                          (fun m hm => (hn2p m hm).1))
                        (fun c2 hc2 => hwlr c2 (List.mem_of_mem_take hc2))
                        (fun h => center_ne_nil n0 n1 n2 (List.append_eq_nil.mp h).1)
                      rw [hcontentC2]
                      apply hrsorted.sublist
                      apply List.Sublist.append (List.Sublist.refl _)
                      conv_rhs => rw [hsplitr]
                      exact List.sublist_append_left _ _
                    · intro m hm
                      injection hm with hm2
                      subst hm2
                      constructor
                      · apply wfc_internal_intro2 hc
                        · simp [length_seg]
                          omega
                        · intro h0
                          have hl0 : (seg csr (ksr.length - (nl + ksr.length -
                              (nl + ksr.length) / 2)) ksr.length).length = 0 := by
                            rw [h0]
                            rfl
                          rw [length_seg] at hl0
                          omega
                        · intro p hp
                          exact hpair_of_wfc hrwf p (mem_zip_seg hp)
                        · intro c2 hc2
                          exact hwlr c2 (mem_of_mem_seg hc2)
                        · rw [hsegdrop]
                          have h2 := ((sortedL_append).mp hrsorted).2.1
                          rw [hsplitr] at h2
                          exact ((sortedL_append).mp h2).2.1
                      · rw [toList_internal, hsegdrop]
                        have h0 : 0 < (csr.drop (ksr.length - (nl + ksr.length -
                            (nl + ksr.length) / 2))).length := by
                          simp
                          omega
                        have h1 := List.getElem_mem h0
                        rw [List.getElem_drop] at h1
                        have h1m : csr[ksr.length - (nl + ksr.length -
                            (nl + ksr.length) / 2) + 0] ∈
                            csr.drop (ksr.length - (nl + ksr.length -
                              (nl + ksr.length) / 2)) := h1
                        exact flatten_ne_nil_of_mem
                          (List.mem_map_of_mem toList h1m)
                          ((hzipr _ (by omega) (by omega)).2)
                    · intro _
                      rw [toList_internal, List.map_append, List.flatten_append]
                      intro h0
                      rw [List.append_eq_nil] at h0
                      exact (center_flat_ne_nil hn1e) h0.1
                · -- unreachable: no sibling available
                  rename_i hbl hros
                  rcases hnm.2 with h1 | h1
                  · have hron : ro = none := by
                      cases ro
                      · rfl
                      · exact absurd rfl hros
                    exact absurd ⟨h1, Or.inl hron⟩ hbl
                  · exact absurd h1 hros
      | one c =>
        rw [hres] at hchild
        exact hchild.elim
      | replaced c =>
        rw [hres] at hchild
        exact hchild.elim
      | two a b =>
        rw [hres] at hchild
        exact hchild.elim

theorem mem_centerChildren {cs : List (BNode T)} {idx : Nat}
    {n0 : Option (BNode T)} {n1 : BNode T} {n2 : Option (BNode T)}
    {c : BNode T} (h : c ∈ centerChildrenOf cs idx n0 n1 n2) :
    c ∈ cs ∨ n0 = some c ∨ c = n1 ∨ n2 = some c := by
  cases n0 <;> cases n2 <;>
    simp only [centerChildrenOf, List.append_assoc, List.cons_append,
      List.nil_append, List.singleton_append, List.append_nil,
      List.mem_append, List.mem_cons] at h
  · rcases h with h | h | h
    · exact Or.inl (List.mem_of_mem_take h)
    · exact Or.inr (Or.inr (Or.inl h))
    · exact Or.inl (mem_of_mem_seg h)
  · rcases h with h | h | h | h
    · exact Or.inl (List.mem_of_mem_take h)
    · exact Or.inr (Or.inr (Or.inl h))
    · exact Or.inr (Or.inr (Or.inr (by rw [h])))
    · exact Or.inl (mem_of_mem_seg h)
  · rcases h with h | h | h | h
    · exact Or.inl (List.mem_of_mem_take h)
    · exact Or.inr (Or.inl (by rw [h]))
    · exact Or.inr (Or.inr (Or.inl h))
    · exact Or.inl (mem_of_mem_seg h)
  · rcases h with h | h | h | h | h
    · exact Or.inl (List.mem_of_mem_take h)
    · exact Or.inr (Or.inl (by rw [h]))
    · exact Or.inr (Or.inr (Or.inl h))
    · exact Or.inr (Or.inr (Or.inr (by rw [h])))
    · exact Or.inl (mem_of_mem_seg h)

end RemoveSpecSec

/-! ## The edit-token discipline: persistent nodes are never written -/

section NoEdSec

variable {T : Type} [Inhabited T] [DecidableEq T]
variable {cmp : T → T → Int} {eq : T → T → Bool}

open BNode

/-- A node list is all-frozen. -/
theorem noEd_internal_parts {ed : Bool} {ks : List T} {cs : List (BNode T)}
    (h : noEd (.internal ed ks cs) = true) :
    ed = false ∧ ∀ c ∈ cs, noEd c = true := by
  rw [noEd, Bool.and_eq_true, Bool.not_eq_true'] at h
  exact ⟨h.1, (noEdL_iff cs).mp h.2⟩

theorem noEd_leaf {ed : Bool} {cap : Nat} {keys : List T}
    (h : noEd (.leaf ed cap keys : BNode T) = true) : ed = false := by
  rw [noEd, Bool.not_eq_true'] at h
  exact h

theorem noEd_internal_intro {ed : Bool} {ks : List T} {cs : List (BNode T)}
    (hed : ed = false) (h : ∀ c ∈ cs, noEd c = true) :
    noEd (.internal ed ks cs) = true := by
  rw [noEd, hed, Bool.and_eq_true, Bool.not_eq_true']
  exact ⟨rfl, (noEdL_iff cs).mpr h⟩

theorem noEd_isEditable {n : BNode T} (h : noEd n = true) :
    n.isEditable = false := by
  cases n
  · rw [isEditable, noEd_leaf h]
  · rw [isEditable, (noEd_internal_parts h).1]

/-- On the result of an `add`: the status is not `returnEarly` (no in-place
write happened) and every node it carries is frozen. -/
def retNoEdAdd : NodeRet T → Bool
  | .unchanged => true
  | .early _ => false
  | .one c => noEd c
  | .replaced c => noEd c
  | .two a b => noEd a && noEd b
  | .three _ _ _ => true

/-- Frozen nil-able slot. -/
def noEdOpt : Option (BNode T) → Bool
  | none => true
  | some m => noEd m

/-- On the result of a `remove`: the status is not `returnEarly` and every
node it carries is frozen. -/
def retNoEdRem : NodeRet T → Bool
  | .unchanged => true
  | .early _ => false
  | .three l c r => noEdOpt l && noEd c && noEdOpt r
  | .one _ => true
  | .replaced _ => true
  | .two _ _ => true

theorem retNoEdAdd_one {n : BNode T} (h : noEd n = true) :
    retNoEdAdd (.one n) = true := h

theorem retNoEdAdd_repl {n : BNode T} (h : noEd n = true) :
    retNoEdAdd (.replaced n) = true := h

theorem retNoEdAdd_two {a b : BNode T} (ha : noEd a = true)
    (hb : noEd b = true) : retNoEdAdd (.two a b) = true := by
  simp [retNoEdAdd, ha, hb]

theorem noEd_set {cs : List (BNode T)} {ins : Nat} {c : BNode T}
    (h : ∀ m ∈ cs, noEd m = true) (hcne : noEd c = true) :
    ∀ m ∈ cs.set ins c, noEd m = true := by
  intro m hm
  rcases List.mem_or_eq_of_mem_set hm with h1 | rfl
  · exact h m h1
  · exact hcne

/-- A persistent `add` (all tokens false, `edit` argument false) neither
writes in place nor hands out an editable node. -/
theorem nodeAdd_noEd (key : T) :
    ∀ n : BNode T, noEd n = true →
      retNoEdAdd (nodeAdd cmp eq false n key) = true := by
  intro n
  induction n using BNode.inductionOn with
  | hleaf ed cap keys =>
    intro hne
    have hed : ed = false := noEd_leaf hne
    subst hed
    have hstep : nodeAdd cmp eq false (.leaf false cap keys) key =
        leafAdd cmp eq false cap keys key false := by
      rw [nodeAdd.eq_def]
    rw [hstep]
    simp only [leafAdd]
    split
    · rfl
    · rw [if_neg (by simp)]
      split
      · simp [leafCopyAndReplaceNode, retNoEdAdd, noEd]
      · split
        · simp [leafCopyAndInsertNode, retNoEdAdd, noEd]
        · simp only [leafSplit]
          split <;> simp [retNoEdAdd, noEd]
  | hinternal ed ks cs ih =>
    intro hne
    obtain ⟨hed, hcs⟩ := noEd_internal_parts hne
    subst hed
    rw [nodeAdd.eq_def]
    dsimp only
    split
    · rfl
    · rename_i hnn
      generalize (if (-(lsearchEq cmp eq ks key).1 - 1).toNat = ks.length
        then ks.length - 1 else (-(lsearchEq cmp eq ks key).1 - 1).toNat) = ins
      split
      · rename_i hlt
        have hchild := ih _ (List.get_mem cs _ hlt) (hcs _ (List.get_mem cs _ hlt))
        cases hres : nodeAdd cmp eq false (cs.get ⟨_, hlt⟩) key with
        | unchanged => rfl
        | early c =>
          rw [hres] at hchild
          simp [retNoEdAdd] at hchild
        | one c =>
          rw [hres] at hchild
          show retNoEdAdd (if false = true
              then internalModifyInPlace eq false ks cs ins c false
              else internalCopyAndModify eq false ks cs ins c false) = true
          rw [if_neg Bool.false_ne_true]
          simp only [internalCopyAndModify]
          rw [statusRet, if_neg Bool.false_ne_true]
          refine retNoEdAdd_one (noEd_internal_intro rfl ?_)
          intro m hm
          split at hm
          · exact hcs m hm
          · exact noEd_set hcs hchild m hm
        | replaced c =>
          rw [hres] at hchild
          show retNoEdAdd (if false = true
              then internalModifyInPlace eq false ks cs ins c true
              else internalCopyAndModify eq false ks cs ins c true) = true
          rw [if_neg Bool.false_ne_true]
          simp only [internalCopyAndModify]
          rw [statusRet, if_pos rfl]
          refine retNoEdAdd_repl (noEd_internal_intro rfl ?_)
          intro m hm
          split at hm
          · exact hcs m hm
          · exact noEd_set hcs hchild m hm
        | two n1 n2 =>
          rw [hres] at hchild
          simp only [retNoEdAdd, Bool.and_eq_true] at hchild
          show retNoEdAdd (if ks.length < maxLen
              then internalCopyAndAppend false ks cs ins n1 n2
              else internalSplit false ks cs ins n1 n2) = true
          split
          · rw [internalCopyAndAppend]
            refine retNoEdAdd_one (noEd_internal_intro rfl ?_)
            intro m hm
            rcases List.mem_append.mp hm with h1 | h2
            · exact hcs m (List.mem_of_mem_take h1)
            · rcases List.mem_cons.mp h2 with rfl | h3
              · exact hchild.1
              · rcases List.mem_cons.mp h3 with rfl | h4
                · exact hchild.2
                · exact hcs m (mem_of_mem_seg h4)
          · simp only [internalSplit]
            split <;> split
            · refine retNoEdAdd_two ?_ ?_
              · refine noEd_internal_intro rfl ?_
                intro m hm
                rcases List.mem_append.mp hm with h1 | h2
                · exact hcs m (List.mem_of_mem_take h1)
                · rcases List.mem_cons.mp h2 with rfl | h3
                  · exact hchild.1
                  · rcases List.mem_cons.mp h3 with rfl | h4
                    · exact hchild.2
                    · exact hcs m (mem_of_mem_seg h4)
              · refine noEd_internal_intro rfl ?_
                intro m hm
                exact hcs m (mem_of_mem_seg hm)
            · refine retNoEdAdd_two ?_ ?_
              · refine noEd_internal_intro rfl ?_
                intro m hm
                exact hcs m (List.mem_of_mem_take hm)
              · refine noEd_internal_intro rfl ?_
                intro m hm
                rcases List.mem_append.mp hm with h1 | h2
                · exact hcs m (mem_of_mem_seg h1)
                · rcases List.mem_cons.mp h2 with rfl | h3
                  · exact hchild.1
                  · rcases List.mem_cons.mp h3 with rfl | h4
                    · exact hchild.2
                    · exact hcs m (mem_of_mem_seg h4)
            · refine retNoEdAdd_two ?_ ?_
              · refine noEd_internal_intro rfl ?_
                intro m hm
                rcases List.mem_append.mp hm with h1 | h2
                · exact hcs m (List.mem_of_mem_take h1)
                · rcases List.mem_cons.mp h2 with rfl | h3
                  · exact hchild.1
                  · rcases List.mem_cons.mp h3 with rfl | h4
                    · exact hchild.2
                    · exact hcs m (mem_of_mem_seg h4)
              · refine noEd_internal_intro rfl ?_
                intro m hm
                exact hcs m (mem_of_mem_seg hm)
            · refine retNoEdAdd_two ?_ ?_
              · refine noEd_internal_intro rfl ?_
                intro m hm
                exact hcs m (List.mem_of_mem_take hm)
              · refine noEd_internal_intro rfl ?_
                intro m hm
                rcases List.mem_append.mp hm with h1 | h2
                · exact hcs m (mem_of_mem_seg h1)
                · rcases List.mem_cons.mp h2 with rfl | h3
                  · exact hchild.1
                  · rcases List.mem_cons.mp h3 with rfl | h4
                    · exact hchild.2
                    · exact hcs m (mem_of_mem_seg h4)
        | three l c r =>
          rfl
      · rfl

theorem noEd_default : noEd (default : BNode T) = true := by
  show noEd (.leaf false 0 []) = true
  rw [noEd]
  rfl

theorem noEd_getD {cs : List (BNode T)} (h : ∀ c ∈ cs, noEd c = true)
    (i : Nat) : noEd (cs.getD i default) = true := by
  by_cases hi : i < cs.length
  · rw [List.getD_eq_getElem _ _ hi]
    exact h _ (List.getElem_mem hi)
  · rw [List.getD_eq_default _ _ (by omega)]
    exact noEd_default

theorem noEd_ichildren {n : BNode T} (h : noEd n = true) :
    ∀ m ∈ n.ichildren, noEd m = true := by
  cases n with
  | leaf ed cap keys => intro m hm; simp [BNode.ichildren] at hm
  | internal ed ks cs => exact (noEd_internal_parts h).2

theorem noEdOpt_some {o : Option (BNode T)} {m : BNode T}
    (h : noEdOpt o = true) (he : o = some m) : noEd m = true := by
  rw [he] at h
  exact h

theorem canJoin_isSome {o : Option (BNode T)} {nl : Nat}
    (h : BNode.canJoin o nl = true) : ∃ m, o = some m := by
  cases o with
  | none => simp [BNode.canJoin] at h
  | some m => exact ⟨m, rfl⟩

theorem retNoEdRem_three {l r : Option (BNode T)} {c : BNode T}
    (hl : noEdOpt l = true) (hc : noEd c = true) (hr : noEdOpt r = true) :
    retNoEdRem (.three l c r) = true := by
  simp [retNoEdRem, hl, hc, hr]

set_option maxHeartbeats 1600000 in
/-- A persistent `remove` (all tokens false, `edit` argument false) neither
writes in place nor hands out an editable node. -/
theorem nodeRemove_noEd (key : T) :
    ∀ n : BNode T, noEd n = true → ∀ lo ro : Option (BNode T),
      noEdOpt lo = true → noEdOpt ro = true →
      retNoEdRem (nodeRemove cmp false n key lo ro) = true := by
  intro n
  induction n using BNode.inductionOn with
  | hleaf ed cap keys =>
    intro hne lo ro hlo hro
    have hed : ed = false := noEd_leaf hne
    subst hed
    have hstep : nodeRemove cmp false (.leaf false cap keys) key lo ro =
        leafRemove cmp false cap keys key lo ro false := by
      rw [nodeRemove.eq_def]
    rw [hstep]
    simp only [leafRemove]
    split
    · rfl
    · split
      · split
        · rename_i h
          exact absurd h Bool.false_ne_true
        · exact retNoEdRem_three hlo (by rw [noEd]; rfl) hro
      · split
        · exact retNoEdRem_three rfl (by rw [noEd]; rfl) hro
        · split
          · exact retNoEdRem_three hlo (by rw [noEd]; rfl) rfl
          · split
            · rename_i hg
              obtain ⟨l, rfl⟩ := Option.isSome_iff_exists.mp hg.1
              have hled : l.isEditable = false := noEd_isEditable hlo
              simp only [leafBorrowLeft, Option.getD_some, hled]
              split
              · rename_i h
                first
                | exact absurd h Bool.false_ne_true
                | exact absurd h.1 Bool.false_ne_true
              · split
                · rename_i h
                  first
                  | exact absurd h Bool.false_ne_true
                  | exact absurd h.1 Bool.false_ne_true
                · exact retNoEdRem_three (by rw [noEdOpt, noEd]; rfl)
                    (by rw [noEd]; rfl) hro
            · split
              · rename_i hg
                obtain ⟨r, rfl⟩ := Option.isSome_iff_exists.mp hg
                have hred : r.isEditable = false := noEd_isEditable hro
                simp only [leafBorrowRight, Option.getD_some, hred]
                split
                · rename_i h
                  first
                  | exact absurd h Bool.false_ne_true
                  | exact absurd h.1 Bool.false_ne_true
                · split
                  · rename_i h
                    first
                    | exact absurd h Bool.false_ne_true
                    | exact absurd h.1 Bool.false_ne_true
                  · exact retNoEdRem_three hlo (by rw [noEd]; rfl)
                      (by rw [noEdOpt, noEd]; rfl)
              · rfl
  | hinternal ed ks cs ih =>
    intro hne lo ro hlo hro
    obtain ⟨hed, hcs⟩ := noEd_internal_parts hne
    subst hed
    rw [nodeRemove.eq_def]
    dsimp only
    generalize (if lsearch cmp ks key < 0
      then (-(lsearch cmp ks key) - 1).toNat
      else (lsearch cmp ks key).toNat) = idx
    split
    · rfl
    · have hLC : noEdOpt
          (if 0 < idx then some (cs.getD (idx - 1) default) else none) = true := by
        split
        · exact noEd_getD hcs _
        · rfl
      have hRC : noEdOpt
          (if idx < ks.length - 1 then some (cs.getD (idx + 1) default) else none) = true := by
        split
        · exact noEd_getD hcs _
        · rfl
      generalize hlcg : (if 0 < idx
        then some (cs.getD (idx - 1) default) else none) = lc
      generalize hrcg : (if idx < ks.length - 1
        then some (cs.getD (idx + 1) default) else none) = rc
      rw [hlcg] at hLC
      rw [hrcg] at hRC
      split
      · rename_i hlt
        have hchild := ih _ (List.get_mem cs _ hlt) (hcs _ (List.get_mem cs _ hlt))
          _ _ hLC hRC
        cases hres : nodeRemove cmp false (cs.get ⟨idx, hlt⟩) key lc rc with
        | unchanged => rfl
        | early c =>
          rw [hres] at hchild
          simp [retNoEdRem] at hchild
        | one c => rfl
        | replaced c => rfl
        | two a b => rfl
        | three n0 n1 n2 =>
          dsimp only
          rw [hres] at hchild
          simp only [retNoEdRem, Bool.and_eq_true] at hchild
          obtain ⟨⟨hn0, hn1⟩, hn2⟩ := hchild
          have hcenter : ∀ m ∈ centerChildrenOf cs idx n0 n1 n2, noEd m = true := by
            intro m hm
            rcases mem_centerChildren hm with h1 | h1 | rfl | h1
            · exact hcs m h1
            · exact noEdOpt_some hn0 h1
            · exact hn1
            · exact noEdOpt_some hn2 h1
          generalize (cs.length - 1 - (if lc.isSome = true then 1 else 0) -
            (if rc.isSome = true then 1 else 0) +
            (if n0.isSome = true then 1 else 0) + 1 +
            (if n2.isSome = true then 1 else 0)) = nl
          split
          · split
            · rename_i h
              exact absurd h.1 Bool.false_ne_true
            · exact retNoEdRem_three hlo (noEd_internal_intro rfl hcenter) hro
          · split
            · rename_i hcj
              obtain ⟨l, rfl⟩ := canJoin_isSome hcj
              rw [internalJoinLeft]
              refine retNoEdRem_three rfl (noEd_internal_intro rfl ?_) hro
              intro m hm
              rcases List.mem_append.mp hm with h1 | h1
              · exact noEd_ichildren hlo m h1
              · exact hcenter m h1
            · split
              · rename_i hcj
                obtain ⟨r, rfl⟩ := canJoin_isSome hcj
                rw [internalJoinRight]
                refine retNoEdRem_three hlo (noEd_internal_intro rfl ?_) rfl
                intro m hm
                rcases List.mem_append.mp hm with h1 | h1
                · exact hcenter m h1
                · exact noEd_ichildren hro m h1
              · split
                · rename_i hg
                  obtain ⟨l, rfl⟩ := Option.isSome_iff_exists.mp hg.1
                  rw [internalBorrowLeft]
                  refine retNoEdRem_three ?_ ?_ hro
                  · rw [noEdOpt]
                    refine noEd_internal_intro rfl ?_
                    intro m hm
                    exact noEd_ichildren hlo m (List.mem_of_mem_take hm)
                  · refine noEd_internal_intro rfl ?_
                    intro m hm
                    rcases List.mem_append.mp hm with h1 | h1
                    · exact noEd_ichildren hlo m (mem_of_mem_seg h1)
                    · exact hcenter m h1
                · split
                  · rename_i hg
                    obtain ⟨r, rfl⟩ := Option.isSome_iff_exists.mp hg
                    rw [internalBorrowRight]
                    refine retNoEdRem_three hlo ?_ ?_
                    · refine noEd_internal_intro rfl ?_
                      intro m hm
                      rcases List.mem_append.mp hm with h1 | h1
                      · exact hcenter m h1
                      · exact noEd_ichildren hro m (List.mem_of_mem_take h1)
                    · rw [noEdOpt]
                      refine noEd_internal_intro rfl ?_
                      intro m hm
                      exact noEd_ichildren hro m (mem_of_mem_seg hm)
                  · rfl
      · rfl

end NoEdSec

/-! ## Concrete instances used by the claim witnesses -/

section WitnessPrep

/-- Integer three-way comparator. -/
def intCmp (a b : Int) : Int := a - b

/-- Integer equality predicate. -/
def intEq (a b : Int) : Bool := a == b

theorem intCmpLaws : CmpLaws intCmp := by
  constructor
  · intro a b
    simp only [intCmp]
    omega
  · intro a b
    simp only [intCmp]
    omega
  · intro a b c
    simp only [intCmp]
    omega

theorem intEqLaw : ∀ a b : Int, intEq a b = true ↔ a = b := by
  intro a b
  simp [intEq]

end WitnessPrep

/-! ## Transient plumbing: round trip and the transient-after-persistent error -/

section TransientSec

variable {T : Type} [Inhabited T] [DecidableEq T]

/-- C7: `AsTransient().AsPersistent()` hands back the originating handle
itself (with a stale transient): whenever a transient's root was never
replaced, `AsPersistent` returns `orig` by identity; in particular the
immediate round trip on any persistent tree `t` returns `t`. -/
theorem C7_transient_roundtrip (t : PTree T) :
    (∀ u : TTree T, u.edit = true → u.root = u.orig.root →
      ∃ s : TTree T, u.AsPersistent = Except.ok (u.orig, s)) ∧
    ∃ s : TTree T, t.AsTransient.AsPersistent = Except.ok (t, s) := by
  constructor
  · intro u hed hroot
    exact ⟨_, by rw [TTree.AsPersistent, if_neg (by simp [hed]), if_pos hroot]⟩
  · exact ⟨_, by
      rw [TTree.AsPersistent, if_neg (by simp [PTree.AsTransient]),
        if_pos (by simp [PTree.AsTransient])]
      rfl⟩

/-- Closed instance of the C7 round trip on a concrete tree. -/
theorem C7_transient_roundtrip_witness :
    ∃ s : TTree Int,
      (PTree.Empty intCmp intEq).AsTransient.AsPersistent =
        Except.ok (PTree.Empty intCmp intEq, s) :=
  (C7_transient_roundtrip (PTree.Empty intCmp intEq)).2

/-- C8: once a transient's edit token reads false (as after `AsPersistent`,
whose stale handle always reads false), every operation on it fails with
the one named error `tafterP` and has no other effect; on a live transient
(token true) no operation produces that error. -/
theorem C8_transient_after_persistent (t : TTree T) (key : T) :
    (t.edit = false →
      t.Contains key = .error .tafterP ∧
      t.At key = .error .tafterP ∧
      t.Find key = .error .tafterP ∧
      t.Length = .error .tafterP ∧
      t.Add key = .error .tafterP ∧
      t.Delete key = .error .tafterP ∧
      t.Iterator = .error .tafterP ∧
      t.IteratorFrom key = .error .tafterP ∧
      t.AsPersistent = .error .tafterP) ∧
    (∀ p : PTree T, ∀ s : TTree T, t.AsPersistent = .ok (p, s) →
      s.edit = false) ∧
    (t.edit = true →
      (∃ v, t.Contains key = .ok v) ∧ (∃ v, t.At key = .ok v) ∧
      (∃ v, t.Find key = .ok v) ∧ (∃ v, t.Length = .ok v) ∧
      (∃ v, t.Add key = .ok v) ∧ (∃ v, t.Delete key = .ok v) ∧
      (∃ v, t.Iterator = .ok v) ∧ (∃ v, t.IteratorFrom key = .ok v) ∧
      (∃ v, t.AsPersistent = .ok v)) := by
  refine ⟨fun hed => ?_, fun p s hok => ?_, fun hed => ?_⟩
  · refine ⟨?_, ?_, ?_, ?_, ?_, ?_, ?_, ?_, ?_⟩ <;>
      simp [TTree.Contains, TTree.At, TTree.Find, TTree.Length, TTree.Add,
        TTree.Delete, TTree.Iterator, TTree.IteratorFrom, TTree.AsPersistent,
        TTree.guard, hed]
  · rw [TTree.AsPersistent] at hok
    by_cases he : t.edit = false
    · rw [if_pos he] at hok
      cases hok
    · rw [if_neg he] at hok
      by_cases hr : t.root = t.orig.root
      · rw [if_pos hr] at hok
        cases hok
        rfl
      · rw [if_neg hr] at hok
        cases hok
        rfl
  · have hne : ¬(t.edit = false) := by simp [hed]
    refine ⟨?_, ?_, ?_, ?_, ?_, ?_, ?_, ?_, ?_⟩
    · exact ⟨_, by rw [TTree.Contains, TTree.guard, if_pos hed]⟩
    · exact ⟨_, by rw [TTree.At, TTree.guard, if_pos hed]⟩
    · exact ⟨_, by rw [TTree.Find, TTree.guard, if_pos hed]⟩
    · exact ⟨_, by rw [TTree.Length, TTree.guard, if_pos hed]⟩
    · rw [TTree.Add, if_neg hne]
      split <;> exact ⟨_, rfl⟩
    · rw [TTree.Delete, if_neg hne]
      split <;> exact ⟨_, rfl⟩
    · exact ⟨_, by rw [TTree.Iterator, TTree.guard, if_pos hed]⟩
    · exact ⟨_, by rw [TTree.IteratorFrom, TTree.guard, if_pos hed]⟩
    · rw [TTree.AsPersistent, if_neg hne]
      split <;> exact ⟨_, rfl⟩

/-- Closed instance of C8 on a concrete live transient and on one whose
token reads false. -/
theorem C8_transient_after_persistent_witness :
    (∃ v, (PTree.Empty intCmp intEq).AsTransient.Add 3 = .ok v) ∧
    ({ (PTree.Empty intCmp intEq).AsTransient with edit := false } : TTree Int).Add 3 =
      .error .tafterP := by
  constructor
  · exact ((C8_transient_after_persistent
      (PTree.Empty intCmp intEq).AsTransient 3).2.2 rfl).2.2.2.2.1
  · exact ((C8_transient_after_persistent
      { (PTree.Empty intCmp intEq).AsTransient with edit := false } 3).1 rfl).2.2.2.2.1

end TransientSec

/-! ## Reads consult only the comparator -/

section FindSec

variable {T : Type} [Inhabited T] [DecidableEq T]
variable {cmp : T → T → Int}

open BNode

theorem findIdx_congr {A : Type _} {p q : A → Bool} :
    ∀ l : List A, (∀ x ∈ l, p x = q x) → l.findIdx p = l.findIdx q
  | [], _ => rfl
  | a :: l, h => by
    rw [List.findIdx_cons, List.findIdx_cons, h a (List.mem_cons_self a l)]
    cases hq : q a
    · simp only [cond_false]
      rw [findIdx_congr l (fun x hx => h x (List.mem_cons_of_mem a hx))]
    · simp only [cond_true]

/-- Two cmp-equal probes search identically. -/
theorem lsearchFirst_congr (hc : CmpLaws cmp) {k1 k2 : T} (hz : cmp k1 k2 = 0)
    (ks : List T) : lsearchFirst cmp ks k1 = lsearchFirst cmp ks k2 := by
  rw [lsearchFirst, lsearchFirst]
  apply findIdx_congr
  intro x hx
  have hf : cmp x k1 < 0 → cmp x k2 < 0 := fun h => hc.lt_of_lt_of_zero h hz
  have hb : cmp x k2 < 0 → cmp x k1 < 0 := fun h =>
    hc.lt_of_lt_of_zero h ((hc.zero_symm k1 k2).mp hz)
  have h2 : (0 ≤ cmp x k1) ↔ (0 ≤ cmp x k2) := by
    constructor <;> intro hh
    · by_contra hh2
      have := hb (by omega)
      omega
    · by_contra hh2
      have := hf (by omega)
      omega
  simp only [decide_eq_decide]
  exact h2

theorem lsearch_congr (hc : CmpLaws cmp) {k1 k2 : T} (hz : cmp k1 k2 = 0)
    (ks : List T) : lsearch cmp ks k1 = lsearch cmp ks k2 := by
  rw [lsearch, lsearch, lsearchFirst_congr hc hz ks]
  by_cases hC : lsearchFirst cmp ks k2 < ks.length ∧
      cmp k2 (ks.getD (lsearchFirst cmp ks k2) default) = 0
  · rw [if_pos ⟨hC.1, hc.zero_trans hz hC.2⟩, if_pos hC]
  · have hn1 : ¬(lsearchFirst cmp ks k2 < ks.length ∧
        cmp k1 (ks.getD (lsearchFirst cmp ks k2) default) = 0) := fun hC1 =>
      hC ⟨hC1.1, hc.zero_trans ((hc.zero_symm k1 k2).mp hz) hC1.2⟩
    rw [if_neg hn1, if_neg hC]

/-- `node.find` depends on the probe only through `cmp`. -/
theorem nodeFind_congr (hc : CmpLaws cmp) {k1 k2 : T} (hz : cmp k1 k2 = 0) :
    ∀ n : BNode T, nodeFind cmp n k1 = nodeFind cmp n k2 := by
  intro n
  induction n using BNode.inductionOn with
  | hleaf ed cap keys =>
    rw [nodeFind.eq_def, nodeFind.eq_def]
    dsimp only
    rw [lsearch_congr hc hz keys]
  | hinternal ed ks cs ih =>
    rw [nodeFind.eq_def, nodeFind.eq_def]
    dsimp only
    rw [lsearch_congr hc hz ks]
    by_cases h0 : 0 ≤ lsearch cmp ks k2
    · rw [if_pos h0, if_pos h0]
    · rw [if_neg h0, if_neg h0]
      by_cases h1 : (-(lsearch cmp ks k2) - 1).toNat = ks.length
      · rw [if_pos h1, if_pos h1]
      · rw [if_neg h1, if_neg h1]
        by_cases h2 : (-(lsearch cmp ks k2) - 1).toNat < cs.length
        · rw [dif_pos h2, dif_pos h2]
          exact ih _ (List.get_mem cs _ h2)
        · rw [dif_neg h2, dif_neg h2]

/-- A successful `find` hands back a stored element of the probe's class. -/
theorem nodeFind_found_mem (hc : CmpLaws cmp) {key : T} :
    ∀ n : BNode T, wfc cmp n = true → (nodeFind cmp n key).2 = true →
      (nodeFind cmp n key).1 ∈ toList n ∧ cmp (nodeFind cmp n key).1 key = 0 := by
  intro n
  induction n using BNode.inductionOn with
  | hleaf ed cap keys =>
    intro hwf hfound
    rw [nodeFind.eq_def] at hfound ⊢
    dsimp only at hfound ⊢
    by_cases h0 : 0 ≤ lsearch cmp keys key
    · rw [if_pos h0] at hfound ⊢
      obtain ⟨hlt, hz⟩ := lsearch_nonneg h0
      dsimp only
      constructor
      · rw [toList_leaf, List.getD_eq_getElem _ _ hlt]
        exact List.getElem_mem hlt
      · exact (hc.zero_symm key _).mp hz
    · rw [if_neg h0] at hfound
      simp at hfound
  | hinternal ed ks cs ih =>
    intro hwf hfound
    obtain ⟨hlen, hne, hsk, hzip0, hwl, hflat0⟩ := wfc_internal_parts hwf
    rw [nodeFind.eq_def] at hfound ⊢
    dsimp only at hfound ⊢
    by_cases h0 : 0 ≤ lsearch cmp ks key
    · rw [if_pos h0] at hfound ⊢
      obtain ⟨hlt, hz⟩ := lsearch_nonneg h0
      dsimp only
      set j := (lsearch cmp ks key).toNat with hj
      have hjc : j < cs.length := by omega
      constructor
      · have hsep : ks.getD j default ∈ toList cs[j] := by
          rw [List.getD_eq_getElem _ _ hlt, ← (hzip0 j hlt hjc).1,
            maxKey_eq_last (hwl _ (List.getElem_mem hjc)) (hzip0 j hlt hjc).2]
          exact getLastD_mem (hzip0 j hlt hjc).2
        rw [toList_internal_split hjc]
        exact List.mem_append_left _ (List.mem_append_right _ hsep)
      · exact (hc.zero_symm key _).mp hz
    · rw [if_neg h0] at hfound ⊢
      by_cases h1 : (-(lsearch cmp ks key) - 1).toNat = ks.length
      · rw [if_pos h1] at hfound
        simp at hfound
      · rw [if_neg h1] at hfound ⊢
        by_cases h2 : (-(lsearch cmp ks key) - 1).toNat < cs.length
        · rw [dif_pos h2] at hfound ⊢
          obtain ⟨hmem, hcls⟩ := ih _ (List.get_mem cs _ h2)
            (hwl _ (List.get_mem cs _ h2)) hfound
          refine ⟨?_, hcls⟩
          rw [toList_internal_split h2]
          exact List.mem_append_left _ (List.mem_append_right _ hmem)
        · rw [dif_neg h2] at hfound
          simp at hfound

/-- A parity comparator (coarser than equality), for the hyperproperty
witness. -/
def modCmp (a b : Int) : Int := a % 2 - b % 2

theorem modCmpLaws : CmpLaws modCmp := by
  constructor
  · intro a b
    simp only [modCmp]
    omega
  · intro a b
    simp only [modCmp]
    omega
  · intro a b c
    simp only [modCmp]
    omega

/-- C10: the read operations `Contains`, `Find` and `At` consult only the
comparator: cmp-equal probes give identical results, and a successful read
hands back the stored element of the probe's cmp-class (a member of the
tree, cmp-equal to the probe). -/
theorem C10_reads_consult_only_cmp (t : PTree T) (hc : CmpLaws t.cmp)
    (hwf : wfc t.cmp t.root = true) {k1 k2 : T} (hz : t.cmp k1 k2 = 0) :
    t.Contains k1 = t.Contains k2 ∧ t.Find k1 = t.Find k2 ∧
    t.At k1 = t.At k2 ∧
    (t.Contains k1 = true →
      t.At k1 ∈ toList t.root ∧ t.cmp (t.At k1) k1 = 0) := by
  have hcong := nodeFind_congr hc hz t.root
  refine ⟨?_, ?_, ?_, ?_⟩
  · rw [PTree.Contains, PTree.Contains, hcong]
  · rw [PTree.Find, PTree.Find, hcong]
  · rw [PTree.At, PTree.At, hcong]
  · intro hcont
    exact nodeFind_found_mem hc t.root hwf hcont

/-- Closed instance of C10: two different probes of the same parity class
read identically on a concrete tree. -/
theorem C10_reads_consult_only_cmp_witness :
    (PTree.Empty modCmp intEq).Contains 1 =
      (PTree.Empty modCmp intEq).Contains 3 :=
  (C10_reads_consult_only_cmp (PTree.Empty modCmp intEq) modCmpLaws
    (by rw [PTree.Empty, wfc]; rfl) (by decide)).1

end FindSec

/-! ## The frame property: no operation writes into a frozen node -/

section FrameSec

variable {T : Type} [Inhabited T] [DecidableEq T]
variable {cmp : T → T → Int} {eq : T → T → Bool}

open BNode

/-- Whether the status is `returnEarly`, i.e. an in-place write happened. -/
def retIsEarly : NodeRet T → Bool
  | .early _ => true
  | _ => false

theorem retIsEarly_statusRet (b : Bool) (n : BNode T) :
    retIsEarly (statusRet b n) = false := by
  rw [statusRet]
  split <;> rfl

/-- `add` never writes in place below a frozen node, whatever the edit
argument: the in-place paths are guarded by the node's own token. -/
theorem nodeAdd_not_early {edit : Bool} (key : T) :
    ∀ n : BNode T, noEd n = true →
      retIsEarly (nodeAdd cmp eq edit n key) = false := by
  intro n
  induction n using BNode.inductionOn with
  | hleaf ed cap keys =>
    intro hne
    have hed : ed = false := noEd_leaf hne
    subst hed
    have hstep : nodeAdd cmp eq edit (.leaf false cap keys) key =
        leafAdd cmp eq false cap keys key edit := by
      rw [nodeAdd.eq_def]
    rw [hstep]
    simp only [leafAdd]
    split
    · rfl
    · split
      · rename_i h
        exact absurd h.1 Bool.false_ne_true
      · split
        · rfl
        · split
          · rfl
          · simp only [leafSplit]
            split <;> rfl
  | hinternal ed ks cs ih =>
    intro hne
    obtain ⟨hed, hcs⟩ := noEd_internal_parts hne
    subst hed
    rw [nodeAdd.eq_def]
    dsimp only
    split
    · rfl
    · generalize (if (-(lsearchEq cmp eq ks key).1 - 1).toNat = ks.length
        then ks.length - 1 else (-(lsearchEq cmp eq ks key).1 - 1).toNat) = ins
      split
      · rename_i hlt
        have hchild := ih _ (List.get_mem cs _ hlt) (hcs _ (List.get_mem cs _ hlt))
        cases hres : nodeAdd cmp eq edit (cs.get ⟨ins, hlt⟩) key with
        | unchanged => rfl
        | early c =>
          rw [hres] at hchild
          simp [retIsEarly] at hchild
        | one c =>
          show retIsEarly (if false = true
              then internalModifyInPlace eq false ks cs ins c false
              else internalCopyAndModify eq edit ks cs ins c false) = false
          rw [if_neg Bool.false_ne_true]
          exact retIsEarly_statusRet _ _
        | replaced c =>
          show retIsEarly (if false = true
              then internalModifyInPlace eq false ks cs ins c true
              else internalCopyAndModify eq edit ks cs ins c true) = false
          rw [if_neg Bool.false_ne_true]
          exact retIsEarly_statusRet _ _
        | two n1 n2 =>
          show retIsEarly (if ks.length < maxLen
              then internalCopyAndAppend edit ks cs ins n1 n2
              else internalSplit edit ks cs ins n1 n2) = false
          split
          · rfl
          · simp only [internalSplit]
            split <;> first | rfl | (split <;> rfl)
        | three l c r => rfl
      · rfl

set_option maxHeartbeats 1600000 in
/-- `remove` never writes in place below a frozen node, whatever the edit
argument and the siblings passed down. -/
theorem nodeRemove_not_early {edit : Bool} (key : T) :
    ∀ n : BNode T, noEd n = true → ∀ lo ro : Option (BNode T),
      retIsEarly (nodeRemove cmp edit n key lo ro) = false := by
  intro n
  induction n using BNode.inductionOn with
  | hleaf ed cap keys =>
    intro hne lo ro
    have hed : ed = false := noEd_leaf hne
    subst hed
    have hstep : nodeRemove cmp edit (.leaf false cap keys) key lo ro =
        leafRemove cmp false cap keys key lo ro edit := by
      rw [nodeRemove.eq_def]
    rw [hstep]
    simp only [leafRemove]
    split
    · rfl
    · split
      · split
        · rename_i h
          exact absurd h Bool.false_ne_true
        · rfl
      · split
        · rfl
        · split
          · rfl
          · split
            · simp only [leafBorrowLeft]
              split <;> first | rfl | (split <;> rfl)
            · split
              · simp only [leafBorrowRight]
                split <;> first | rfl | (split <;> rfl)
              · rfl
  | hinternal ed ks cs ih =>
    intro hne lo ro
    obtain ⟨hed, hcs⟩ := noEd_internal_parts hne
    subst hed
    rw [nodeRemove.eq_def]
    dsimp only
    generalize (if lsearch cmp ks key < 0
      then (-(lsearch cmp ks key) - 1).toNat
      else (lsearch cmp ks key).toNat) = idx
    split
    · rfl
    · generalize hlcg : (if 0 < idx
        then some (cs.getD (idx - 1) default) else none) = lc
      generalize hrcg : (if idx < ks.length - 1
        then some (cs.getD (idx + 1) default) else none) = rc
      split
      · rename_i hlt
        have hchild := ih _ (List.get_mem cs _ hlt) (hcs _ (List.get_mem cs _ hlt))
          lc rc
        cases hres : nodeRemove cmp edit (cs.get ⟨idx, hlt⟩) key lc rc with
        | unchanged => rfl
        | early c =>
          rw [hres] at hchild
          simp [retIsEarly] at hchild
        | one c => rfl
        | replaced c => rfl
        | two a b => rfl
        | three n0 n1 n2 =>
          dsimp only
          generalize (cs.length - 1 - (if lc.isSome = true then 1 else 0) -
            (if rc.isSome = true then 1 else 0) +
            (if n0.isSome = true then 1 else 0) + 1 +
            (if n2.isSome = true then 1 else 0)) = nl
          split
          · split
            · rename_i h
              exact absurd h.1 Bool.false_ne_true
            · rfl
          · split
            · rfl
            · split
              · rfl
              · split
                · rfl
                · split
                  · rfl
                  · rfl
      · rfl

/-- C5: persistence of frozen structure.  Forking a transient shares the
root; a persistent `Add`/`Delete` leaves the original handle's (frozen)
root in place and installs only freshly built frozen nodes in the new
handle; and no mutator — persistent or transient (any edit argument) —
ever takes an in-place write path through a node whose edit token is
false, which is why later mutations of `t1 = t0.Add x` (or of transients
forked from it) cannot change what `t0` observes. -/
theorem C5_persistence_frame (t0 : PTree T) (x key : T) (e : Bool)
    (hed : t0.edit = false) (hne : noEd t0.root = true) :
    t0.AsTransient.root = t0.root ∧
    (t0.Add x).edit = false ∧ noEd ((t0.Add x).root) = true ∧
    (t0.Delete x).edit = false ∧ noEd ((t0.Delete x).root) = true ∧
    retIsEarly (nodeAdd t0.cmp t0.eq e t0.root key) = false ∧
    (∀ lo ro : Option (BNode T),
      retIsEarly (nodeRemove t0.cmp e t0.root key lo ro) = false) := by
  refine ⟨rfl, ?_, ?_, ?_, ?_, nodeAdd_not_early key t0.root hne,
    fun lo ro => nodeRemove_not_early key t0.root hne lo ro⟩
  · rw [PTree.Add]
    split <;> exact hed
  · have h : retNoEdAdd (nodeAdd t0.cmp t0.eq false t0.root x) = true :=
      nodeAdd_noEd x t0.root hne
    rw [PTree.Add, hed]
    revert h
    cases hres : nodeAdd t0.cmp t0.eq false t0.root x with
    | unchanged => exact fun _ => hne
    | early c => exact fun h => by simp [retNoEdAdd] at h
    | one c => exact fun h => h
    | replaced c => exact fun h => h
    | two n1 n2 =>
      intro h
      simp only [retNoEdAdd, Bool.and_eq_true] at h
      exact noEd_internal_intro rfl (by
        intro m hm
        rcases List.mem_cons.mp hm with rfl | hm2
        · exact h.1
        · rcases List.mem_cons.mp hm2 with rfl | hm3
          · exact h.2
          · simp at hm3)
    | three l c r => exact fun _ => hne
  · rw [PTree.Delete]
    split <;> exact hed
  · have h : retNoEdRem (nodeRemove t0.cmp false t0.root x none none) = true :=
      nodeRemove_noEd x t0.root hne none none rfl rfl
    rw [PTree.Delete, hed]
    revert h
    cases hres : nodeRemove t0.cmp false t0.root x none none with
    | unchanged => exact fun _ => hne
    | early c => exact fun h => by simp [retNoEdRem] at h
    | one c => exact fun _ => hne
    | replaced c => exact fun _ => hne
    | two a b => exact fun _ => hne
    | three l c r =>
      intro h
      simp only [retNoEdRem, Bool.and_eq_true] at h
      obtain ⟨⟨hl, hcen⟩, hr⟩ := h
      cases c with
      | leaf ed2 cap2 keys2 => exact hcen
      | internal ed2 ks2 cs2 =>
        dsimp only
        split
        · exact noEd_getD (noEd_internal_parts hcen).2 0
        · exact hcen

/-- Closed instance of C5 on a concrete persistent tree. -/
theorem C5_persistence_frame_witness :
    (PTree.Empty intCmp intEq).AsTransient.root =
        (PTree.Empty intCmp intEq).root ∧
    noEd (((PTree.Empty intCmp intEq).Add 3).root) = true := by
  have h := C5_persistence_frame (PTree.Empty intCmp intEq) 3 3 true rfl
    (by show noEd (.leaf false (newLeafCap 0 false) []) = true; rw [noEd]; rfl)
  exact ⟨h.1, h.2.2.1⟩

end FrameSec

/-! ## Root-level semantics of the persistent Add and Delete -/

section RootOps

variable {T : Type} [Inhabited T] [DecidableEq T]
variable {cmp : T → T → Int}

open BNode

/-- C1: replace-vs-insert semantics of the persistent `Add` on a well-formed
frozen tree (with lawful `cmp` and an `eq` deciding equality): an element
already stored (cmp-equal and eq-equal) leaves the identical handle; a
cmp-equal but not eq-equal occupant is replaced by `e` at unchanged length;
otherwise `e` is inserted and the length grows by one. -/
theorem C1_add_replace_vs_insert (t : PTree T) (e : T)
    (hc : CmpLaws t.cmp) (heq : ∀ a b, t.eq a b = true ↔ a = b)
    (hwf : wfc t.cmp t.root = true) (hne : noEd t.root = true)
    (hed : t.edit = false) :
    (e ∈ toList t.root → t.Add e = t) ∧
    ((∃ d ∈ toList t.root, t.cmp e d = 0) → e ∉ toList t.root →
      toList (t.Add e).root = linsert t.cmp (toList t.root) e ∧
      (t.Add e).Length = t.Length) ∧
    ((∀ d ∈ toList t.root, t.cmp e d ≠ 0) →
      e ∈ toList (t.Add e).root ∧ (t.Add e).Length = t.Length + 1) := by
  have hspec : AddSpec t.cmp (toList t.root) e (nodeAdd t.cmp t.eq t.edit t.root e) :=
    nodeAdd_spec hc heq t.root hwf
  have hnoe : retNoEdAdd (nodeAdd t.cmp t.eq t.edit t.root e) = true := by
    rw [hed]
    exact nodeAdd_noEd e t.root hne
  cases hres : nodeAdd t.cmp t.eq t.edit t.root e with
  | unchanged =>
    rw [hres] at hspec
    have hadd : t.Add e = t := by rw [PTree.Add, hres]
    refine ⟨fun _ => hadd, fun _ habs => absurd hspec habs,
      fun habs => absurd (hc.refl e) (habs e hspec)⟩
  | early c =>
    rw [hres] at hnoe
    simp [retNoEdAdd] at hnoe
  | one c =>
    rw [hres] at hspec
    obtain ⟨habs0, hctl, hcwf⟩ := hspec
    have hadd : t.Add e = { t with root := c, count := t.count + 1, version := t.version + 1 } := by
      rw [PTree.Add, hres]
    refine ⟨fun hmem => absurd (hc.refl e) (habs0 e hmem),
      fun hex _ => absurd hex (by
        rintro ⟨d, hd, hz⟩
        exact habs0 d hd hz), fun _ => ?_⟩
    constructor
    · rw [hadd]
      show e ∈ toList c
      rw [hctl]
      exact key_mem_linsert (toList t.root) e
    · rw [hadd]
      rfl
  | replaced c =>
    rw [hres] at hspec
    obtain ⟨⟨d, hd, hz⟩, hnm, hctl, hcwf⟩ := hspec
    have hadd : t.Add e = { t with root := c, version := t.version + 1 } := by
      rw [PTree.Add, hres]
    refine ⟨fun hmem => absurd hmem hnm, fun _ _ => ⟨?_, ?_⟩,
      fun habs => absurd hz (habs d hd)⟩
    · rw [hadd]
      exact hctl
    · rw [hadd]
      rfl
  | two n1 n2 =>
    rw [hres] at hspec
    obtain ⟨habs0, hconcat, hwf1, hwf2, hne1, hne2⟩ := hspec
    have hadd : t.Add e = { t with root := .internal t.edit [n1.maxKey, n2.maxKey] [n1, n2], count := t.count + 1, version := t.version + 1 } := by
      rw [PTree.Add, hres]
    refine ⟨fun hmem => absurd (hc.refl e) (habs0 e hmem),
      fun hex _ => absurd hex (by
        rintro ⟨d, hd, hz⟩
        exact habs0 d hd hz), fun _ => ?_⟩
    constructor
    · rw [hadd]
      show e ∈ toList (.internal t.edit [n1.maxKey, n2.maxKey] [n1, n2])
      rw [toList_internal]
      simp only [List.map_cons, List.map_nil, List.flatten_cons,
        List.flatten_nil, List.append_nil]
      rw [hconcat]
      exact key_mem_linsert (toList t.root) e
    · rw [hadd]
      rfl
  | three l c r =>
    rw [hres] at hspec
    exact hspec.elim

/-- Closed instance of C1 on a concrete tree (the insert case). -/
theorem C1_add_replace_vs_insert_witness :
    3 ∈ toList ((PTree.Empty intCmp intEq).Add 3).root ∧
    ((PTree.Empty intCmp intEq).Add 3).Length =
      (PTree.Empty intCmp intEq).Length + 1 :=
  (C1_add_replace_vs_insert (PTree.Empty intCmp intEq) 3 intCmpLaws intEqLaw
    (by show wfc intCmp (.leaf false (newLeafCap 0 false) []) = true
        rw [wfc]
        rfl)
    (by show noEd (.leaf false (newLeafCap 0 false) []) = true
        rw [noEd]
        rfl)
    rfl).2.2 (by
      intro d hd
      rw [show (PTree.Empty intCmp intEq).root = .leaf false (newLeafCap 0 false) [] from rfl,
        toList_leaf] at hd
      exact absurd hd (List.not_mem_nil d))

set_option maxHeartbeats 1600000 in
/-- Removing a class that is absent from the content is a no-op at every
node, whatever the edit argument and siblings. -/
theorem nodeRemove_absent_unchanged {edit : Bool} {key : T} :
    ∀ n : BNode T, (∀ d ∈ toList n, cmp key d ≠ 0) →
      ∀ lo ro : Option (BNode T),
        nodeRemove cmp edit n key lo ro = .unchanged := by
  intro n
  induction n using BNode.inductionOn with
  | hleaf ed cap keys =>
    intro habs lo ro
    have hstep : nodeRemove cmp edit (.leaf ed cap keys) key lo ro =
        leafRemove cmp ed cap keys key lo ro edit := by
      rw [nodeRemove.eq_def]
    rw [hstep]
    have hv : lsearch cmp keys key < 0 := by
      by_contra hnn
      have h0 : 0 ≤ lsearch cmp keys key := by omega
      obtain ⟨hlt, hz⟩ := lsearch_nonneg h0
      have hmem : keys.getD (lsearch cmp keys key).toNat default ∈ keys := by
        rw [List.getD_eq_getElem _ _ hlt]
        exact List.getElem_mem hlt
      exact habs _ (by rw [toList_leaf]; exact hmem) hz
    simp only [leafRemove]
    rw [if_pos hv]
  | hinternal ed ks cs ih =>
    intro habs lo ro
    rw [nodeRemove.eq_def]
    dsimp only
    generalize (if lsearch cmp ks key < 0
      then (-(lsearch cmp ks key) - 1).toNat
      else (lsearch cmp ks key).toNat) = idx
    split
    · rfl
    · split
      · rename_i hlt
        have habs2 : ∀ d ∈ toList (cs.get ⟨_, hlt⟩), cmp key d ≠ 0 := by
          intro d hd
          refine habs d ?_
          rw [toList_internal]
          exact List.mem_flatten.mpr
            ⟨_, List.mem_map_of_mem toList (List.get_mem cs _ hlt), hd⟩
        rw [ih _ (List.get_mem cs _ hlt) habs2 _ _]
      · rfl

/-- After a sorted list loses its compare-equal element, the class is
absent. -/
theorem lremove_class_absent (hc : CmpLaws cmp) :
    ∀ L : List T, SortedL cmp L → ∀ key, ∀ d ∈ lremove cmp L key,
      cmp key d ≠ 0
  | [], _, key, d, hd => by simp [lremove] at hd
  | a :: as, hs, key, d, hd => by
    rw [lremove] at hd
    split at hd
    · rename_i hz
      intro hzd
      have hlt : cmp a d < 0 := (List.pairwise_cons.mp hs).1 d hd
      have h1 : cmp key d < 0 := hc.lt_of_zero_of_lt hz hlt
      omega
    · rename_i hnz
      rcases List.mem_cons.mp hd with rfl | hd2
      · exact hnz
      · exact lremove_class_absent hc as (List.pairwise_cons.mp hs).2 key d hd2

set_option maxHeartbeats 1600000 in
/-- At the root (no siblings), a `three` return carries empty outer
slots. -/
theorem nodeRemove_root_three {edit : Bool} {key : T} (n : BNode T)
    {l : Option (BNode T)} {c : BNode T} {r : Option (BNode T)}
    (h : nodeRemove cmp edit n key none none = .three l c r) :
    l = none ∧ r = none := by
  cases n with
  | leaf ed cap keys =>
    have hstep : nodeRemove cmp edit (.leaf ed cap keys) key none none =
        leafRemove cmp ed cap keys key none none edit := by
      rw [nodeRemove.eq_def]
    rw [hstep] at h
    simp only [leafRemove] at h
    split at h
    · cases h
    · split at h
      · split at h
        · split at h
          · cases h
            exact ⟨rfl, rfl⟩
          · cases h
        · cases h
          exact ⟨rfl, rfl⟩
      · rename_i hcond
        simp at hcond
  | internal ed ks cs =>
    rw [nodeRemove.eq_def] at h
    dsimp only at h
    revert h
    generalize (if lsearch cmp ks key < 0
      then (-(lsearch cmp ks key) - 1).toNat
      else (lsearch cmp ks key).toNat) = idx
    intro h
    split at h
    · cases h
    · split at h
      · rename_i hlt
        revert h
        generalize hlcg : (if 0 < idx
          then some (cs.getD (idx - 1) default) else none) = lc
        generalize hrcg : (if idx < ks.length - 1
          then some (cs.getD (idx + 1) default) else none) = rc
        intro h
        cases hres2 : nodeRemove cmp edit (cs.get ⟨idx, hlt⟩) key lc rc with
        | unchanged =>
          rw [hres2] at h
          cases h
        | early c2 =>
          rw [hres2] at h
          cases h
        | one c2 =>
          rw [hres2] at h
          cases h
        | replaced c2 =>
          rw [hres2] at h
          cases h
        | two a b =>
          rw [hres2] at h
          cases h
        | three n0 n1 n2 =>
          rw [hres2] at h
          dsimp only at h
          revert h
          generalize (cs.length - 1 - (if lc.isSome = true then 1 else 0) -
            (if rc.isSome = true then 1 else 0) +
            (if n0.isSome = true then 1 else 0) + 1 +
            (if n2.isSome = true then 1 else 0)) = nl
          intro h
          split at h
          · split at h
            · cases h
            · cases h
              exact ⟨rfl, rfl⟩
          · rename_i hcond
            simp at hcond
      · cases h

set_option maxHeartbeats 800000 in
/-- C9: deleting an absent class returns the identical handle, `Delete` is
idempotent, and `Empty.Delete` is the empty handle itself. -/
theorem C9_delete_absent_idempotent (t : PTree T) (k : T)
    (hc : CmpLaws t.cmp) (hwf : wfc t.cmp t.root = true)
    (hun : uniformB t.root = true) (hmin : min2 t.root = true)
    (hne : noEd t.root = true) (hed : t.edit = false) :
    ((∀ d ∈ toList t.root, t.cmp k d ≠ 0) → t.Delete k = t) ∧
    (t.Delete k).Delete k = t.Delete k ∧
    (∀ cmp0 : T → T → Int, ∀ eq0 : T → T → Bool,
      (PTree.Empty cmp0 eq0).Delete k = PTree.Empty cmp0 eq0) := by
  have habs_id : ∀ u : PTree T, (∀ d ∈ toList u.root, u.cmp k d ≠ 0) →
      u.Delete k = u := by
    intro u habs
    rw [PTree.Delete, nodeRemove_absent_unchanged u.root habs none none]
  refine ⟨habs_id t, ?_, fun cmp0 eq0 => habs_id _ (by
    intro d hd
    rw [show (PTree.Empty cmp0 eq0).root = .leaf false (newLeafCap 0 false) [] from rfl,
      toList_leaf] at hd
    exact absurd hd (List.not_mem_nil d))⟩
  by_cases hpres : ∀ d ∈ toList t.root, t.cmp k d ≠ 0
  · rw [habs_id t hpres]
    exact habs_id t hpres
  · push_neg at hpres
    obtain ⟨d0, hd0, hz0⟩ := hpres
    have hspec : RemoveSpec t.cmp (toList t.root) k none none
        (nodeRemove t.cmp t.edit t.root k none none) :=
      nodeRemove_spec hc t.root none none hwf hun hmin
        (by intro m hm; cases hm) (by intro m hm; cases hm)
        (by simpa using toList_sorted hc hwf)
    have hnoe : retNoEdRem (nodeRemove t.cmp t.edit t.root k none none) = true := by
      rw [hed]
      exact nodeRemove_noEd k t.root hne none none rfl rfl
    cases hres : nodeRemove t.cmp t.edit t.root k none none with
    | unchanged =>
      rw [hres] at hspec
      exact absurd hz0 (hspec d0 hd0)
    | early c =>
      rw [hres] at hnoe
      simp [retNoEdRem] at hnoe
    | one c =>
      rw [hres] at hspec
      exact hspec.elim
    | replaced c =>
      rw [hres] at hspec
      exact hspec.elim
    | two a b =>
      rw [hres] at hspec
      exact hspec.elim
    | three l2 c2 r2 =>
      obtain ⟨hl0, hr0⟩ := nodeRemove_root_three t.root hres
      subst hl0
      subst hr0
      rw [hres] at hspec
      obtain ⟨hex, hconcat, _, hc2wf, _, _⟩ := hspec
      simp only [optList_none, List.nil_append, List.append_nil] at hconcat
      have habs3 : ∀ d ∈ lremove t.cmp (toList t.root) k, t.cmp k d ≠ 0 :=
        lremove_class_absent hc (toList t.root) (toList_sorted hc hwf) k
      cases c2 with
      | leaf ed2 cap2 keys2 =>
        have hdel : t.Delete k = { t with root := .leaf ed2 cap2 keys2, count := t.count - 1, version := t.version + 1 } := by
          rw [PTree.Delete, hres]
        refine habs_id _ ?_
        rw [hdel]
        intro d hd
        exact habs3 d (by rw [← hconcat]; exact hd)
      | internal ed2 ks2 cs2 =>
        have hdel : t.Delete k = { t with root := if cs2.length = 1 then cs2.getD 0 default else .internal ed2 ks2 cs2, count := t.count - 1, version := t.version + 1 } := by
          rw [PTree.Delete, hres]
        by_cases hlen1 : cs2.length = 1
        · rw [if_pos hlen1] at hdel
          obtain ⟨c0, rfl⟩ := List.length_eq_one.mp hlen1
          have hcnt : toList (([c0] : List (BNode T)).getD 0 default) =
              toList (.internal ed2 ks2 [c0]) := by
            rw [toList_internal]
            simp
          refine habs_id _ ?_
          rw [hdel]
          intro d hd
          refine habs3 d ?_
          rw [← hconcat, ← hcnt]
          exact hd
        · rw [if_neg hlen1] at hdel
          refine habs_id _ ?_
          rw [hdel]
          intro d hd
          exact habs3 d (by rw [← hconcat]; exact hd)

/-- Closed instance of C9 on a concrete tree. -/
theorem C9_delete_absent_idempotent_witness :
    (PTree.Empty intCmp intEq).Delete 5 = PTree.Empty intCmp intEq :=
  (C9_delete_absent_idempotent (PTree.Empty intCmp intEq) 5 intCmpLaws
    (by show wfc intCmp (.leaf false (newLeafCap 0 false) []) = true
        rw [wfc]
        rfl)
    (by show uniformB (.leaf false (newLeafCap 0 false) [] : BNode Int) = true
        rw [uniformB])
    (by show min2 (.leaf false (newLeafCap 0 false) [] : BNode Int) = true
        rw [min2])
    (by show noEd (.leaf false (newLeafCap 0 false) [] : BNode Int) = true
        rw [noEd]
        rfl)
    rfl).1 (by
      intro d hd
      rw [show (PTree.Empty intCmp intEq).root = .leaf false (newLeafCap 0 false) [] from rfl,
        toList_leaf] at hd
      exact absurd hd (List.not_mem_nil d))

end RootOps

/-! ## What the iterator still has to yield -/

section IterSpec

variable {T : Type} [Inhabited T] [DecidableEq T]
variable {cmp : T → T → Int}

open BNode

/-- What one stack frame still has to yield. -/
def frameRem : BNode T × Nat → List T
  | (.leaf _ _ keys, cur) => keys.drop cur
  | (.internal _ _ cs, cur) => ((cs.drop cur).map toList).flatten

/-- What the whole stack still has to yield (topmost frame first). -/
def stackRem (st : List (BNode T × Nat)) : List T :=
  (st.map frameRem).flatten

theorem stackRem_cons (f : BNode T × Nat) (st : List (BNode T × Nat)) :
    stackRem (f :: st) = frameRem f ++ stackRem st := by
  simp [stackRem]

theorem frameRem_zero (n : BNode T) : frameRem (n, 0) = toList n := by
  cases n with
  | leaf ed cap keys => simp [frameRem]
  | internal ed ks cs => simp [frameRem]

/-- Every node on the stack is well-formed. -/
def GoodStack (cmp : T → T → Int) (st : List (BNode T × Nat)) : Prop :=
  ∀ f ∈ st, wfc cmp f.1 = true

theorem goodStack_cons {f : BNode T × Nat} {st : List (BNode T × Nat)} :
    GoodStack cmp (f :: st) ↔ wfc cmp f.1 = true ∧ GoodStack cmp st := by
  constructor
  · intro h
    exact ⟨h f (List.mem_cons_self f st), fun g hg => h g (List.mem_cons_of_mem f hg)⟩
  · rintro ⟨h1, h2⟩ g hg
    rcases List.mem_cons.mp hg with rfl | hg2
    · exact h1
    · exact h2 g hg2

theorem frameRem_internal_split {ed : Bool} {ks : List T}
    {cs : List (BNode T)} {cur : Nat} (h : cur < cs.length) :
    frameRem ((BNode.internal ed ks cs : BNode T), cur) =
      toList (cs.get ⟨cur, h⟩) ++
        frameRem ((BNode.internal ed ks cs : BNode T), cur + 1) := by
  show ((cs.drop cur).map toList).flatten = _
  rw [List.drop_eq_getElem_cons h]
  simp only [List.map_cons, List.flatten_cons]
  rfl

/-- `HasNext` repositions the stack without changing what remains. -/
theorem hasNextA_rem (st : List (BNode T × Nat)) :
    stackRem (hasNextA st).2 = stackRem st := by
  induction st using hasNextA.induct with
  | case1 => rw [hasNextA.eq_def]
  | case2 ed1 cap1 keys cur rest h =>
    rw [hasNextA.eq_def]
    simp [h]
  | case3 ed1 cap1 keys cur h =>
    rw [hasNextA.eq_def]
    simp [h]
  | case4 ed1 cap1 keys cur h p ps ih =>
    rw [hasNextA.eq_def]
    simp only [if_neg h]
    rw [ih]
    conv_rhs => rw [stackRem_cons]
    rw [show frameRem ((BNode.leaf ed1 cap1 keys : BNode T), cur) =
      keys.drop cur from rfl]
    rw [List.drop_eq_nil_of_le (by omega), List.nil_append]
  | case5 ed1 keys children cur rest h child hleaf =>
    rw [hasNextA.eq_def]
    simp only [dif_pos h]
    have hleaf2 : (children.get ⟨cur, h⟩).isLeaf = true := hleaf
    rw [if_pos hleaf2]
    dsimp only
    rw [stackRem_cons, stackRem_cons, stackRem_cons, frameRem_zero,
      frameRem_internal_split h, List.append_assoc]
  | case6 ed1 keys children cur rest h child pushed hleaf ih =>
    rw [hasNextA.eq_def]
    simp only [dif_pos h]
    have hleaf2 : ¬(children.get ⟨cur, h⟩).isLeaf = true := hleaf
    rw [if_neg hleaf2]
    have hpu : stackRem (hasNextA pushed).2 =
        stackRem (hasNextA ((children.get ⟨cur, h⟩, 0) ::
          (BNode.internal ed1 keys children, cur + 1) :: rest)).2 := rfl
    have hpu2 : stackRem pushed =
        stackRem ((children.get ⟨cur, h⟩, 0) ::
          (BNode.internal ed1 keys children, cur + 1) :: rest) := rfl
    rw [← hpu, ih, hpu2, stackRem_cons, stackRem_cons, stackRem_cons,
      frameRem_zero, frameRem_internal_split h, List.append_assoc]
  | case7 ed1 keys children cur h =>
    rw [hasNextA.eq_def]
    simp [h]
  | case8 ed1 keys children cur h p ps ih =>
    rw [hasNextA.eq_def]
    simp only [dif_neg h]
    rw [ih]
    conv_rhs => rw [stackRem_cons]
    rw [show frameRem ((BNode.internal ed1 keys children : BNode T), cur) =
      ((children.drop cur).map toList).flatten from rfl]
    rw [List.drop_eq_nil_of_le (by omega)]
    rw [List.map_nil, List.flatten_nil, List.nil_append]

/-- When `HasNext` reports false, nothing remains. -/
theorem hasNextA_false_rem {st : List (BNode T × Nat)}
    (hf : (hasNextA st).1 = false) : stackRem st = [] := by
  induction st using hasNextA.induct with
  | case1 => rfl
  | case2 ed1 cap1 keys cur rest h =>
    rw [hasNextA.eq_def] at hf
    simp [h] at hf
  | case3 ed1 cap1 keys cur h =>
    rw [stackRem_cons]
    rw [show frameRem ((BNode.leaf ed1 cap1 keys : BNode T), cur) =
      keys.drop cur from rfl]
    rw [List.drop_eq_nil_of_le (by omega)]
    rfl
  | case4 ed1 cap1 keys cur h p ps ih =>
    rw [hasNextA.eq_def] at hf
    simp only [if_neg h] at hf
    rw [stackRem_cons, ih hf]
    rw [show frameRem ((BNode.leaf ed1 cap1 keys : BNode T), cur) =
      keys.drop cur from rfl]
    rw [List.drop_eq_nil_of_le (by omega)]
    rfl
  | case5 ed1 keys children cur rest h child hleaf =>
    rw [hasNextA.eq_def] at hf
    simp only [dif_pos h] at hf
    have hleaf2 : (children.get ⟨cur, h⟩).isLeaf = true := hleaf
    rw [if_pos hleaf2] at hf
    cases hf
  | case6 ed1 keys children cur rest h child pushed hleaf ih =>
    rw [hasNextA.eq_def] at hf
    simp only [dif_pos h] at hf
    have hleaf2 : ¬(children.get ⟨cur, h⟩).isLeaf = true := hleaf
    rw [if_neg hleaf2] at hf
    have hpu : stackRem pushed =
        stackRem ((children.get ⟨cur, h⟩, 0) ::
          (BNode.internal ed1 keys children, cur + 1) :: rest) := rfl
    have h2 := ih hf
    rw [hpu, stackRem_cons, stackRem_cons, frameRem_zero] at h2
    rw [List.append_eq_nil] at h2
    obtain ⟨hA, hB⟩ := h2
    rw [List.append_eq_nil] at hB
    obtain ⟨hB1, hB2⟩ := hB
    rw [stackRem_cons, frameRem_internal_split h, hA, hB1, hB2]
    rfl
  | case7 ed1 keys children cur h =>
    rw [stackRem_cons]
    rw [show frameRem ((BNode.internal ed1 keys children : BNode T), cur) =
      ((children.drop cur).map toList).flatten from rfl]
    rw [List.drop_eq_nil_of_le (by omega)]
    rfl
  | case8 ed1 keys children cur h p ps ih =>
    rw [hasNextA.eq_def] at hf
    simp only [dif_neg h] at hf
    rw [stackRem_cons, ih hf]
    rw [show frameRem ((BNode.internal ed1 keys children : BNode T), cur) =
      ((children.drop cur).map toList).flatten from rfl]
    rw [List.drop_eq_nil_of_le (by omega)]
    rfl

/-- `HasNext` keeps the stack well-formed. -/
theorem hasNextA_good {st : List (BNode T × Nat)} (hg : GoodStack cmp st) :
    GoodStack cmp (hasNextA st).2 := by
  induction st using hasNextA.induct with
  | case1 =>
    rw [hasNextA.eq_def]
    exact hg
  | case2 ed1 cap1 keys cur rest h =>
    rw [hasNextA.eq_def]
    simp only [if_pos h]
    exact hg
  | case3 ed1 cap1 keys cur h =>
    rw [hasNextA.eq_def]
    simp [h]
    exact hg
  | case4 ed1 cap1 keys cur h p ps ih =>
    rw [hasNextA.eq_def]
    simp only [if_neg h]
    exact ih (goodStack_cons.mp hg).2
  | case5 ed1 keys children cur rest h child hleaf =>
    rw [hasNextA.eq_def]
    simp only [dif_pos h]
    have hleaf2 : (children.get ⟨cur, h⟩).isLeaf = true := hleaf
    rw [if_pos hleaf2]
    dsimp only
    obtain ⟨hw, hrest⟩ := goodStack_cons.mp hg
    refine goodStack_cons.mpr ⟨?_, goodStack_cons.mpr ⟨hw, hrest⟩⟩
    exact (wfc_internal_parts hw).2.2.2.2.1 _ (List.get_mem children _ h)
  | case6 ed1 keys children cur rest h child pushed hleaf ih =>
    rw [hasNextA.eq_def]
    simp only [dif_pos h]
    have hleaf2 : ¬(children.get ⟨cur, h⟩).isLeaf = true := hleaf
    rw [if_neg hleaf2]
    obtain ⟨hw, hrest⟩ := goodStack_cons.mp hg
    exact ih (goodStack_cons.mpr
      ⟨(wfc_internal_parts hw).2.2.2.2.1 _ (List.get_mem children _ h),
        goodStack_cons.mpr ⟨hw, hrest⟩⟩)
  | case7 ed1 keys children cur h =>
    rw [hasNextA.eq_def]
    simp [h]
    exact hg
  | case8 ed1 keys children cur h p ps ih =>
    rw [hasNextA.eq_def]
    simp only [dif_neg h]
    exact ih (goodStack_cons.mp hg).2

/-- When `HasNext` reports true, the repositioned stack's top is a leaf
with its cursor on a live key. -/
theorem hasNextA_true_shape {st : List (BNode T × Nat)}
    (hg : GoodStack cmp st) (ht : (hasNextA st).1 = true) :
    ∃ ed cap keys cur rest,
      (hasNextA st).2 = ((BNode.leaf ed cap keys : BNode T), cur) :: rest ∧
      cur < keys.length := by
  induction st using hasNextA.induct with
  | case1 =>
    rw [hasNextA.eq_def] at ht
    cases ht
  | case2 ed1 cap1 keys cur rest h =>
    rw [hasNextA.eq_def]
    simp only [if_pos h]
    exact ⟨ed1, cap1, keys, cur, rest, rfl, h⟩
  | case3 ed1 cap1 keys cur h =>
    rw [hasNextA.eq_def] at ht
    simp [h] at ht
  | case4 ed1 cap1 keys cur h p ps ih =>
    rw [hasNextA.eq_def] at ht ⊢
    simp only [if_neg h] at ht ⊢
    exact ih (goodStack_cons.mp hg).2 ht
  | case5 ed1 keys children cur rest h child hleaf =>
    rw [hasNextA.eq_def]
    simp only [dif_pos h]
    have hleaf2 : (children.get ⟨cur, h⟩).isLeaf = true := hleaf
    rw [if_pos hleaf2]
    dsimp only
    obtain ⟨hw, hrest⟩ := goodStack_cons.mp hg
    obtain ⟨hlen, hne, hsk, hzip0, hwl, hflat0⟩ := wfc_internal_parts hw
    have hnec : toList (children.get ⟨cur, h⟩) ≠ [] :=
      (hzip0 cur (by omega) h).2
    cases hch : children.get ⟨cur, h⟩ with
    | leaf ed2 cap2 keys2 =>
      refine ⟨ed2, cap2, keys2, 0, _, rfl, ?_⟩
      rw [hch, toList_leaf] at hnec
      cases keys2 with
      | nil => exact absurd rfl hnec
      | cons a as => simp
    | internal ed2 ks2 cs2 =>
      rw [hch] at hleaf2
      cases hleaf2
  | case6 ed1 keys children cur rest h child pushed hleaf ih =>
    rw [hasNextA.eq_def] at ht ⊢
    simp only [dif_pos h] at ht ⊢
    have hleaf2 : ¬(children.get ⟨cur, h⟩).isLeaf = true := hleaf
    rw [if_neg hleaf2] at ht ⊢
    obtain ⟨hw, hrest⟩ := goodStack_cons.mp hg
    exact ih (goodStack_cons.mpr
      ⟨(wfc_internal_parts hw).2.2.2.2.1 _ (List.get_mem children _ h),
        goodStack_cons.mpr ⟨hw, hrest⟩⟩) ht
  | case7 ed1 keys children cur h =>
    rw [hasNextA.eq_def] at ht
    simp [h] at ht
  | case8 ed1 keys children cur h p ps ih =>
    rw [hasNextA.eq_def] at ht ⊢
    simp only [dif_neg h] at ht ⊢
    exact ih (goodStack_cons.mp hg).2 ht

end IterSpec

end BtreeSpec